import Mathlib

/-!
Verification of the pysongbook core (chord grammar, song model,
normalization passes, plain and LaTeX dialect formats) against its
natural-language specification.  Python strings are embedded as `List Char`
(`PyStr`); fallible Python code returns `Option` or `Except`; machine
integers are `Nat`/`Int`.
-/

set_option maxHeartbeats 1000000

abbrev PyStr := List Char

/-- Python `\s` (ASCII whitespace as used by `str.strip`, `re` on these inputs). -/
def isPyWs (c : Char) : Bool :=
  c == ' ' || c == '\t' || c == '\n' || c == '\r' || c == '\x0b' || c == '\x0c'

/-- Python regex `\w` (ASCII portion). -/
def isWordChar (c : Char) : Bool := c.isAlphanum || c == '_'

/-- Python `str.strip()`. -/
def pyStrip (s : PyStr) : PyStr :=
  ((s.dropWhile isPyWs).reverse.dropWhile isPyWs).reverse

/-- Python `str.rstrip()`. -/
def pyRstrip (s : PyStr) : PyStr := (s.reverse.dropWhile isPyWs).reverse

/-- Python `str.lstrip()`. -/
def pyLstrip (s : PyStr) : PyStr := s.dropWhile isPyWs

/-- Python `str.lstrip("\n")`. -/
def pyLstripNl (s : PyStr) : PyStr := s.dropWhile (· == '\n')

/-- Python `str.removesuffix`. -/
def removeSuffix (s suf : PyStr) : PyStr :=
  if suf.isSuffixOf s then s.take (s.length - suf.length) else s

/-- Helper for Python `str.find`: first index at which `pat` starts in the
remaining text, counting from `i`. -/
def strFindAux (pat : PyStr) : Nat → PyStr → Option Nat
  | i, [] => if pat.isEmpty then some i else none
  | i, c :: r => if pat.isPrefixOf (c :: r) then some i else strFindAux pat (i + 1) r

/-- Python `s.find(pat)` (`-1` when absent). -/
def pyFind (s pat : PyStr) : Int :=
  match strFindAux pat 0 s with
  | some i => (i : Int)
  | none => -1

/-- Python `pat in s`. -/
def pyContains (s pat : PyStr) : Bool := (strFindAux pat 0 s).isSome

/-- Python slice `s[:k]` with a possibly negative bound. -/
def pySliceTo (s : PyStr) (k : Int) : PyStr :=
  if k < 0 then s.take (s.length - (-k).toNat) else s.take k.toNat

/-- Python `s.split(ch)` for a one-character separator. -/
def splitOnChar (ch : Char) : PyStr → List PyStr
  | [] => [[]]
  | c :: r =>
    if c == ch then [] :: splitOnChar ch r
    else
      match splitOnChar ch r with
      | [] => [[c]]
      | p :: ps => (c :: p) :: ps

/-- Python `s.split(ch, maxsplit=1)` when the separator occurs (`none` otherwise). -/
def splitFirstOnChar (ch : Char) : PyStr → Option (PyStr × PyStr)
  | [] => none
  | c :: r =>
    if c == ch then some ([], r)
    else (splitFirstOnChar ch r).map (fun p => (c :: p.1, p.2))

/-- Fuelled core of Python `str.replace`. -/
def replaceAllF : Nat → PyStr → PyStr → PyStr → PyStr
  | 0, _, _, s => s
  | _ + 1, _, _, [] => []
  | f + 1, pat, repl, c :: r =>
    if pat.isPrefixOf (c :: r) && !pat.isEmpty then
      repl ++ replaceAllF f pat repl (List.drop pat.length (c :: r))
    else
      c :: replaceAllF f pat repl r

/-- Python `s.replace(pat, repl)` (for the nonempty patterns the code uses). -/
def replaceAll (pat repl s : PyStr) : PyStr := replaceAllF s.length pat repl s

/-- Fuelled core of Python `str.count` (non-overlapping). -/
def countInfixF : Nat → PyStr → PyStr → Nat
  | 0, _, _ => 0
  | _ + 1, _, [] => 0
  | f + 1, pat, c :: r =>
    if pat.isPrefixOf (c :: r) && !pat.isEmpty then
      1 + countInfixF f pat (List.drop pat.length (c :: r))
    else
      countInfixF f pat r

/-- Python `s.count(pat)` for nonempty `pat`. -/
def countInfix (pat s : PyStr) : Nat := countInfixF s.length pat s

/-- Python `s.split(maxsplit=1)`: the first whitespace-delimited token and the
remainder; `none` when there are fewer than two resulting fields. -/
def splitWsFirst (s : PyStr) : Option (PyStr × PyStr) :=
  let t := s.dropWhile isPyWs
  let tok := t.takeWhile (fun c => !isPyWs c)
  let rest := (t.dropWhile (fun c => !isPyWs c)).dropWhile isPyWs
  if tok.isEmpty then none
  else if rest.isEmpty then none
  else some (tok, rest)

/-- Decimal value of a digit string (as in Python `int` on digits). -/
def digitsToNat (l : PyStr) : Nat := l.foldl (fun a c => 10 * a + (c.toNat - 48)) 0

/-- Python `int(str)` on an arbitrary string. -/
def pyInt (s : PyStr) : Option Int :=
  match pyStrip s with
  | '-' :: d => if !d.isEmpty && d.all Char.isDigit then some (-(digitsToNat d : Int)) else none
  | d => if !d.isEmpty && d.all Char.isDigit then some ((digitsToNat d : Int)) else none

def digitChar (n : Nat) : Char := Char.ofNat (48 + n)

/-- Fuelled core of the decimal rendering (Python `str(n)`). -/
def pyNatStrAux : Nat → Nat → PyStr → PyStr
  | 0, _, acc => acc
  | f + 1, n, acc =>
    if n < 10 then digitChar n :: acc
    else pyNatStrAux f (n / 10) (digitChar (n % 10) :: acc)

/-- Python `str(n)` for a natural number. -/
def pyNatStr (n : Nat) : PyStr := pyNatStrAux (n + 1) n []

/-- Python `str(n)` for an integer. -/
def pyIntStr (n : Int) : PyStr :=
  if n < 0 then '-' :: pyNatStr n.natAbs else pyNatStr n.natAbs

/-! ## Chord model (`pysongbook/model.py`) -/

/-- The `direction` field of `Altered` (`"+"` or `"dim"`). -/
inductive AltDir
  | plus
  | dim
deriving DecidableEq, Repr

def AltDir.render : AltDir → PyStr
  | .plus => ['+']
  | .dim => ['d', 'i', 'm']

/-- The closed set of chord modifiers of `model.py` (`Minor`, `DominantSeventh`,
`MajorSeventh`, `AddedNote`, `Suspended`, `Altered`, `BassNote`,
`GenericChordModifier`). -/
inductive Modifier
  | minor
  | dominantSeventh
  | majorSeventh
  | addedNote (factor : Nat)
  | suspended (factor : Nat)
  | altered (direction : AltDir) (factor : Nat)
  | bassNote (note : PyStr)
  | generic (string : PyStr)
deriving DecidableEq, Repr

/-- The `level` class attribute of each modifier. -/
def Modifier.level : Modifier → Nat
  | .minor => 0
  | .dominantSeventh => 1
  | .majorSeventh => 1
  | .addedNote _ => 1
  | .suspended _ => 1
  | .altered _ _ => 1
  | .bassNote _ => 0
  | .generic _ => 1

/-- `ChordModifier.to_string` of each modifier class. -/
def Modifier.render : Modifier → PyStr
  | .minor => ['m']
  | .dominantSeventh => ['7']
  | .majorSeventh => ['m', 'a', 'j', '7']
  | .addedNote n => pyNatStr n
  | .suspended n => ['s', 'u', 's'] ++ pyNatStr n
  | .altered d f => if f = 5 then d.render else d.render ++ pyNatStr f
  | .bassNote note => '/' :: note
  | .generic s => s

structure Chord where
  root : PyStr
  modifiers : List Modifier
deriving DecidableEq, Repr

/-- `Chord.to_string`. -/
def Chord.render (c : Chord) : PyStr :=
  c.root ++ (c.modifiers.map Modifier.render).flatten

/-! ## `DefaultChordParser` (`pysongbook/io.py`) -/

/-- Match of the root-tone regex `[A-H](?:#|b)?` at the start of the string:
the matched token and the number of characters consumed. -/
def matchTone : PyStr → Option (PyStr × Nat)
  | [] => none
  | c :: r =>
    if 'A' ≤ c && c ≤ 'H' then
      match r with
      | x :: _ => if x == '#' || x == 'b' then some ([c, x], 2) else some ([c], 1)
      | [] => some ([c], 1)
    else none

/-- Pattern `maj7?`. -/
def matchMaj : PyStr → Option (Modifier × Nat)
  | 'm' :: 'a' :: 'j' :: r =>
    match r with
    | '7' :: _ => some (.majorSeventh, 4)
    | _ => some (.majorSeventh, 3)
  | _ => none

/-- Pattern `m`. -/
def matchMinor : PyStr → Option (Modifier × Nat)
  | 'm' :: _ => some (.minor, 1)
  | _ => none

/-- Pattern `7`. -/
def matchDom : PyStr → Option (Modifier × Nat)
  | '7' :: _ => some (.dominantSeventh, 1)
  | _ => none

/-- Pattern `\d+` (greedy), converted through `AddedNote(int(...))`. -/
def matchAdded (s : PyStr) : Option (Modifier × Nat) :=
  let d := s.takeWhile Char.isDigit
  if d.isEmpty then none else some (.addedNote (digitsToNat d), d.length)

/-- Pattern `sus(\d)`. -/
def matchSus : PyStr → Option (Modifier × Nat)
  | 's' :: 'u' :: 's' :: c :: _ =>
    if c.isDigit then some (.suspended (c.toNat - 48), 4) else none
  | _ => none

/-- Pattern `(\+|dim)(\d)?` (greedy optional digit), converted through
`_parse_altered_modifier_match`. -/
def matchAltered : PyStr → Option (Modifier × Nat)
  | '+' :: r =>
    match r with
    | c :: _ => if c.isDigit then some (.altered .plus (c.toNat - 48), 2) else some (.altered .plus 5, 1)
    | [] => some (.altered .plus 5, 1)
  | 'd' :: 'i' :: 'm' :: r =>
    match r with
    | c :: _ => if c.isDigit then some (.altered .dim (c.toNat - 48), 4) else some (.altered .dim 5, 3)
    | [] => some (.altered .dim 5, 3)
  | _ => none

/-- Pattern `/[A-H](?:#|b)?`. -/
def matchBass : PyStr → Option (Modifier × Nat)
  | '/' :: r =>
    match matchTone r with
    | some (tone, k) => some (.bassNote tone, k + 1)
    | none => none
  | _ => none

/-- One round of `DefaultChordParser.parse_modifiers`: the ordered pattern list,
first match wins. -/
def tryPatterns (s : PyStr) : Option (Modifier × Nat) :=
  (matchMaj s).orElse fun _ =>
  (matchMinor s).orElse fun _ =>
  (matchDom s).orElse fun _ =>
  (matchAdded s).orElse fun _ =>
  (matchSus s).orElse fun _ =>
  (matchAltered s).orElse fun _ =>
  matchBass s

/-- Fuelled core of `DefaultChordParser.parse_modifiers`: repeatedly try the
patterns; an unmatched nonempty remainder becomes a single
`GenericChordModifier` and stops consumption. -/
def parseModifiersF : Nat → PyStr → List Modifier
  | 0, _ => []
  | _ + 1, [] => []
  | f + 1, s =>
    match tryPatterns s with
    | some (m, k) => m :: parseModifiersF f (s.drop k)
    | none => [.generic s]

/-- `DefaultChordParser.parse_modifiers`. -/
def parseModifiers (s : PyStr) : List Modifier := parseModifiersF s.length s

/-- `DefaultChordParser.parse`: `none` models `SongParseError`. -/
def defaultChordParse (s : PyStr) : Option Chord :=
  if s.isEmpty then none
  else
    match matchTone s with
    | none => none
    | some (root, k) => some ⟨root, parseModifiers (s.drop k)⟩

/-! ## `ModifiedSongsLatexChordParser` -/

/-- Substitution `\\shrp(\{})?` → `"#"` (one left-to-right pass, as `re.sub`). -/
def shrpSub : PyStr → PyStr
  | [] => []
  | '\\' :: 's' :: 'h' :: 'r' :: 'p' :: '{' :: '}' :: r => '#' :: shrpSub r
  | '\\' :: 's' :: 'h' :: 'r' :: 'p' :: r => '#' :: shrpSub r
  | c :: r => c :: shrpSub r

/-- Content match for `\{([^}\]]+)}`: the bracketed run (no `}` or `]`, at least
one character) and the remainder after the closing brace. -/
def bracedRun : PyStr → Option (PyStr × PyStr)
  | '{' :: r =>
    let run := r.takeWhile (fun c => !(c == '}' || c == ']'))
    let rest := r.dropWhile (fun c => !(c == '}' || c == ']'))
    if run.isEmpty then none
    else
      match rest with
      | '}' :: r2 => some (run, r2)
      | _ => none
  | _ => none

/-- Fuelled substitution `\\hidx\{([^}\]]+)}` → group 1 (and the same for
`\didx`), one left-to-right pass. -/
def idxSubF (cmd : PyStr) : Nat → PyStr → PyStr
  | 0, s => s
  | _ + 1, [] => []
  | f + 1, c :: r =>
    if ('\\' :: cmd).isPrefixOf (c :: r) then
      match bracedRun (List.drop (cmd.length + 1) (c :: r)) with
      | some (run, rest) => run ++ idxSubF cmd f rest
      | none => c :: idxSubF cmd f r
    else c :: idxSubF cmd f r

def idxSub (cmd : PyStr) (s : PyStr) : PyStr := idxSubF cmd s.length s

/-- `ModifiedSongsLatexChordParser.parse`: apply the three substitutions, then
delegate to `DefaultChordParser`. -/
def latexChordParse (s : PyStr) : Option Chord :=
  defaultChordParse (idxSub ['d', 'i', 'd', 'x'] (idxSub ['h', 'i', 'd', 'x'] (shrpSub s)))

/-! ## Song model (`pysongbook/model.py`) -/

/-- The closed set of strophe marks (`NumberedStropheMark`, `LetteredStropheMark`,
`NumberedChorusMark`, `ChorusMark`, `IntroMark`, `BridgeMark`, `SoloMark`,
`RecitationMark`, `CodaMark`, `EmptyStropheMark`).  Dataclass equality
distinguishes classes, so distinct constructors model distinct classes. -/
inductive Mark
  | numbered (number : Int)
  | lettered (letter : Char)
  | numberedChorus (number : Int)
  | chorus
  | intro
  | bridge
  | solo
  | recitation
  | coda
  | empty
deriving DecidableEq, Repr

/-- `StropheMark.to_string(short=True)`. -/
def Mark.shortString : Mark → PyStr
  | .numbered n => pyIntStr n
  | .lettered c => [c]
  | .numberedChorus n => 'R' :: pyIntStr n
  | .chorus => ['R']
  | .intro => ['I', 'n', 't', 'r', 'o']
  | .bridge => ['M']
  | .solo => ['S', 'o', 'l', 'o']
  | .recitation => ['R', 'e', 'c']
  | .coda => ['C']
  | .empty => []

/-- The `is_chorus` class attribute. -/
def Mark.isChorus : Mark → Bool
  | .numberedChorus _ => true
  | .chorus => true
  | _ => false

/-- The Python class of a mark (`type(mark)`), used by
`Song._infer_chorus_repetition`. -/
inductive MarkKind
  | numberedK
  | letteredK
  | numberedChorusK
  | chorusK
  | introK
  | bridgeK
  | soloK
  | recitationK
  | codaK
  | emptyK
deriving DecidableEq, Repr

def Mark.kind : Mark → MarkKind
  | .numbered _ => .numberedK
  | .lettered _ => .letteredK
  | .numberedChorus _ => .numberedChorusK
  | .chorus => .chorusK
  | .intro => .introK
  | .bridge => .bridgeK
  | .solo => .soloK
  | .recitation => .recitationK
  | .coda => .codaK
  | .empty => .emptyK

/-- Strophe segments and the other values Python code stores in segment lists:
`PlainSegment`, `ChordedSegment`, the `TurnChordsOn`/`TurnChordsOff`
processing instructions, `RepeatCount`, and `EmbeddedStrophe` wrapping a
`RepeatStropheWithSameMark` (a mark plus its segments). -/
inductive Seg
  | plain (text : PyStr)
  | chorded (chord : Chord) (text : PyStr)
  | chordsOnPI
  | chordsOffPI
  | repCountPI (nRepeats : Int)
  | embedded (mark : Mark) (segments : List Seg)

/-- `StropheSegment.text` where it exists (`PlainSegment`, `ChordedSegment`);
`none` models the `AttributeError`/`NotImplementedError` raised otherwise. -/
def Seg.text : Seg → Option PyStr
  | .plain t => some t
  | .chorded _ t => some t
  | _ => none

/-- `dataclasses.replace(seg, text=...)` for the two segment dataclasses. -/
def Seg.withText (t : PyStr) : Seg → Seg
  | .plain _ => .plain t
  | .chorded c _ => .chorded c t
  | s => s

/-- Top-level annotations (`AuthorAnnotation`, `TitleAnnotation`,
`GenericAnnotation`) together with the `ProcessingInstruction` subclasses
from `io.py` that Python can also place in annotation positions. -/
inductive Annot
  | author (name : PyStr)
  | title (title : PyStr)
  | generic (key : PyStr) (value : PyStr) (isChord : Bool)
  | chordsOnPI
  | chordsOffPI
  | repCountPI (nRepeats : Int)
deriving DecidableEq, Repr

/-- Song items: `Strophe`, `RepeatStropheWithSameMark`, `StropheRepeat`
(holding the strophe it reads through to), or an interleaved annotation. -/
inductive Item
  | strophe (mark : Mark) (segments : List Seg)
  | repeatSame (mark : Mark) (segments : List Seg)
  | stropheRepeat (repeated : Item)
  | annot (a : Annot)

/-- `isinstance(item, Strophe)` (all three strophe classes). -/
def Item.isStrophe : Item → Bool
  | .strophe _ _ => true
  | .repeatSame _ _ => true
  | .stropheRepeat _ => true
  | .annot _ => false

def Item.isRepeatSame : Item → Bool
  | .repeatSame _ _ => true
  | _ => false

/-- `item.mark`, reading through `StropheRepeat` (`none` on annotations,
which have no `mark` attribute). -/
def Item.mark : Item → Option Mark
  | .strophe m _ => some m
  | .repeatSame m _ => some m
  | .stropheRepeat r => r.mark
  | .annot _ => none

/-- `item.segments`, reading through `StropheRepeat`. -/
def Item.segments : Item → List Seg
  | .strophe _ s => s
  | .repeatSame _ s => s
  | .stropheRepeat r => r.segments
  | .annot _ => []

structure Song where
  annotations : List Annot
  items : List Item

/-! ## Normalization passes (`Song.normalized` and helpers) -/

/-- The reversed-prefix search of `Song._link_strophe_repeats`: the nearest
earlier `Strophe` instance whose mark equals `mark`. -/
def findLink (mark : Mark) : List Item → Option Item
  | [] => none
  | it :: rest =>
    if it.isStrophe && it.mark == some mark then some it else findLink mark rest

/-- The continuation splice of `Song._link_strophe_repeats`: scan the linked
strophe segments for the first whose text contains the text of the first
placeholder segment (falling back to the last segment scanned), truncate it
there and append the placeholder segments.  `none` models the exceptions
Python raises on segments without `text` or on an empty segment list. -/
def spliceScan (firstText : PyStr) : List Seg → Option (Nat × Seg × Bool)
  | [] => none
  | seg :: rest =>
    match seg.text with
    | none => none
    | some t =>
      if pyContains t firstText then some (0, seg, true)
      else
        match spliceScan firstText rest with
        | some (i, s, f) => some (i + 1, s, f)
        | none => some (0, seg, false)

def spliceContinuation (link : Item) (mark : Mark) (segs : List Seg) : Option Item := do
  let firstText ← (← segs.head?.elim none some).text
  let (i, seg, _) ← spliceScan firstText link.segments
  let t ← seg.text
  let breakSeg := seg.withText (pySliceTo t (pyFind t firstText))
  pure (.strophe mark (link.segments.take i ++ [breakSeg] ++ segs))

/-- `Song._link_strophe_repeats`; `prevRev` is the reversed original prefix
`items[:i]` that Python searches.  `none` models the `ValueError` on a
missing link and the exceptions inside the splice. -/
def linkGo (prevRev : List Item) : List Item → Option (List Item)
  | [] => some []
  | it :: rest =>
    match it with
    | .repeatSame mark segs => do
      let link ← findLink mark prevRev
      let res ←
        if segs.isEmpty then pure (Item.stropheRepeat link)
        else spliceContinuation link mark segs
      let tail ← linkGo (it :: prevRev) rest
      pure (res :: tail)
    | _ => do
      let tail ← linkGo (it :: prevRev) rest
      pure (it :: tail)

def linkStropheRepeats (items : List Item) : Option (List Item) := linkGo [] items

/-- The mark classes of the strophes among `items`
(`[type(item.mark) for item in items if isinstance(item, Strophe)]`). -/
def stropheKinds (items : List Item) : List MarkKind :=
  items.filterMap fun it =>
    if it.isStrophe then (it.mark).map Mark.kind else none

/-- `Song._infer_chorus_repetition`. -/
def inferChorusRepetition (items : List Item) : List Item :=
  let kinds := stropheKinds items
  if kinds.length ≤ 2 || kinds.length < items.length then items
  else
    let pattern := .numberedK :: .chorusK :: List.replicate (kinds.length - 2) MarkKind.numberedK
    if kinds == pattern then
      match items with
      | a :: b :: rest =>
        a :: b :: rest.flatMap (fun st => [st, Item.stropheRepeat b])
      | _ => items
    else items

/-- Set the `mark` attribute of the item at index `i` (mutation
`items[i].mark = m`); `none` models the `AttributeError` on a
`StropheRepeat`, whose `mark` is a read-only property. -/
def setMarkAt (items : List Item) (i : Nat) (m : Mark) : Option (List Item) :=
  match items.get? i with
  | some (.strophe _ segs) => some (items.set i (.strophe m segs))
  | some (.repeatSame _ segs) => some (items.set i (.repeatSame m segs))
  | _ => none

/-- `enumerate(items)` filtered to strophes, with their items
(`[(i, item) for i, item in enumerate(items) if isinstance(item, Strophe)]`). -/
def strophesIdxAux (k : Nat) : List Item → List (Nat × Item)
  | [] => []
  | it :: rest =>
    (if it.isStrophe then [(k, it)] else []) ++ strophesIdxAux (k + 1) rest

def strophesIdx (items : List Item) : List (Nat × Item) := strophesIdxAux 0 items

/-- The `(index, mark)` pairs of the strophes among `items`
(`[(i, item.mark) for i, item in enumerate(items) if isinstance(item, Strophe)]`). -/
def stropheMarksIdxAux (k : Nat) : List Item → List (Nat × Mark)
  | [] => []
  | it :: rest =>
    (if it.isStrophe then ((it.mark).map fun m => (k, m)).toList else []) ++
      stropheMarksIdxAux (k + 1) rest

def stropheMarksIdx (items : List Item) : List (Nat × Mark) := stropheMarksIdxAux 0 items

/-- The mark sequence of the strophes among `items`. -/
def stropheMarks (items : List Item) : List Mark := (stropheMarksIdx items).map Prod.snd

/-- The letters counted by `Song._recognize_codas`
(`Counter(mark.letter for ... if isinstance(mark, LetteredStropheMark))`). -/
def letteredLetters (items : List Item) : List Char :=
  (stropheMarksIdx items).filterMap fun p =>
    match p.2 with
    | .lettered c => some c
    | _ => none

/-- `Song._recognize_codas`.  `Counter(...) == {"C": 1}` holds exactly when the
letter multiset is the single letter `C`. -/
def recognizeCodas (items : List Item) : Option (List Item) :=
  let marks := stropheMarksIdx items
  if letteredLetters items == ['C'] &&
      (marks.getLast?).map Prod.snd == some (Mark.lettered 'C') then
    match marks.getLast? with
    | some (i, _) => setMarkAt items i .coda
    | none => none
  else some items

/-- The `can_replace` condition of `Song._fill_initial_plain_segments`. -/
def canReplace (prev cur : Item) : Bool :=
  !cur.segments.isEmpty &&
  (match cur.segments.head? with
   | some (.plain _) => true
   | _ => false) &&
  cur.segments.any (fun s => match s with | .chorded _ _ => true | _ => false) &&
  !prev.segments.isEmpty &&
  (match prev.segments.getLast? with
   | some (.chorded _ _) => true
   | _ => false)

/-- The replacement segment built from a `can_replace` pair. -/
def replSegment (prev cur : Item) : Seg :=
  match prev.segments.getLast?, cur.segments.head? with
  | some (.chorded c _), some s => .chorded c ((s.text).getD [])
  | _, _ => .plain []

/-- The `(index, segment)` replacement list of
`Song._fill_initial_plain_segments` (one candidate per consecutive pair of
strophes, `zip(strophes[:-1], strophes[1:])`). -/
def fillRepls (items : List Item) : List (Nat × Seg) :=
  let strophes := strophesIdx items
  (strophes.zip strophes.tail).filterMap fun pc =>
    if canReplace pc.1.2 pc.2.2 then some (pc.2.1, replSegment pc.1.2 pc.2.2) else none

/-- Mutation `item.segments[0] = repl`, pushed through a `StropheRepeat`
(in Python the aliased referent list is mutated; here the stored value is
updated). -/
def Item.setFirstSeg (r : Seg) : Item → Item
  | .strophe m segs => .strophe m (segs.set 0 r)
  | .repeatSame m segs => .repeatSame m (segs.set 0 r)
  | .stropheRepeat rep => .stropheRepeat (rep.setFirstSeg r)
  | .annot a => .annot a

/-- Application loop `for item_i, repl in replacements: items[item_i].segments[0] = repl`. -/
def applyRepls : List Item → List (Nat × Seg) → List Item
  | items, [] => items
  | items, (i, r) :: rest =>
    applyRepls (items.set i ((items.getD i (.annot (.generic [] [] false))).setFirstSeg r)) rest

/-- `Song._fill_initial_plain_segments`. -/
def fillInitialPlainSegments (items : List Item) : List Item :=
  applyRepls items (fillRepls items)

/-- `Song.normalized`: deep-copy (identity on values) then the four passes in
order; `none` models any exception escaping a pass. -/
def Song.normalized (s : Song) : Option Song := do
  let linked ← linkStropheRepeats s.items
  let coded ← recognizeCodas (inferChorusRepetition linked)
  pure ⟨s.annotations, fillInitialPlainSegments coded⟩

/-! ## `DefaultFormat` (plain dialect, `pysongbook/io.py`) -/

/-- Error kinds escaping `DefaultFormat.loads`: Python `IndexError` (indexing
the empty part list), `SongParseError`, and other `ValueError`s (tuple
unpacking, `LetteredStropheMark.from_string`). -/
inductive PErr
  | indexError
  | songParse
  | valueErr
deriving DecidableEq, Repr

/-- Characters matched by the regex class `[^\S\r\n]` (whitespace except
newlines). -/
def isSpaceNotNl (c : Char) : Bool := isPyWs c && !(c == '\r' || c == '\n')

/-- Flush for the normalizer `\s*\n\s*` → `"\n"`: a maximal whitespace run
containing a newline collapses to one newline. -/
def flushNlRun (run : PyStr) : PyStr :=
  if run.isEmpty then [] else if run.contains '\n' then ['\n'] else run

/-- One left-to-right pass of the substitution `\s*\n\s*` → `"\n"`. -/
def collapseNlRunsAux (run : PyStr) : PyStr → PyStr
  | [] => flushNlRun run.reverse
  | c :: r =>
    if isPyWs c then collapseNlRunsAux (c :: run) r
    else flushNlRun run.reverse ++ c :: collapseNlRunsAux [] r

def collapseNlRuns (s : PyStr) : PyStr := collapseNlRunsAux [] s

/-- One left-to-right pass of the substitution `[^\S\r\n]+` → `" "`. -/
def collapseSpaceRunsAux (run : PyStr) : PyStr → PyStr
  | [] => if run.isEmpty then [] else [' ']
  | c :: r =>
    if isSpaceNotNl c then collapseSpaceRunsAux (c :: run) r
    else (if run.isEmpty then [] else [' ']) ++ c :: collapseSpaceRunsAux [] r

def collapseSpaceRuns (s : PyStr) : PyStr := collapseSpaceRunsAux [] s

/-- `DefaultFormat._normalize_strophe_whitespace`. -/
def normalizeStropheWs (body : PyStr) : PyStr :=
  pyStrip (collapseSpaceRuns (collapseNlRuns body))

/-- `DefaultFormat._parse_strophe_mark`.  `none` models the `ValueError`
raised when the part has no whitespace (tuple unpacking) or by
`LetteredStropheMark.from_string` on a multi-letter `[A-E]+` match. -/
def parseStropheMark (part : PyStr) : Option (Mark × PyStr) := do
  let stripPart := pyStrip part
  let (init0, rest) ← splitWsFirst stripPart
  let init := removeSuffix (removeSuffix init0 ['.']) [':']
  if init == ['R'] then pure (.chorus, rest)
  else if init == ['C'] then pure (.coda, rest)
  else if !init.isEmpty && init.all Char.isDigit then
    pure (.numbered (digitsToNat init : Int), rest)
  else if !init.isEmpty && init.all (fun c => 'A' ≤ c && c ≤ 'E') then
    if init.length == 1 then pure (.lettered (init.headD 'A'), rest) else none
  else pure (.empty, part)

/-- One bracketed piece of a strophe body: split off the chord text at the
first `]` (its absence is the mismatched-marks `SongParseError`) and parse it. -/
def parseChordPiece (piece : PyStr) : Option Seg := do
  let (chordStr, textStr) ← splitFirstOnChar ']' piece
  let chord ← defaultChordParse chordStr
  pure (.chorded chord textStr)

/-- The segment-building part of `DefaultFormat._parse_strophe`. -/
def parseStropheSegs (body : PyStr) : Option (List Seg) :=
  match splitOnChar '[' (normalizeStropheWs body) with
  | [] => some []
  | p0 :: rest => do
    let tailSegs ← rest.mapM parseChordPiece
    pure ((if p0.isEmpty then [] else [Seg.plain p0]) ++ tailSegs)

/-- `DefaultFormat._parse_strophe`, with Python error kinds separated. -/
def parseStrophe (part : PyStr) : Except PErr Item :=
  match parseStropheMark part with
  | none => .error .valueErr
  | some (mark, body) =>
    match parseStropheSegs body with
    | none => .error .songParse
    | some segs => .ok (.strophe mark segs)

/-- The part of a pending whitespace run before its first newline. -/
def beforeFirstNl (run : PyStr) : PyStr := run.takeWhile (fun c => !(c == '\n'))

/-- The part of a pending whitespace run after its last newline. -/
def afterLastNl (run : PyStr) : PyStr :=
  (run.reverse.takeWhile (fun c => !(c == '\n'))).reverse

/-- `re.split(r"\n\s*\n", text)`: a separator is the segment of a maximal
whitespace run from its first to its last newline, provided it contains at
least two newlines. -/
def splitPartsAux (cur pending : PyStr) : PyStr → List PyStr
  | [] =>
    if pending.count '\n' ≥ 2 then [cur ++ beforeFirstNl pending, afterLastNl pending]
    else [cur ++ pending]
  | c :: r =>
    if isPyWs c then splitPartsAux cur (pending ++ [c]) r
    else if pending.count '\n' ≥ 2 then
      (cur ++ beforeFirstNl pending) :: splitPartsAux (afterLastNl pending ++ [c]) [] r
    else splitPartsAux (cur ++ pending ++ [c]) [] r

/-- `DefaultFormat._split_song_parts`. -/
def splitSongParts (text : PyStr) : List PyStr :=
  ((splitPartsAux [] [] text).filter fun p => !p.isEmpty && !p.all isPyWs).map
    fun p => pyLstripNl (pyRstrip p)

/-- Python `s.split(pat)` on a nonempty separator (fuelled). -/
def splitAllOnListF : Nat → PyStr → PyStr → List PyStr
  | 0, _, s => [s]
  | _ + 1, _, [] => [[]]
  | f + 1, pat, c :: r =>
    if pat.isPrefixOf (c :: r) && !pat.isEmpty then
      [] :: splitAllOnListF f pat (List.drop pat.length (c :: r))
    else
      match splitAllOnListF f pat r with
      | [] => [[c]]
      | p :: ps => (c :: p) :: ps

def splitAllOnList (pat s : PyStr) : List PyStr := splitAllOnListF s.length pat s

/-- `DefaultFormat._try_parse_heading`; the `ValueError` from unpacking a
split that does not yield two fields is modelled as an error. -/
def tryParseHeading (line : PyStr) : Except PErr (List Annot) :=
  let tryMarker (mk : PyStr) (next : Except PErr (List Annot)) : Except PErr (List Annot) :=
    if pyContains line mk then
      if countInfix mk line > 1 then next
      else
        match splitAllOnList mk (pyStrip line) with
        | [a, t] => .ok [.author (pyStrip a), .title (pyStrip t)]
        | _ => .error .valueErr
    else next
  tryMarker [' ', '-', ' '] (tryMarker [':', ' '] (.ok []))

/-- `DefaultFormat.loads`. -/
def defaultLoads (text : PyStr) : Except PErr Song := do
  let parts := splitSongParts text
  match parts with
  | [] => throw .indexError
  | p0 :: _ => do
    let (annots, initAnnotPartI) ←
      if !(pyContains p0 ['\n']) then do
        let heading ← tryParseHeading p0
        pure (heading, if heading.isEmpty then 0 else 1)
      else
        pure (([] : List Annot), 0)
    if parts.length ≤ initAnnotPartI then throw .songParse
    else do
      let items ← (parts.drop initAnnotPartI).mapM parseStrophe
      pure ⟨annots, items⟩

/-! ### Plain-dialect serialization (the parts the claims mention) -/

/-- `DefaultFormat.dump_strophe_mark`. -/
def dumpStropheMark (mark : Mark) (indent : Nat) : PyStr :=
  let ms := mark.shortString
  let ms := if ms.isEmpty then ms else ms ++ ['.']
  ms ++ List.replicate (max 1 (indent - ms.length)) ' '

/-- `DefaultFormat._determine_strophe_indent`. -/
def determineStropheIndent (song : Song) : Nat :=
  let markStrs := song.items.filterMap fun it =>
    if it.isStrophe then (it.mark).map (fun m => dumpStropheMark m 0) else none
  match markStrs with
  | [] => 0
  | _ => markStrs.foldl (fun a s => max a s.length) 0

/-- `PlainSegment.splitlines` on a text. -/
def plainSplitlines (t : PyStr) : List PyStr :=
  let chunks := splitOnChar '\n' t
  chunks.dropLast.map (· ++ ['\n']) ++
    match chunks.getLast? with
    | some l => if l.isEmpty then [] else [l]
    | none => []

/-- `StropheSegment.splitlines` (`none` models the failures on instruction
and embedded values). -/
def Seg.splitlines : Seg → Option (List Seg)
  | .plain t => some ((plainSplitlines t).map .plain)
  | .chorded c t =>
    let ps := plainSplitlines t
    some (if ps.isEmpty then [.chorded c t] else ps.map (.chorded c))
  | _ => none

/-- `DefaultFormat.dump_segment`. -/
def dumpSegment (chords : Bool) : Seg → Option PyStr
  | .chorded c t => if chords then some ('[' :: (c.render ++ ']' :: t)) else some t
  | .plain t => some t
  | _ => none

/-- `DefaultFormat.dump_strophe`. -/
def dumpStrophe (indent : Nat) (chords : Bool) (it : Item) : Option PyStr := do
  let mark ← it.mark
  let initStr := dumpStropheMark mark indent
  let lines ← it.segments.mapM Seg.splitlines
  let raws ← lines.flatten.mapM (dumpSegment chords)
  pure (initStr ++ replaceAll ['\n'] ('\n' :: List.replicate indent ' ') raws.flatten)

/-- `Annotation.to_string(delimiter)` (`none` on processing instructions,
whose `to_string` raises). -/
def annotToString (delim : PyStr) : Annot → Option PyStr
  | .author n => some (['A', 'u', 't', 'h', 'o', 'r'] ++ delim ++ n)
  | .title t => some (['T', 'i', 't', 'l', 'e'] ++ delim ++ t)
  | .generic k v _ => some (k ++ delim ++ v)
  | _ => none

/-- `DefaultFormat.dump_annotation`. -/
def dumpAnnotationLine (a : Annot) : Option PyStr :=
  (annotToString [':', ' '] a).map (List.replicate 5 ' ' ++ ·)

/-- `DefaultFormat.dump_song_items`: resolve the indent (uniformly, once),
then render every item with it. -/
def dumpSongItems (song : Song) (indentOpt : Option Nat) (chords : Bool) :
    Option (List PyStr) :=
  let indent := indentOpt.getD (determineStropheIndent song)
  song.items.mapM fun it =>
    if it.isStrophe then dumpStrophe indent chords it
    else
      match it with
      | .annot a => dumpAnnotationLine a
      | _ => none

/-- The indent the specification describes: the rendered short mark plus its
delimiter, nothing more. -/
def specMarkPlusDelim (m : Mark) : PyStr :=
  m.shortString ++ (if m.shortString.isEmpty then [] else ['.'])

/-- The rendered mark-plus-delimiter lengths over the strophes of the song. -/
def specMarkLens (song : Song) : List Nat :=
  song.items.filterMap fun it =>
    if it.isStrophe then (it.mark).map (fun m => (specMarkPlusDelim m).length) else none

/-- The specification formula for the strophe indent width: the length of the
longest short-mark-plus-delimiter string over the strophes (0 if none). -/
def specStropheIndent (song : Song) : Nat :=
  match specMarkLens song with
  | [] => 0
  | _ => (specMarkLens song).foldl max 0

/-! ## `ModifiedSongsLatexFormat.loads` (`pysongbook/io.py`) -/

/-- Errors of the post-check part of the LaTeX loader: recoverable
`PositionalSongParseError`, fatal `SongParseError`, and other Python
exceptions (`IndexError`, `KeyError`, `ValueError`, `AttributeError`;
also used when the fuel bound is hit, which models nontermination). -/
inductive RestErr
  | positional
  | songParse
  | pyErr
deriving DecidableEq, Repr

/-- Errors of `ModifiedSongsLatexFormat.loads`: the missing-header
`SongParseError`, the distinguished strophe-count `SongParseError`
(`"no strophes found"`), and everything raised later. -/
inductive LoadErr
  | beginsongMissing
  | noStrophes
  | rest (e : RestErr)
deriving DecidableEq, Repr

/-- Literal-prefix consumption. -/
def dropLit (pat s : PyStr) : Option PyStr :=
  if pat.isPrefixOf s then some (s.drop pat.length) else none

/-- One match of `beginsong_annot_pattern`
(`(?P<key>[a-z]+)=\{(?P<value>[^}]*?)}`) at the start of the string. -/
def matchAnnotOne (s : PyStr) : Option (PyStr × PyStr × PyStr) :=
  let key := s.takeWhile fun c => 'a' ≤ c && c ≤ 'z'
  if key.isEmpty then none
  else
    match s.drop key.length with
    | '=' :: '{' :: r =>
      let v := r.takeWhile (fun c => !(c == '}'))
      match r.drop v.length with
      | '}' :: rest => some (key, v, rest)
      | _ => none
    | _ => none

/-- The `while other_annot_str` loop of `_parse_beginsong`: recognized keys
(only `by` → author) accumulate; an unrecognized key warns and is skipped;
no match breaks with a warning. -/
def beginsongAnnotLoop : Nat → PyStr → List Annot
  | 0, _ => []
  | f + 1, s =>
    if s.isEmpty then []
    else
      match matchAnnotOne s with
      | some (key, v, rest) =>
        (if key == ['b', 'y'] then [Annot.author v] else []) ++ beginsongAnnotLoop f rest
      | none => []

/-- `ModifiedSongsLatexFormat._parse_beginsong`: anchored match of
`\s*\\beginsong\{(?P<title>[^}]+?)}(?:\[(?P<annots>[^]]+?)])?`, returning the
collected annotations and the `lstrip`-ped remainder.  `none` models the
header-missing `SongParseError`. -/
def parseBeginsong (text : PyStr) : Option (List Annot × PyStr) := do
  let body ← dropLit ['\\', 'b', 'e', 'g', 'i', 'n', 's', 'o', 'n', 'g', '{']
    (text.dropWhile isPyWs)
  let title := body.takeWhile (fun c => !(c == '}'))
  if title.isEmpty then none
  else
    match body.drop title.length with
    | '}' :: r =>
      let (annots, rest) :=
        match r with
        | '[' :: r2 =>
          let av := r2.takeWhile (fun c => !(c == ']'))
          if av.isEmpty then (([] : List Annot), r)
          else
            match r2.drop av.length with
            | ']' :: r3 => (beginsongAnnotLoop (av.length + 1) av, r3)
            | _ => (([] : List Annot), r)
        | _ => (([] : List Annot), r)
      pure (Annot.title title :: annots, pyLstrip rest)
    | _ => none

def beginverseWords : List PyStr :=
  [['n', 'u', 'm'], ['e', 'm', 'p', 't', 'y', 'v'], ['f', 'r', 'e', 'e', 'v'],
   ['c', 'h', 'o', 'r'], ['i', 'n', 't', 'r', 'o'], ['s', 'o', 'l', 'o'],
   ['b', 'r', 'i', 'd', 'g', 'e'], ['c', 'h', 'o', 'r', 'u', 's', 'i'],
   ['c', 'h', 'o', 'r', 'u', 's', 'i', 'i'], ['a', 'v', 'e', 'r', 's', 'e'],
   ['b', 'v', 'e', 'r', 's', 'e'], ['c', 'v', 'e', 'r', 's', 'e'],
   ['r', 'e', 'c', 'i', 't', 'e']]

/-- Whole-word match of one of the verse-opening command names (the lookahead
`(?:num|emptyv|...)\b` of `strophe_split_pattern`). -/
def isBeginverseAt (rest : PyStr) : Bool :=
  beginverseWords.any fun w =>
    w.isPrefixOf rest &&
      (match rest.drop w.length with
       | [] => true
       | c :: _ => !isWordChar c)

/-- `strophe_split_pattern.split`: split before each backslash followed by a
whole-word verse-opening command (the zero-width lookahead keeps the command
name in the following piece; the backslash separator is consumed). -/
def splitStrophesAux (cur : PyStr) : PyStr → List PyStr
  | [] => [cur.reverse]
  | c :: r =>
    if c == '\\' && isBeginverseAt r then cur.reverse :: splitStrophesAux [] r
    else splitStrophesAux (c :: cur) r

def splitStrophes (s : PyStr) : List PyStr := splitStrophesAux [] s

/-- Whole-word match of a verse-closing command name (`fin` or `cl`)
after a backslash; returns the matched length. -/
def endverseWordAt (rest : PyStr) : Option Nat :=
  let words : List PyStr := [['f', 'i', 'n'], ['c', 'l']]
  words.findSome? fun w =>
    if w.isPrefixOf rest &&
        (match rest.drop w.length with
         | [] => true
         | c :: _ => !isWordChar c) then some w.length
    else none

/-- `endverse_pattern.split` (separators `\fin`/`\cl` are consumed). -/
def splitEndverseF : Nat → PyStr → PyStr → List PyStr
  | 0, cur, s => [cur.reverse ++ s]
  | _ + 1, cur, [] => [cur.reverse]
  | f + 1, cur, c :: r =>
    if c == '\\' then
      match endverseWordAt r with
      | some k => cur.reverse :: splitEndverseF f [] (r.drop k)
      | none => splitEndverseF f (c :: cur) r
    else splitEndverseF f (c :: cur) r

def splitEndverse (s : PyStr) : List PyStr := splitEndverseF (s.length + 1) [] s

/-- The token class `([]\\[{}])` of `strophe_token_pattern`. -/
def tokenChar (c : Char) : Bool :=
  c == ']' || c == '\\' || c == '[' || c == '{' || c == '}'

/-- `text_load_repls` application (`_handle_parsed_text`). -/
def handleParsedText (s : PyStr) : Seg :=
  .plain (replaceAll [' ', '-', '-', ' '] [' ', '-', ' ']
    (replaceAll ['~', '-', '-', ' '] [' ', '-', ' '] s))

/-- `ModifiedSongsLatexFormat._parse_text_chunk`. -/
def parseTextChunkP (text : PyStr) (pos : Nat) : Option Seg × Nat :=
  let rest := text.drop pos
  let pre := rest.takeWhile fun c => !tokenChar c
  if pre.length == rest.length then (some (handleParsedText rest), text.length)
  else if !pre.isEmpty then (some (handleParsedText pre), pos + pre.length)
  else (none, pos)

/-- `ModifiedSongsLatexFormat._parse_chord_mark`. -/
def parseChordMarkP (text : PyStr) (pos : Nat) : Except RestErr (Chord × Nat) :=
  if ['\\', '['].isPrefixOf (text.drop pos) then
    let pos2 := pos + 2
    match strFindAux [']'] 0 (text.drop pos2) with
    | none => .error .positional
    | some k =>
      match latexChordParse ((text.drop pos2).take k) with
      | none => .error .songParse
      | some chord => .ok (chord, pos2 + k + 1)
  else .error .positional

/-- `ModifiedSongsLatexFormat._parse_repchorus`. -/
def parseRepchorus (segs : List Seg) (n : Option Int) : Except RestErr (List Seg) :=
  match segs.getLast? with
  | none => .error .pyErr
  | some lastSeg =>
    let nAndSegs : Int × List Seg :=
      match lastSeg with
      | .repCountPI k => (k, segs.dropLast)
      | _ => (1, segs)
    let mark := match n with | none => Mark.chorus | some k => Mark.numberedChorus k
    .ok (List.replicate nAndSegs.1.toNat (.embedded mark nAndSegs.2))

/-- The `complex_text_commands` handler table (a missing key is Python
`KeyError`). -/
def complexTextCommand (name : PyStr) (inner : List Seg) : Except RestErr (List Seg) :=
  if name == ['c', 's', 'e', 'q'] then .ok inner
  else if name == ['u', 'v'] then .ok (.plain ['"'] :: inner ++ [.plain ['"']])
  else if name == ['r', 'e', 'p'] then
    match inner.head? with
    | some s =>
      match s.text with
      | some t =>
        match pyInt t with
        | some k => .ok [.repCountPI k]
        | none => .error .pyErr
      | none => .error .pyErr
    | none => .error .pyErr
  else if name == ['r', 'e', 'p', 'c', 'h', 'o', 'r', 'u', 's'] then parseRepchorus inner none
  else if name == ['r', 'e', 'p', 'c', 'h', 'o', 'r', 'u', 's', 'i'] then parseRepchorus inner (some 1)
  else if name == ['r', 'e', 'p', 'c', 'h', 'o', 'r', 'u', 's', 'i', 'i'] then parseRepchorus inner (some 2)
  else .error .pyErr

/-- The `simple_text_commands` / `noop_commands` dispatch of
`_parse_command_chunk`. -/
def dispatchCommand (cname : PyStr) (inner : List Seg) (afterPos : Nat) :
    Except RestErr (List Seg × Nat) :=
  if cname == ['c', 'h', 'o', 'r', 'd', 's', 'o', 'n'] then
    if inner.isEmpty then .ok ([.chordsOnPI], afterPos) else .error .positional
  else if cname == ['c', 'h', 'o', 'r', 'd', 's', 'o', 'f', 'f'] then
    if inner.isEmpty then .ok ([.chordsOffPI], afterPos) else .error .positional
  else if cname == ['l', 'd', 'o', 't', 's'] then
    if inner.isEmpty then .ok ([.plain ['.', '.', '.']], afterPos) else .error .positional
  else if cname == ['e', 'n', 'd', 's', 'o', 'n', 'g'] then
    if inner.isEmpty then .ok ([], afterPos) else .error .positional
  else if cname == ['e', 'm', 'p', 't', 'y', 's', 'p', 'a', 'c', 'e'] then .ok (inner, afterPos)
  else (complexTextCommand cname inner).map (fun r => (r, afterPos))

/-- The mode tag of the defunctionalized recursive-descent walker (the five
mutually recursive parsing procedures of `ModifiedSongsLatexFormat`). -/
inductive DescMode
  | command
  | curly
  | curlyInner
  | part
  | chunk
  | chordChunk
deriving Repr

/-- The recursive descent of `ModifiedSongsLatexFormat`, defunctionalized into
one fuel-structural function so that it evaluates by kernel reduction.  The
`acc` argument is used only by the `curlyInner` mode (the
`while text[current_pos] != "}"` loop); `chordChunk` returns its single
segment as a one-element list. -/
def descend : Nat → DescMode → PyStr → Nat → List Seg → Except RestErr (List Seg × Nat)
  | 0, _, _, _, _ => .error .pyErr
  | f + 1, .command, text, pos, _ =>
    (match text.drop pos with
     | [] => .error .pyErr
     | c :: r =>
       if !(c == '\\') || r.isEmpty then .error .positional
       else
         match r with
         | '\\' :: _ => .ok ([], pos + 2)
         | _ =>
           let cname := r.takeWhile isWordChar
           if cname.isEmpty then .error .positional
           else
             let postPos := pos + 1 + cname.length
             match text.drop postPos with
             | '{' :: _ =>
               (match descend f .curly text postPos [] with
                | .ok (inner, afterPos) => dispatchCommand cname inner afterPos
                | .error e => .error e)
             | rest2 => dispatchCommand cname [] (postPos + (rest2.takeWhile isPyWs).length))
  | f + 1, .curly, text, pos, _ =>
    (match text.drop pos with
     | '{' :: _ => descend f .curlyInner text (pos + 1) []
     | _ :: _ => .error .positional
     | [] => .error .pyErr)
  | f + 1, .curlyInner, text, pos, acc =>
    (match text.drop pos with
     | [] => .error .pyErr
     | '}' :: _ => .ok (acc, pos + 1)
     | _ =>
       match descend f .part text pos [] with
       | .ok (segs, pos2) => descend f .curlyInner text pos2 (acc ++ segs)
       | .error e => .error e)
  | f + 1, .part, text, pos, _ =>
    (match text.drop pos with
     | '\\' :: _ =>
       (match descend f .command text pos [] with
        | .ok r => .ok r
        | .error .positional => descend f .chunk text pos []
        | .error e => .error e)
     | _ => descend f .chunk text pos [])
  | f + 1, .chunk, text, pos, _ =>
    (match descend f .chordChunk text pos [] with
     | .ok (cs, afterChordPos) =>
       if afterChordPos < text.length then
         match parseTextChunkP text afterChordPos with
         | (some seg, afterPlainPos) => .ok (cs ++ [seg], afterPlainPos)
         | (none, _) => .ok (cs, afterChordPos)
       else .ok (cs, afterChordPos)
     | .error .positional =>
       if pos < text.length then
         match parseTextChunkP text pos with
         | (some seg, p2) => .ok ([seg], p2)
         | (none, p2) => .ok ([], p2)
       else .ok ([], pos)
     | .error e => .error e)
  | f + 1, .chordChunk, text, pos, _ =>
    (match parseChordMarkP text pos with
     | .error e => .error e
     | .ok (chord, afterChordPos) =>
       match text.drop afterChordPos with
       | '{' :: _ =>
         (match descend f .curly text afterChordPos [] with
          | .ok (inner, afterBrace) =>
            match inner with
            | [.plain t] => .ok ([.chorded chord t], afterBrace)
            | _ => .error .positional
          | .error e => .error e)
       | _ => .ok ([.chorded chord []], afterChordPos))

/-- `ModifiedSongsLatexFormat._parse_command_chunk`. -/
def parseCommandChunkF (f : Nat) (text : PyStr) (pos : Nat) :
    Except RestErr (List Seg × Nat) :=
  descend f .command text pos []

/-- `ModifiedSongsLatexFormat._parse_strophe_part`. -/
def parseStrophePartF (f : Nat) (text : PyStr) (pos : Nat) :
    Except RestErr (List Seg × Nat) :=
  descend f .part text pos []

/-- `ModifiedSongsLatexFormat._join_strophe_segments`. -/
def joinSegsAux (flag : Bool) (acc : List Seg) : List Seg → List Seg
  | [] => acc.reverse
  | .chordsOnPI :: r => joinSegsAux true acc r
  | .chordsOffPI :: r => joinSegsAux false acc r
  | .plain t :: r =>
    (match flag, acc with
     | true, .chorded c u :: acc2 => joinSegsAux true (.chorded c (u ++ t) :: acc2) r
     | _, _ => joinSegsAux flag (.plain t :: acc) r)
  | s :: r => joinSegsAux flag (s :: acc) r

def joinStropheSegments (segs : List Seg) (chordsOn : Bool) : List Seg :=
  joinSegsAux chordsOn [] segs

/-- The `while current_pos < len(body)` loop of `_parse_strophe_segments`. -/
def latexSegsLoopF : Nat → PyStr → Nat → List Seg → Except RestErr (List Seg)
  | 0, _, _, _ => .error .pyErr
  | f + 1, body, pos, acc =>
    if pos < body.length then
      match parseStrophePartF f body pos with
      | .ok (segs, pos2) => latexSegsLoopF f body pos2 (acc ++ segs)
      | .error e => .error e
    else .ok acc

/-- `ModifiedSongsLatexFormat._parse_strophe_segments`. -/
def parseLatexSegments (fuel : Nat) (body : PyStr) (chordsOn : Bool) :
    Except RestErr (List Seg) :=
  (latexSegsLoopF fuel body 0 []).map (joinStropheSegments · chordsOn)

/-- `result` elements admissible in an annotation chunk
(`EmbeddedStrophe | Annotation`; processing instructions are annotations). -/
def segIsAnnotLike : Seg → Bool
  | .embedded _ _ => true
  | .chordsOnPI => true
  | .chordsOffPI => true
  | .repCountPI _ => true
  | _ => false

/-- `ModifiedSongsLatexFormat._parse_annotation_chunk`. -/
def parseAnnotChunkF : Nat → PyStr → Nat → List Seg → Except RestErr (List Seg)
  | 0, _, _, _ => .error .pyErr
  | f + 1, text, pos, acc =>
    if pos < text.length then
      let pos1 := pos + ((text.drop pos).takeWhile isPyWs).length
      match parseCommandChunkF f text pos1 with
      | .ok (res, pos2) =>
        if res.all segIsAnnotLike then parseAnnotChunkF f text pos2 (acc ++ res)
        else .error .pyErr
      | .error e => .error e
    else .ok acc

/-- `ModifiedSongsLatexFormat._parse_annotations` (every element must be an
`Annotation`; an embedded strophe raises `ValueError`). -/
def parseAnnotationsLatex (fuel : Nat) (s : PyStr) : Except RestErr (List Annot) := do
  let segs ← parseAnnotChunkF fuel s 0 []
  segs.mapM fun sg =>
    match sg with
    | .chordsOnPI => .ok Annot.chordsOnPI
    | .chordsOffPI => .ok Annot.chordsOffPI
    | .repCountPI n => .ok (Annot.repCountPI n)
    | _ => .error RestErr.pyErr

/-- `simple_beginverse_commands` plus the numbered command
(`_parse_strophe_mark` of the LaTeX format). -/
def parseLatexMark (markStr : PyStr) (num : Int) : Except RestErr Mark :=
  if markStr == ['n', 'u', 'm'] then .ok (.numbered num)
  else if markStr == ['e', 'm', 'p', 't', 'y', 'v'] then .ok .empty
  else if markStr == ['f', 'r', 'e', 'e', 'v'] then .ok .empty
  else if markStr == ['c', 'h', 'o', 'r'] then .ok .chorus
  else if markStr == ['i', 'n', 't', 'r', 'o'] then .ok .intro
  else if markStr == ['s', 'o', 'l', 'o'] then .ok .solo
  else if markStr == ['b', 'r', 'i', 'd', 'g', 'e'] then .ok .bridge
  else if markStr == ['c', 'h', 'o', 'r', 'u', 's', 'i'] then .ok (.numberedChorus 1)
  else if markStr == ['c', 'h', 'o', 'r', 'u', 's', 'i', 'i'] then .ok (.numberedChorus 2)
  else if markStr == ['a', 'v', 'e', 'r', 's', 'e'] then .ok (.lettered 'A')
  else if markStr == ['b', 'v', 'e', 'r', 's', 'e'] then .ok (.lettered 'B')
  else if markStr == ['c', 'v', 'e', 'r', 's', 'e'] then .ok (.lettered 'C')
  else if markStr == ['r', 'e', 'c', 'i', 't', 'e'] then .ok .recitation
  else .error .songParse

/-- `ModifiedSongsLatexFormat._parse_strophe`. -/
def parseLatexStrophe (fuel : Nat) (stropheStr : PyStr) (num : Int) (chordsOn : Bool) :
    Except RestErr (Item × List Seg) := do
  let markStr := stropheStr.takeWhile isWordChar
  if markStr.isEmpty then .error RestErr.pyErr
  else do
    let mark ← parseLatexMark markStr num
    match splitEndverse (stropheStr.drop markStr.length) with
    | [body0, after0] => do
      let segs ← parseLatexSegments fuel (pyStrip body0) chordsOn
      let post ← parseAnnotChunkF fuel (pyStrip after0) 0 []
      pure (Item.strophe mark segs, post)
    | _ => .error RestErr.songParse

/-- `process_chords_on_instructions`. -/
def processChordInstr (post : List Seg) : Option Bool × List Seg :=
  post.foldl
    (fun acc sg =>
      match sg with
      | .chordsOnPI => (some true, acc.2)
      | .chordsOffPI => (some false, acc.2)
      | _ => (acc.1, acc.2 ++ [sg]))
    (none, [])

/-- Post-strophe content appended to the item list by `loads`. -/
def postToItem : Seg → Except RestErr Item
  | .embedded m s => .ok (.repeatSame m s)
  | .chordsOnPI => .ok (.annot .chordsOnPI)
  | .chordsOffPI => .ok (.annot .chordsOffPI)
  | .repCountPI n => .ok (.annot (.repCountPI n))
  | _ => .error .pyErr

/-- The `for verse_str in strophe_strs[1:]` loop of the LaTeX `loads`. -/
def latexLoadsLoop (fuel : Nat) : List PyStr → Int → Bool → List Item →
    Except RestErr (List Item)
  | [], _, _, items => .ok items
  | vs :: rest, num, chordsOn, items => do
    let (strophe, post) ← parseLatexStrophe fuel (pyStrip vs) num chordsOn
    let updAndPost := processChordInstr post
    let chordsOn2 := updAndPost.1.getD chordsOn
    let num2 : Int :=
      match strophe with
      | .strophe (.numbered _) _ => num + 1
      | _ => num
    let postItems ← updAndPost.2.mapM postToItem
    latexLoadsLoop fuel rest num2 chordsOn2 (items ++ [strophe] ++ postItems)

/-- `ModifiedSongsLatexFormat.loads`. -/
def modLatexLoads (text : PyStr) : Except LoadErr Song :=
  match parseBeginsong text with
  | none => .error .beginsongMissing
  | some (annots0, remnant) =>
    let stropheStrs := splitStrophes remnant
    if stropheStrs.length < 3 then .error .noStrophes
    else
      let fuel := (text.length + 8) * (text.length + 8)
      let restComp : Except RestErr Song := do
        let headAnnots ← parseAnnotationsLatex fuel (pyStrip (stropheStrs.headD []))
        let items ← latexLoadsLoop fuel (stropheStrs.drop 1) 1 true []
        pure ⟨annots0 ++ headAnnots, items⟩
      match restComp with
      | .ok s => .ok s
      | .error e => .error (.rest e)

/-! ## Helper predicates and concrete inputs used by the theorems -/

/-- The hypothesis of the plain-dialect fallback claim: the first
whitespace-delimited token of the stripped part, after delimiter stripping,
matches neither the direct-mark table nor the numeric nor the letter
pattern (and the whitespace split itself yields two fields). -/
def markCandidateUnmatched (part : PyStr) : Bool :=
  match splitWsFirst (pyStrip part) with
  | none => false
  | some (init0, _) =>
    let init := removeSuffix (removeSuffix init0 ['.']) [':']
    !(init == ['R']) && !(init == ['C']) &&
      !(!init.isEmpty && init.all Char.isDigit) &&
      !(!init.isEmpty && init.all fun c => 'A' ≤ c && c ≤ 'E')

def startsWithDigit (s : PyStr) : Bool :=
  match s with
  | c :: _ => c.isDigit
  | [] => false

/-- Failure family one of the chord round trip: an `Altered` rendered without
its explicit factor 5 immediately followed by a digit-initial rendering
re-parses with the digit absorbed into the `Altered`. -/
def safeStep : Modifier → Modifier → Bool
  | .altered _ f, b => if f = 5 then !startsWithDigit b.render else true
  | _, _ => true

/-- Failure family two: an `AddedNote` whose decimal rendering starts with a
`7` (possible only from a leading-zero source spelling) re-parses as a
`DominantSeventh`. -/
def addedOk : Modifier → Bool
  | .addedNote n => !(startsWithDigit (pyNatStr n) && (pyNatStr n).headD ' ' == '7')
  | _ => true

def chainSafe : List Modifier → Bool
  | [] => true
  | [_] => true
  | a :: b :: r => safeStep a b && chainSafe (b :: r)

/-- The round-trip safety condition on a parsed chord. -/
def safeChord (c : Chord) : Bool :=
  c.modifiers.all addedOk && chainSafe c.modifiers

def noGenericModifier (c : Chord) : Bool :=
  c.modifiers.all fun m =>
    match m with
    | .generic _ => false
    | _ => true

/-- Indexed map used to state the pointwise effect of the replacement loop of
`_fill_initial_plain_segments`. -/
def mapWithIdx (g : Nat → Item → Item) : Nat → List Item → List Item
  | _, [] => []
  | k, it :: rest => g k it :: mapWithIdx g (k + 1) rest

/-- The per-index transformation the replacement list induces. -/
def fillTransform (repls : List (Nat × Seg)) (i : Nat) (it : Item) : Item :=
  match repls.find? (fun p => p.1 == i) with
  | some p => it.setFirstSeg p.2
  | none => it

def exceptIsOk {ε α : Type} : Except ε α → Bool
  | .ok _ => true
  | .error _ => false

/-- `[A, B, C]` lettered strophes (the coda-claim example). -/
def exC1 : Song :=
  ⟨[], [.strophe (.lettered 'A') [], .strophe (.lettered 'B') [], .strophe (.lettered 'C') []]⟩

/-- `[1, C]`: the single lettered mark is `C` and it is last. -/
def exC1w : Song := ⟨[], [.strophe (.numbered 1) [], .strophe (.lettered 'C') []]⟩

/-- Marks `[1, Chorus, 2]`: one further verse after the chorus. -/
def exC2 : List Item := [.strophe (.numbered 1) [], .strophe .chorus [], .strophe (.numbered 2) []]

/-- Marks `[1, Chorus, 2, 3]` (the chorus-repetition example). -/
def exC2w : List Item :=
  [.strophe (.numbered 1) [], .strophe .chorus [], .strophe (.numbered 2) [],
   .strophe (.numbered 3) []]

def exC3w : Song :=
  ⟨[], [.strophe (.numbered 1) [.chorded ⟨['C'], []⟩ ['l', 'a']],
        .strophe .chorus [.plain ['r', 'e'], .chorded ⟨['D'], []⟩ ['m', 'i']],
        .strophe (.numbered 2) [.plain ['d', 'o']],
        .strophe (.numbered 3) [.plain ['f', 'a']]]⟩

def exC8 : Song := ⟨[], [.strophe (.numbered 1) []]⟩

def exC8w : Song := ⟨[], [.strophe (.numbered 1) [], .strophe .chorus []]⟩

/-- The letter extracted by the coda pass from a mark. -/
def letterOf : Mark → Option Char
  | .lettered c => some c
  | _ => none

/-- The per-item data the mark-level passes depend on. -/
def itemsMarksMap (items : List Item) : List (Bool × Option Mark) :=
  items.map fun it => (it.isStrophe, it.mark)

/-- Items that are neither repeat placeholders nor resolved repeats. -/
def Item.noRepeats : Item → Bool
  | .repeatSame _ _ => false
  | .stropheRepeat _ => false
  | _ => true

/-- Concatenated rendering of a modifier list (the modifier part of
`Chord.to_string`). -/
def renderMods (ms : List Modifier) : PyStr := (ms.map Modifier.render).flatten

/-- Safety bundle on a modifier list (see `safeStep`, `addedOk`). -/
def safeMods (ms : List Modifier) : Bool := ms.all addedOk && chainSafe ms

/-- Transfer facts from a remaining source string to the rendering of its
parse: properties of the head of the rendering that can only come from the
head of the source. -/
def headCompat (src t : PyStr) : Prop :=
  (startsWithDigit t = true → startsWithDigit src = true) ∧
  (['a', 'j'].isPrefixOf t = true → ['a', 'j'].isPrefixOf src = true) ∧
  (∀ c, t.head? = some c → (c = '#' ∨ c = 'b') → src.head? = some c)

/-- The normalized form of `exC3w` (chorus repeats inserted after each later
verse, first segment of the chorus filled from the preceding chord). -/
def exC3out : Song :=
  ⟨[], [.strophe (.numbered 1) [.chorded ⟨['C'], []⟩ ['l', 'a']],
        .strophe .chorus [.chorded ⟨['C'], []⟩ ['r', 'e'], .chorded ⟨['D'], []⟩ ['m', 'i']],
        .strophe (.numbered 2) [.plain ['d', 'o']],
        .stropheRepeat (.strophe .chorus
          [.plain ['r', 'e'], .chorded ⟨['D'], []⟩ ['m', 'i']]),
        .strophe (.numbered 3) [.plain ['f', 'a']],
        .stropheRepeat (.strophe .chorus
          [.plain ['r', 'e'], .chorded ⟨['D'], []⟩ ['m', 'i']])]⟩

/-! ## Theorems -/

/-! ### Shared lemmas on the normalization passes -/

theorem inferChorusRepetition_fires (a b : Item) (rest : List Item)
    (hrest : rest ≠ [])
    (hk : stropheKinds (a :: b :: rest) =
      .numberedK :: .chorusK :: List.replicate rest.length MarkKind.numberedK) :
    inferChorusRepetition (a :: b :: rest) =
      a :: b :: rest.flatMap fun st => [st, Item.stropheRepeat b] := by
  have hrl : 0 < rest.length := List.length_pos.mpr hrest
  unfold inferChorusRepetition
  simp only [hk, List.length_cons, List.length_replicate]
  rw [if_neg (by simpa using hrest), if_pos (by simp)]

theorem inferChorusRepetition_id (items : List Item)
    (h : (stropheKinds items).length ≤ 2 ∨ (stropheKinds items).length < items.length ∨
      stropheKinds items ≠
        .numberedK :: .chorusK ::
          List.replicate ((stropheKinds items).length - 2) MarkKind.numberedK) :
    inferChorusRepetition items = items := by
  unfold inferChorusRepetition
  rcases h with h | h | h
  · rw [if_pos]
    simp [h]
  · rw [if_pos]
    simp [h]
  · by_cases h2 : (stropheKinds items).length ≤ 2 ∨ (stropheKinds items).length < items.length
    · rw [if_pos (by simpa using h2)]
    · rw [if_neg (by simpa using h2), if_neg (by simpa using h)]

theorem stropheKinds_eq_map_marks :
    ∀ (items : List Item), stropheKinds items = (stropheMarks items).map Mark.kind := by
  have aux : ∀ (items : List Item) (k : Nat),
      ((stropheMarksIdxAux k items).map Prod.snd).map Mark.kind = stropheKinds items := by
    intro items
    induction items with
    | nil => intro k; rfl
    | cons it rest ih =>
      intro k
      cases hs : it.isStrophe <;> cases hm : it.mark <;>
        simp [stropheMarksIdxAux, stropheKinds, List.filterMap_cons, hs, hm, ih (k + 1)]
  intro items
  rw [stropheMarks, stropheMarksIdx, ← aux items 0]

theorem letteredLetters_eq (items : List Item) :
    letteredLetters items = (stropheMarks items).filterMap letterOf := by
  rw [letteredLetters, stropheMarks, List.filterMap_map]
  rfl

theorem stropheMarksIdx_getLast_map (items : List Item) :
    ((stropheMarksIdx items).getLast?).map Prod.snd = (stropheMarks items).getLast? := by
  rw [stropheMarks, List.getLast?_map]

theorem stropheMarksIdxAux_fst_ge :
    ∀ (items : List Item) (k : Nat) (p : Nat × Mark),
      p ∈ stropheMarksIdxAux k items → k ≤ p.1 := by
  intro items
  induction items with
  | nil => intro k p hp; simp [stropheMarksIdxAux] at hp
  | cons it rest ih =>
    intro k p hp
    simp only [stropheMarksIdxAux, List.mem_append] at hp
    rcases hp with hp | hp
    · cases hs : it.isStrophe <;> cases hm : it.mark <;> simp [hs, hm] at hp
      subst hp
      exact le_refl _
    · exact Nat.le_of_succ_le (ih (k + 1) p hp)

theorem stropheMarksIdxAux_pairwise :
    ∀ (items : List Item) (k : Nat),
      List.Pairwise (fun p q => p.1 < q.1) (stropheMarksIdxAux k items) := by
  intro items
  induction items with
  | nil => intro k; simp [stropheMarksIdxAux]
  | cons it rest ih =>
    intro k
    rw [stropheMarksIdxAux, List.pairwise_append]
    refine ⟨?_, ih (k + 1), ?_⟩
    · cases hs : it.isStrophe <;> cases hm : it.mark <;> simp [hs, hm]
    · intro p hp q hq
      have hq1 := stropheMarksIdxAux_fst_ge rest (k + 1) q hq
      cases hs : it.isStrophe <;> cases hm : it.mark <;> simp [hs, hm] at hp
      subst hp
      omega

theorem stropheMarksIdxAux_get :
    ∀ (items : List Item) (k : Nat) (p : Nat × Mark),
      p ∈ stropheMarksIdxAux k items →
      ∃ it, items.get? (p.1 - k) = some it ∧ it.isStrophe = true ∧ it.mark = some p.2 := by
  intro items
  induction items with
  | nil => intro k p hp; simp [stropheMarksIdxAux] at hp
  | cons it rest ih =>
    intro k p hp
    simp only [stropheMarksIdxAux, List.mem_append] at hp
    rcases hp with hp | hp
    · cases hs : it.isStrophe <;> cases hm : it.mark <;> simp [hs, hm] at hp
      subst hp
      exact ⟨it, by simp, hs, hm⟩
    · obtain ⟨it2, hget, hstr, hmark⟩ := ih (k + 1) p hp
      have hk1 := stropheMarksIdxAux_fst_ge rest (k + 1) p hp
      refine ⟨it2, ?_, hstr, hmark⟩
      have : p.1 - k = (p.1 - (k + 1)) + 1 := by omega
      rw [this]
      simpa using hget

theorem stropheMarksIdxAux_set :
    ∀ (items : List Item) (k i : Nat) (it' : Item) (m' : Mark),
      it'.isStrophe = true → it'.mark = some m' →
      (∃ it0 m0 , items.get? i = some it0 ∧ it0.isStrophe = true ∧ it0.mark = some m0) →
      stropheMarksIdxAux k (items.set i it') =
        (stropheMarksIdxAux k items).map fun p => if p.1 = k + i then (p.1, m') else p := by
  intro items
  induction items with
  | nil => intro k i it' m' _ _ h; obtain ⟨it0, m0, hget, _⟩ := h; simp at hget
  | cons it rest ih =>
    intro k i it' m' hstr' hm' h
    obtain ⟨it0, m0, hget, hstr0, hm0⟩ := h
    cases i with
    | zero =>
      simp only [List.get?_cons_zero, Option.some.injEq] at hget
      subst hget
      simp only [List.set_cons_zero, stropheMarksIdxAux, hstr', hm', hstr0, hm0,
        Option.map_some, Option.toList_some, if_true, List.map_append]
      congr 1
      · simp
      · have hpt : ∀ p ∈ stropheMarksIdxAux (k + 1) rest,
            (if p.1 = k + 0 then (p.1, m') else p) = p := by
          intro p hp
          have := stropheMarksIdxAux_fst_ge rest (k + 1) p hp
          rw [if_neg (by omega)]
        rw [List.map_congr_left hpt]; exact (List.map_id' _).symm
    | succ j =>
      simp only [List.get?_cons_succ] at hget
      simp only [List.set_cons_succ, stropheMarksIdxAux, List.map_append]
      congr 1
      · cases hs : it.isStrophe <;> cases hm : it.mark <;> simp [hs, hm]
      · rw [ih (k + 1) j it' m' hstr' hm' ⟨it0, m0, hget, hstr0, hm0⟩]
        congr 1
        funext p
        have : k + 1 + j = k + (j + 1) := by omega
        rw [this]



theorem setFirstSeg_preserves (it : Item) (r : Seg) :
    (it.setFirstSeg r).isStrophe = it.isStrophe ∧ (it.setFirstSeg r).mark = it.mark := by
  induction it with
  | strophe m segs => exact ⟨rfl, rfl⟩
  | repeatSame m segs => exact ⟨rfl, rfl⟩
  | stropheRepeat rep ih =>
    refine ⟨rfl, ?_⟩
    show (rep.setFirstSeg r).mark = rep.mark
    exact ih.2
  | annot a => exact ⟨rfl, rfl⟩

theorem itemsMarksMap_set_setFirstSeg :
    ∀ (items : List Item) (i : Nat) (r : Seg) (d : Item),
      itemsMarksMap (items.set i ((items.getD i d).setFirstSeg r)) = itemsMarksMap items := by
  intro items
  induction items with
  | nil => intro i r d; rfl
  | cons it rest ih =>
    intro i r d
    cases i with
    | zero =>
      simp only [List.getD_cons_zero, List.set_cons_zero, itemsMarksMap, List.map_cons,
        List.map_cons]
      rw [(setFirstSeg_preserves it r).1, (setFirstSeg_preserves it r).2]
    | succ j =>
      simp only [List.getD_cons_succ, List.set_cons_succ, itemsMarksMap, List.map_cons]
      have := ih j r d
      rw [itemsMarksMap, itemsMarksMap] at this
      rw [this]

theorem itemsMarksMap_applyRepls (repls : List (Nat × Seg)) :
    ∀ (items : List Item), itemsMarksMap (applyRepls items repls) = itemsMarksMap items := by
  induction repls with
  | nil => intro items; rfl
  | cons p rest ih =>
    intro items
    obtain ⟨i, r⟩ := p
    rw [applyRepls, ih, itemsMarksMap_set_setFirstSeg]

theorem stropheMarksIdxAux_congr :
    ∀ (a b : List Item) (k : Nat), itemsMarksMap a = itemsMarksMap b →
      stropheMarksIdxAux k a = stropheMarksIdxAux k b := by
  intro a
  induction a with
  | nil =>
    intro b k h
    cases b with
    | nil => rfl
    | cons it rest => simp [itemsMarksMap] at h
  | cons it rest ih =>
    intro b k h
    cases b with
    | nil => simp [itemsMarksMap] at h
    | cons it2 rest2 =>
      simp only [itemsMarksMap, List.map_cons, List.cons.injEq, Prod.mk.injEq] at h
      obtain ⟨⟨hs, hm⟩, ht⟩ := h
      rw [stropheMarksIdxAux, stropheMarksIdxAux, hs, hm,
        ih rest2 (k + 1) (by simpa [itemsMarksMap] using ht)]

theorem stropheMarks_congr (a b : List Item) (h : itemsMarksMap a = itemsMarksMap b) :
    stropheMarks a = stropheMarks b := by
  rw [stropheMarks, stropheMarks, stropheMarksIdx, stropheMarksIdx,
    stropheMarksIdxAux_congr a b 0 h]

theorem fill_itemsMarksMap (items : List Item) :
    itemsMarksMap (fillInitialPlainSegments items) = itemsMarksMap items := by
  rw [fillInitialPlainSegments, itemsMarksMap_applyRepls]

theorem fill_stropheMarks (items : List Item) :
    stropheMarks (fillInitialPlainSegments items) = stropheMarks items :=
  stropheMarks_congr _ _ (fill_itemsMarksMap items)

theorem itemsMarksMap_length (items : List Item) :
    (itemsMarksMap items).length = items.length := by
  rw [itemsMarksMap, List.length_map]

theorem fill_length (items : List Item) :
    (fillInitialPlainSegments items).length = items.length := by
  have := congrArg List.length (fill_itemsMarksMap items)
  rwa [itemsMarksMap_length, itemsMarksMap_length] at this

theorem linkGo_id :
    ∀ (items prevRev : List Item), (∀ it ∈ items, it.isRepeatSame = false) →
      linkGo prevRev items = some items := by
  intro items
  induction items with
  | nil => intro prevRev _; rfl
  | cons it rest ih =>
    intro prevRev h
    have hit := h it (by simp)
    have htail := ih (it :: prevRev) fun it2 h2 => h it2 (by simp [h2])
    cases it <;> simp_all [linkGo, Item.isRepeatSame]

theorem spliceContinuation_strophe (link : Item) (mark : Mark) (segs : List Seg) (res : Item)
    (h : spliceContinuation link mark segs = some res) :
    ∃ s2, res = Item.strophe mark s2 := by
  unfold spliceContinuation at h
  simp only [Option.bind_eq_bind, Option.bind_eq_some, Option.pure_def,
    Option.some.injEq] at h
  obtain ⟨a, ha, t0, ht0, x, hx, hrest⟩ := h
  obtain ⟨i, seg, f⟩ := x
  simp only [Option.bind_eq_some, Option.some.injEq] at hrest
  obtain ⟨t, ht, heq⟩ := hrest
  exact ⟨_, heq.symm⟩

theorem linkGo_noRepeatSame :
    ∀ (items prevRev out : List Item), linkGo prevRev items = some out →
      ∀ it2 ∈ out, it2.isRepeatSame = false := by
  intro items
  induction items with
  | nil =>
    intro prevRev out h
    cases h
    simp
  | cons it rest ih =>
    intro prevRev out h it2 hmem
    cases hcase : it with
    | repeatSame m segs =>
      subst hcase
      simp only [linkGo, Option.bind_eq_bind] at h
      cases h1 : findLink m prevRev with
      | none => rw [h1] at h; cases h
      | some link =>
        rw [h1] at h
        simp only [Option.some_bind] at h
        by_cases hseg : segs.isEmpty
        · rw [if_pos hseg] at h
          simp only [Option.pure_def, Option.some_bind] at h
          cases h2 : linkGo (Item.repeatSame m segs :: prevRev) rest with
          | none => rw [h2] at h; cases h
          | some tail =>
            rw [h2] at h
            simp only [Option.some_bind, Option.pure_def, Option.some.injEq] at h
            subst h
            rcases List.mem_cons.mp hmem with rfl | hmem2
            · rfl
            · exact ih _ tail h2 it2 hmem2
        · rw [if_neg hseg] at h
          cases h3 : spliceContinuation link m segs with
          | none => rw [h3] at h; cases h
          | some res =>
            rw [h3] at h
            simp only [Option.some_bind] at h
            cases h2 : linkGo (Item.repeatSame m segs :: prevRev) rest with
            | none => rw [h2] at h; cases h
            | some tail =>
              rw [h2] at h
              simp only [Option.some_bind, Option.pure_def, Option.some.injEq] at h
              subst h
              rcases List.mem_cons.mp hmem with rfl | hmem2
              · obtain ⟨s2, rfl⟩ := spliceContinuation_strophe link m segs it2 h3
                rfl
              · exact ih _ tail h2 it2 hmem2
    | strophe m segs =>
      subst hcase
      simp only [linkGo, Option.bind_eq_bind] at h
      cases h2 : linkGo (Item.strophe m segs :: prevRev) rest with
      | none => rw [h2] at h; cases h
      | some tail =>
        rw [h2] at h
        simp only [Option.some_bind, Option.pure_def, Option.some.injEq] at h
        subst h
        rcases List.mem_cons.mp hmem with rfl | hmem2
        · rfl
        · exact ih _ tail h2 it2 hmem2
    | stropheRepeat rep =>
      subst hcase
      simp only [linkGo, Option.bind_eq_bind] at h
      cases h2 : linkGo (Item.stropheRepeat rep :: prevRev) rest with
      | none => rw [h2] at h; cases h
      | some tail =>
        rw [h2] at h
        simp only [Option.some_bind, Option.pure_def, Option.some.injEq] at h
        subst h
        rcases List.mem_cons.mp hmem with rfl | hmem2
        · rfl
        · exact ih _ tail h2 it2 hmem2
    | annot a =>
      subst hcase
      simp only [linkGo, Option.bind_eq_bind] at h
      cases h2 : linkGo (Item.annot a :: prevRev) rest with
      | none => rw [h2] at h; cases h
      | some tail =>
        rw [h2] at h
        simp only [Option.some_bind, Option.pure_def, Option.some.injEq] at h
        subst h
        rcases List.mem_cons.mp hmem with rfl | hmem2
        · rfl
        · exact ih _ tail h2 it2 hmem2

theorem recognizeCodas_id (items : List Item)
    (h : ¬(letteredLetters items = ['C'] ∧
      (stropheMarks items).getLast? = some (Mark.lettered 'C'))) :
    recognizeCodas items = some items := by
  unfold recognizeCodas
  rw [if_neg]
  intro hc
  rw [Bool.and_eq_true, beq_iff_eq, beq_iff_eq, stropheMarksIdx_getLast_map] at hc
  exact h hc

theorem recognizeCodas_noRepeatSame (items out : List Item)
    (hout : recognizeCodas items = some out)
    (h : ∀ it ∈ items, it.isRepeatSame = false) :
    ∀ it2 ∈ out, it2.isRepeatSame = false := by
  unfold recognizeCodas at hout
  by_cases hc : (letteredLetters items == ['C'] &&
      ((stropheMarksIdx items).getLast?).map Prod.snd == some (Mark.lettered 'C')) = true
  · rw [if_pos hc] at hout
    cases hl : (stropheMarksIdx items).getLast? with
    | none => rw [hl] at hout; cases hout
    | some e =>
      obtain ⟨i, m0⟩ := e
      rw [hl] at hout
      replace hout : setMarkAt items i Mark.coda = some out := hout
      unfold setMarkAt at hout
      cases hget : items.get? i with
      | none => rw [hget] at hout; cases hout
      | some it0 =>
        rw [hget] at hout
        cases it0 with
        | strophe m segs =>
          simp only [Option.some.injEq] at hout
          subst hout
          intro it2 hmem
          rcases List.mem_or_eq_of_mem_set hmem with h2 | h2
          · exact h it2 h2
          · subst h2; rfl
        | repeatSame m segs =>
          simp only [Option.some.injEq] at hout
          subst hout
          intro it2 hmem
          rcases List.mem_or_eq_of_mem_set hmem with h2 | h2
          · exact h it2 h2
          · subst h2
            exact absurd (h _ (List.get?_mem hget)) (by simp [Item.isRepeatSame])
        | stropheRepeat rep => cases hout
        | annot a => cases hout
  · rw [if_neg hc] at hout
    injection hout with hout
    subst hout
    exact h

theorem recognizeCodas_fired (items out : List Item)
    (h2 : letteredLetters items = ['C'])
    (h3 : (stropheMarks items).getLast? = some (Mark.lettered 'C'))
    (hout : recognizeCodas items = some out) :
    stropheMarks out = (stropheMarks items).dropLast ++ [Mark.coda] ∧
      letteredLetters out = [] ∧ out.length = items.length := by
  have hcond : (letteredLetters items == ['C'] &&
      ((stropheMarksIdx items).getLast?).map Prod.snd == some (Mark.lettered 'C')) = true := by
    rw [Bool.and_eq_true, beq_iff_eq, beq_iff_eq, stropheMarksIdx_getLast_map]
    exact ⟨h2, h3⟩
  unfold recognizeCodas at hout
  rw [if_pos hcond] at hout
  have hmapLast := stropheMarksIdx_getLast_map items
  rw [h3] at hmapLast
  cases hl : (stropheMarksIdx items).getLast? with
  | none => rw [hl] at hmapLast; cases hmapLast
  | some e =>
    obtain ⟨i, m0⟩ := e
    rw [hl] at hmapLast
    rw [hl] at hout
    replace hout : setMarkAt items i Mark.coda = some out := hout
    have hm0 : m0 = Mark.lettered 'C' := Option.some.inj hmapLast
    subst hm0
    -- decomposition of the index list at its last entry
    have hdec : (stropheMarksIdx items).dropLast ++ [(i, Mark.lettered 'C')] =
        stropheMarksIdx items :=
      List.dropLast_append_getLast? _ (by rw [hl]; rfl)
    have hmem : (i, Mark.lettered 'C') ∈ stropheMarksIdx items := by
      rw [← hdec]; simp
    obtain ⟨it0, hget0, hstr0, hmark0⟩ := stropheMarksIdxAux_get items 0 _ hmem
    simp only [Nat.sub_zero] at hget0
    -- every earlier entry has a smaller index
    have hlt : ∀ p ∈ (stropheMarksIdx items).dropLast, p.1 < i := by
      have hpw := stropheMarksIdxAux_pairwise items 0
      rw [stropheMarksIdx] at hdec
      rw [← hdec, List.pairwise_append] at hpw
      intro p hp
      exact hpw.2.2 p hp (i, Mark.lettered 'C') (by simp)
    -- compute the output list
    unfold setMarkAt at hout
    rw [hget0] at hout
    have hsub : ∀ (it' : Item), it'.isStrophe = true → it'.mark = some Mark.coda →
        out = items.set i it' →
        stropheMarks out = (stropheMarks items).dropLast ++ [Mark.coda] ∧
          letteredLetters out = [] ∧ out.length = items.length := by
      intro it' hstr' hmark' hset
      subst hset
      have hSMI : stropheMarksIdx (items.set i it') =
          (stropheMarksIdx items).map fun p => if p.1 = 0 + i then (p.1, Mark.coda) else p := by
        rw [stropheMarksIdx, stropheMarksIdx]
        exact stropheMarksIdxAux_set items 0 i it' Mark.coda hstr' hmark'
          ⟨it0, Mark.lettered 'C', hget0, hstr0, hmark0⟩
      have hSMI2 : stropheMarksIdx (items.set i it') =
          (stropheMarksIdx items).dropLast ++ [(i, Mark.coda)] := by
        rw [hSMI]
        conv_lhs => rw [← hdec]
        rw [List.map_append]
        congr 1
        · have hpt : ∀ p ∈ (stropheMarksIdx items).dropLast,
              (if p.1 = 0 + i then (p.1, Mark.coda) else p) = p := by
            intro p hp
            rw [if_neg (by have := hlt p hp; omega)]
          rw [List.map_congr_left hpt]
          exact List.map_id' _
        · simp
      have hmarks : stropheMarks (items.set i it') =
          ((stropheMarksIdx items).dropLast).map Prod.snd ++ [Mark.coda] := by
        rw [stropheMarks, hSMI2, List.map_append]
        rfl
      have hmarksItems : stropheMarks items =
          ((stropheMarksIdx items).dropLast).map Prod.snd ++ [Mark.lettered 'C'] := by
        rw [stropheMarks]
        conv_lhs => rw [← hdec]
        rw [List.map_append]
        rfl
      have hdropMarks : (stropheMarks items).dropLast =
          ((stropheMarksIdx items).dropLast).map Prod.snd := by
        rw [hmarksItems, List.dropLast_concat]
      refine ⟨by rw [hmarks, hdropMarks], ?_, by simp⟩
      -- no lettered marks remain
      have hlets : letteredLetters items =
          (((stropheMarksIdx items).dropLast).map Prod.snd).filterMap letterOf ++ ['C'] := by
        rw [letteredLetters_eq, hmarksItems, List.filterMap_append]
        rfl
      have hnil : (((stropheMarksIdx items).dropLast).map Prod.snd).filterMap letterOf = [] := by
        rw [hlets] at h2
        have hlen := congrArg List.length h2
        simp only [List.length_append, List.length_cons, List.length_nil] at hlen
        exact List.length_eq_zero.mp (by omega)
      rw [letteredLetters_eq, hmarks, List.filterMap_append, hnil]
      rfl
    cases it0 with
    | strophe m segs =>
      simp only [Option.some.injEq] at hout
      exact hsub (Item.strophe Mark.coda segs) rfl rfl hout.symm
    | repeatSame m segs =>
      simp only [Option.some.injEq] at hout
      exact hsub (Item.repeatSame Mark.coda segs) rfl rfl hout.symm
    | stropheRepeat rep => cases hout
    | annot a => cases hout

theorem inferChorusRepetition_id_of_bad_mark (items : List Item) (m : Mark)
    (hmem : m ∈ stropheMarks items)
    (hbad : Mark.kind m ≠ MarkKind.numberedK ∧ Mark.kind m ≠ MarkKind.chorusK) :
    inferChorusRepetition items = items := by
  apply inferChorusRepetition_id
  right; right
  intro hpat
  have hk : Mark.kind m ∈ stropheKinds items := by
    rw [stropheKinds_eq_map_marks]
    exact List.mem_map_of_mem Mark.kind hmem
  rw [hpat] at hk
  rcases List.mem_cons.mp hk with h | h
  · exact hbad.1 h
  · rcases List.mem_cons.mp h with h | h
    · exact hbad.2 h
    · exact hbad.1 (List.eq_of_mem_replicate h)

/-- C6: the LaTeX chord parser agrees with the direct parser on the six
equivalent notation pairs
(`Hm\hidx{7}/F\shrp{}` ≡ `Hm7/F#`, `D\hidx{maj7}` ≡ `Dmaj7`,
`D\shrp{}m\hidx{7/5b}` ≡ `D#m7/5b`, `A\hidx{sus2}` ≡ `Asus2`, `Hm` ≡ `Hm`,
`C\didx{add9}` ≡ `Cadd9`). -/
theorem latex_chord_parser_agrees_with_default :
    latexChordParse ['H', 'm', '\\', 'h', 'i', 'd', 'x', '{', '7', '}', '/', 'F', '\\', 's', 'h', 'r', 'p', '{', '}'] =
      defaultChordParse ['H', 'm', '7', '/', 'F', '#'] ∧
    latexChordParse ['D', '\\', 'h', 'i', 'd', 'x', '{', 'm', 'a', 'j', '7', '}'] =
      defaultChordParse ['D', 'm', 'a', 'j', '7'] ∧
    latexChordParse ['D', '\\', 's', 'h', 'r', 'p', '{', '}', 'm', '\\', 'h', 'i', 'd', 'x', '{', '7', '/', '5', 'b', '}'] =
      defaultChordParse ['D', '#', 'm', '7', '/', '5', 'b'] ∧
    latexChordParse ['A', '\\', 'h', 'i', 'd', 'x', '{', 's', 'u', 's', '2', '}'] =
      defaultChordParse ['A', 's', 'u', 's', '2'] ∧
    latexChordParse ['H', 'm'] = defaultChordParse ['H', 'm'] ∧
    latexChordParse ['C', '\\', 'd', 'i', 'd', 'x', '{', 'a', 'd', 'd', '9', '}'] =
      defaultChordParse ['C', 'a', 'd', 'd', '9'] := by
  refine ⟨?_, ?_, ?_, ?_, ?_, ?_⟩ <;> rfl

/-- Every piece produced by the blank-line splitter from all-whitespace
input is itself all-whitespace. -/
theorem splitPartsAux_ws :
    ∀ (s cur pending : PyStr), (∀ c ∈ cur, isPyWs c) → (∀ c ∈ pending, isPyWs c) →
      (∀ c ∈ s, isPyWs c) → ∀ p ∈ splitPartsAux cur pending s, ∀ c ∈ p, isPyWs c := by
  intro s
  induction s with
  | nil =>
    intro cur pending hcur hpend _ p hp c hc
    have hbefore : ∀ c ∈ beforeFirstNl pending, isPyWs c := fun c hc =>
      hpend c (List.takeWhile_sublist _ |>.subset hc)
    have hafter : ∀ c ∈ afterLastNl pending, isPyWs c := fun c hc => by
      have := List.takeWhile_sublist (l := pending.reverse)
        (p := fun c => !(c == '\n')) |>.subset (List.mem_reverse.mp hc)
      exact hpend c (List.mem_reverse.mp this)
    simp only [splitPartsAux] at hp
    by_cases hcnt : pending.count '\n' ≥ 2 <;> simp [hcnt] at hp
    · rcases hp with rfl | rfl
      · rcases List.mem_append.mp hc with h | h
        · exact hcur c h
        · exact hbefore c h
      · exact hafter c hc
    · subst hp
      rcases List.mem_append.mp hc with h | h
      · exact hcur c h
      · exact hpend c h
  | cons x r ih =>
    intro cur pending hcur hpend hs p hp c hc
    have hx : isPyWs x := hs x (by simp)
    rw [splitPartsAux, if_pos hx] at hp
    exact ih cur (pending ++ [x]) hcur
      (fun d hd => by
        rcases List.mem_append.mp hd with h | h
        · exact hpend d h
        · simp at h; subst h; exact hx)
      (fun d hd => hs d (by simp [hd])) p hp c hc

/-- C10: on an empty or all-whitespace input, `DefaultFormat.loads` fails with
an `IndexError` from indexing the empty part list, not with the
`SongParseError` used for other malformed inputs. -/
theorem default_loads_whitespace_index_error (s : PyStr) (h : s.all isPyWs = true) :
    defaultLoads s = .error .indexError := by
  have hparts : splitSongParts s = [] := by
    unfold splitSongParts
    have hall := splitPartsAux_ws s [] [] (by simp) (by simp)
      (fun c hc => List.all_eq_true.mp h c hc)
    have : (splitPartsAux [] [] s).filter (fun p => !p.isEmpty && !p.all isPyWs) = [] := by
      rw [List.filter_eq_nil_iff]
      intro p hp
      have : p.all isPyWs = true := List.all_eq_true.mpr (hall p hp)
      simp [this]
    rw [this]
    rfl
  unfold defaultLoads
  rw [hparts]
  rfl

/-- C10 witness: the two-character whitespace input. -/
theorem default_loads_whitespace_index_error_witness :
    ([' ', '\n'] : PyStr).all isPyWs = true ∧
      defaultLoads [' ', '\n'] = .error .indexError :=
  ⟨by decide, default_loads_whitespace_index_error [' ', '\n'] (by decide)⟩

/-- C9: the LaTeX loader raises the `"no strophes found"` parse error exactly
when, after a successful header match, splitting the remnant on
verse-opening command boundaries yields fewer than two strophes (fewer than
three pieces); with two or more strophes this check passes and parsing
proceeds (any later failure is a different error). -/
theorem latex_loads_strophe_count (text : PyStr) :
    modLatexLoads text = .error .noStrophes ↔
      ∃ a r, parseBeginsong text = some (a, r) ∧ (splitStrophes r).length < 3 := by
  unfold modLatexLoads
  cases hb : parseBeginsong text with
  | none => simp
  | some pr =>
    obtain ⟨a, r⟩ := pr
    by_cases hlen : (splitStrophes r).length < 3
    · simp only [if_pos hlen, hb]
      constructor
      · intro _
        exact ⟨a, r, rfl, hlen⟩
      · intro _
        trivial
    · simp only [if_neg hlen]
      constructor
      · intro h
        exfalso
        revert h
        cases hres : (do
            let headAnnots ← parseAnnotationsLatex ((text.length + 8) * (text.length + 8))
              (pyStrip ((splitStrophes r).headD []))
            let items ← latexLoadsLoop ((text.length + 8) * (text.length + 8))
              ((splitStrophes r).drop 1) 1 true []
            pure ⟨a ++ headAnnots, items⟩ : Except RestErr Song) <;> simp_all
      · rintro ⟨a', r', heq, hlt⟩
        injection heq with h2
        cases h2
        exact absurd hlt hlen

/-- C9 witness: a one-strophe input hits the check; a two-strophe input passes
it and the whole parse succeeds. -/
theorem latex_loads_strophe_count_witness :
    modLatexLoads ['\\', 'b', 'e', 'g', 'i', 'n', 's', 'o', 'n', 'g', '{', 'T', '}', '\\', 'n', 'u', 'm', ' ', 'a', '\\', 'f', 'i', 'n'] =
      .error .noStrophes ∧
    exceptIsOk (modLatexLoads ['\\', 'b', 'e', 'g', 'i', 'n', 's', 'o', 'n', 'g', '{', 'T', '}', '\n', '\\', 'n', 'u', 'm', ' ', 'h', 'i', ' ', '\\', 'f', 'i', 'n', '\n', '\\', 'c', 'h', 'o', 'r', ' ', 'h', 'o', ' ', '\\', 'c', 'l']) = true :=
  ⟨(latex_loads_strophe_count _).mpr
      ⟨[Annot.title ['T']], ['\\', 'n', 'u', 'm', ' ', 'a', '\\', 'f', 'i', 'n'],
        by rfl, by decide⟩,
    by decide⟩

/-- C7 (amended): when the stripped part does split into a first token plus a
remainder and the delimiter-stripped token matches neither the direct-mark
table nor the numeric nor the letter patterns, the mark parser returns
`EmptyStropheMark` with the whole unstripped part as body; if segment
parsing then succeeds, the resulting strophe carries `EmptyStropheMark`.
(Parts with no whitespace at all instead crash in tuple unpacking.) -/
theorem strophe_mark_fallback (part : PyStr) (h : markCandidateUnmatched part = true) :
    parseStropheMark part = some (Mark.empty, part) ∧
      ∀ it, parseStrophe part = .ok it → ∃ segs, it = .strophe .empty segs := by
  unfold markCandidateUnmatched at h
  cases hsp : splitWsFirst (pyStrip part) with
  | none => rw [hsp] at h; simp at h
  | some p =>
    obtain ⟨init0, rest⟩ := p
    rw [hsp] at h
    simp only [Bool.and_eq_true, Bool.not_eq_true'] at h
    obtain ⟨⟨⟨hR, hC⟩, hnum⟩, hlet⟩ := h
    have hmark : parseStropheMark part = some (Mark.empty, part) := by
      unfold parseStropheMark
      simp only [hsp, Option.bind_eq_bind, Option.some_bind]
      rw [if_neg (by simp_all), if_neg (by simp_all), if_neg (by simp_all),
        if_neg (by simp_all)]
      rfl
    refine ⟨hmark, fun it hit => ?_⟩
    have h2 : parseStrophe part =
        (match parseStropheSegs part with
         | none => Except.error PErr.songParse
         | some segs => Except.ok (Item.strophe Mark.empty segs)) := by
      unfold parseStrophe
      rw [hmark]
    rw [h2] at hit
    cases hsegs : parseStropheSegs part with
    | none => rw [hsegs] at hit; cases hit
    | some segs =>
      rw [hsegs] at hit
      injection hit with hit
      exact ⟨segs, hit.symm⟩

/-- C7 witness: the part `"xyz abc"`. -/
theorem strophe_mark_fallback_witness :
    markCandidateUnmatched ['x', 'y', 'z', ' ', 'a', 'b', 'c'] = true ∧
      parseStropheMark ['x', 'y', 'z', ' ', 'a', 'b', 'c'] =
        some (Mark.empty, ['x', 'y', 'z', ' ', 'a', 'b', 'c']) :=
  ⟨by decide, (strophe_mark_fallback _ (by decide)).1⟩

/-- C7 counterexample: the part `"xyz"` has a first whitespace-delimited token
(`"xyz"`) matching none of the mark patterns, yet parsing does not succeed
with an `EmptyStropheMark` strophe — it raises a `ValueError` from tuple
unpacking, because the part has no second whitespace field. -/
theorem strophe_mark_fallback_counterexample :
    removeSuffix (removeSuffix (List.takeWhile (fun c => !isPyWs c) ['x', 'y', 'z']) ['.']) [':'] =
      ['x', 'y', 'z'] ∧
    ¬(['x', 'y', 'z'] : PyStr) = ['R'] ∧ ¬(['x', 'y', 'z'] : PyStr) = ['C'] ∧
    ¬(['x', 'y', 'z'].all Char.isDigit = true) ∧
    ¬(['x', 'y', 'z'].all (fun c => 'A' ≤ c && c ≤ 'E') = true) ∧
    parseStrophe ['x', 'y', 'z'] = .error .valueErr :=
  ⟨by decide, by decide, by decide, by decide, by decide, rfl⟩

theorem dumpStropheMark_zero (m : Mark) :
    dumpStropheMark m 0 = specMarkPlusDelim m ++ [' '] := by
  unfold dumpStropheMark specMarkPlusDelim
  cases h : m.shortString.isEmpty <;> simp [h, Nat.sub_eq_zero_of_le]

theorem markLens_rel (items : List Item) :
    (items.filterMap fun it =>
      if it.isStrophe then (it.mark).map (fun m => dumpStropheMark m 0) else none).map
        List.length =
      (items.filterMap fun it =>
        if it.isStrophe then (it.mark).map (fun m => (specMarkPlusDelim m).length) else none).map
        (· + 1) := by
  induction items with
  | nil => rfl
  | cons it rest ih =>
    cases hs : it.isStrophe <;> cases hm : it.mark <;>
      simpa [List.filterMap_cons, hs, hm, dumpStropheMark_zero] using ih

theorem foldl_max_succ (l : List Nat) (a : Nat) :
    (l.map (· + 1)).foldl max (a + 1) = l.foldl max a + 1 := by
  induction l generalizing a with
  | nil => rfl
  | cons x r ih =>
    simp only [List.map_cons, List.foldl_cons]
    rw [Nat.add_max_add_right, ih]

/-- C8 (amended): with no explicit indent, the uniform strophe indent equals
one more than the length of the longest rendered short-mark-plus-delimiter
string over the strophes (the extra column is the mandatory single space
after the mark), and 0 when the song has no strophes; the resolved indent is
applied uniformly to every strophe. -/
theorem strophe_indent_formula (song : Song) (chords : Bool) :
    determineStropheIndent song =
      (match specMarkLens song with
       | [] => 0
       | _ => specStropheIndent song + 1) ∧
    dumpSongItems song none chords = dumpSongItems song (some (determineStropheIndent song)) chords := by
  constructor
  · unfold determineStropheIndent specStropheIndent
    have hrel := markLens_rel song.items
    have hlenfold : ∀ (l : List PyStr),
        l.foldl (fun a s => max a s.length) 0 = (l.map List.length).foldl max 0 := by
      intro l
      rw [List.foldl_map]
    cases hmk : (song.items.filterMap fun it =>
        if it.isStrophe then (it.mark).map (fun m => dumpStropheMark m 0) else none) with
    | nil =>
      have : specMarkLens song = [] := by
        have := hrel
        rw [hmk] at this
        simpa [specMarkLens, List.map_eq_nil_iff] using this.symm
      simp [this, hmk]
    | cons x xs =>
      have hspec : ∃ y ys, specMarkLens song = y :: ys := by
        have := hrel
        rw [hmk] at this
        cases hsl : specMarkLens song with
        | nil => rw [specMarkLens] at hsl; rw [hsl] at this; simp at this
        | cons y ys => exact ⟨y, ys, rfl⟩
      obtain ⟨y, ys, hsl⟩ := hspec
      have hsl' := hsl
      rw [specMarkLens] at hsl'
      simp only [hmk, hsl]
      rw [hlenfold]
      have heq := hrel
      rw [hmk, hsl'] at heq
      rw [heq]
      simp only [List.map_cons, List.foldl_cons]
      rw [Nat.zero_max, Nat.zero_max]
      exact foldl_max_succ ys y
  · rfl

/-- C8 counterexample: for a single strophe marked `1`, the indent the
serializer computes is 3 (`"1."` plus the mandatory space), not the length 2
of the rendered short-mark-plus-delimiter string. -/
theorem strophe_indent_formula_counterexample :
    determineStropheIndent exC8 = 3 ∧ specStropheIndent exC8 = 2 ∧
      determineStropheIndent exC8 ≠ specStropheIndent exC8 := by
  refine ⟨by decide, by decide, by decide⟩

/-- C2 (amended): the chorus-repetition pass fires exactly on songs in which
every item is a strophe and the mark-kind sequence is `[Numbered, Chorus]`
followed by at least **one** further `Numbered` (the original claim required
two); it then inserts a `StropheRepeat` of the chorus strophe after every
strophe from the second verse onward, and leaves every other song
unchanged. -/
theorem infer_chorus_repetition_characterization :
    (∀ (a b : Item) (rest : List Item),
      rest ≠ [] →
      stropheKinds (a :: b :: rest) =
        .numberedK :: .chorusK :: List.replicate rest.length MarkKind.numberedK →
      inferChorusRepetition (a :: b :: rest) =
        a :: b :: rest.flatMap fun st => [st, Item.stropheRepeat b]) ∧
    (∀ items : List Item,
      (stropheKinds items).length ≤ 2 ∨ (stropheKinds items).length < items.length ∨
        stropheKinds items ≠
          .numberedK :: .chorusK ::
            List.replicate ((stropheKinds items).length - 2) MarkKind.numberedK →
      inferChorusRepetition items = items) :=
  ⟨inferChorusRepetition_fires, inferChorusRepetition_id⟩

/-- C2 counterexample: marks `[1, Chorus, 2]` do not match the pattern the
claim states (which requires at least two further numbered verses), yet the
pass does not leave the song unchanged: it appends a repeat of the chorus. -/
theorem infer_chorus_repetition_counterexample :
    inferChorusRepetition exC2 =
      [Item.strophe (.numbered 1) [], Item.strophe .chorus [], Item.strophe (.numbered 2) [],
        Item.stropheRepeat (Item.strophe .chorus [])] ∧
    inferChorusRepetition exC2 ≠ exC2 := by
  refine ⟨rfl, fun h => ?_⟩
  have h4 : (inferChorusRepetition exC2).length = 4 := by rfl
  rw [h] at h4
  exact absurd h4 (by decide)

/-- C2 witness: marks `[1, Chorus, 2, 3]` produce
`[1, Chorus, 2, RepeatChorus, 3, RepeatChorus]`. -/
theorem infer_chorus_repetition_witness :
    inferChorusRepetition exC2w =
      [Item.strophe (.numbered 1) [], Item.strophe .chorus [], Item.strophe (.numbered 2) [],
        Item.stropheRepeat (Item.strophe .chorus []), Item.strophe (.numbered 3) [],
        Item.stropheRepeat (Item.strophe .chorus [])] := by
  have := infer_chorus_repetition_characterization.1 (Item.strophe (.numbered 1) [])
    (Item.strophe .chorus [])
    [Item.strophe (.numbered 2) [], Item.strophe (.numbered 3) []]
    (List.cons_ne_nil _ _) (by rfl)
  simpa [exC2w] using this

theorem recognizeCodas_succeeds (items : List Item)
    (h1 : ∀ it ∈ items, Item.noRepeats it = true)
    (h2 : letteredLetters items = ['C'])
    (h3 : (stropheMarks items).getLast? = some (Mark.lettered 'C')) :
    ∃ out, recognizeCodas items = some out := by
  have hcond : (letteredLetters items == ['C'] &&
      ((stropheMarksIdx items).getLast?).map Prod.snd == some (Mark.lettered 'C')) = true := by
    rw [Bool.and_eq_true, beq_iff_eq, beq_iff_eq, stropheMarksIdx_getLast_map]
    exact ⟨h2, h3⟩
  have hmapLast := stropheMarksIdx_getLast_map items
  rw [h3] at hmapLast
  cases hl : (stropheMarksIdx items).getLast? with
  | none => rw [hl] at hmapLast; cases hmapLast
  | some e =>
    obtain ⟨i, m0⟩ := e
    rw [hl] at hmapLast
    have hm0 : m0 = Mark.lettered 'C' := Option.some.inj hmapLast
    subst hm0
    have hdec : (stropheMarksIdx items).dropLast ++ [(i, Mark.lettered 'C')] =
        stropheMarksIdx items :=
      List.dropLast_append_getLast? _ (by rw [hl]; rfl)
    have hmem : (i, Mark.lettered 'C') ∈ stropheMarksIdx items := by
      rw [← hdec]; simp
    obtain ⟨it0, hget0, hstr0, hmark0⟩ := stropheMarksIdxAux_get items 0 _ hmem
    simp only [Nat.sub_zero] at hget0
    have hno := h1 it0 (List.get?_mem hget0)
    cases it0 with
    | strophe m segs =>
      refine ⟨items.set i (Item.strophe Mark.coda segs), ?_⟩
      unfold recognizeCodas
      rw [if_pos hcond, hl]
      show setMarkAt items i Mark.coda = _
      unfold setMarkAt
      rw [hget0]
    | repeatSame m segs => simp [Item.noRepeats] at hno
    | stropheRepeat rep => simp [Item.noRepeats] at hno
    | annot a => simp [Item.isStrophe] at hstr0

/-- C1 (amended): in a song without repeat structures, when the lettered marks
of the strophes consist of a **single** letter `C` (no other lettered marks
at all — the `Counter` comparison requires this, not merely that `C` occur
once among letters A–E) borne by the final strophe, `normalized()`
reclassifies that strophe's mark to `CodaMark`; a song with lettered
strophes `[A, B, C]` is left unchanged. -/
theorem recognize_codas_amended (s : Song)
    (h1 : s.items.all Item.noRepeats = true)
    (h2 : letteredLetters s.items = ['C'])
    (h3 : (stropheMarks s.items).getLast? = some (Mark.lettered 'C')) :
    ∃ t, s.normalized = some t ∧
      stropheMarks t.items = (stropheMarks s.items).dropLast ++ [Mark.coda] := by
  have hall := List.all_eq_true.mp h1
  have hnr : ∀ it ∈ s.items, it.isRepeatSame = false := by
    intro it hmem
    have := hall it hmem
    cases it <;> simp_all [Item.noRepeats, Item.isRepeatSame]
  have hlink : linkStropheRepeats s.items = some s.items := linkGo_id s.items [] hnr
  have hCmem : 'C' ∈ letteredLetters s.items := by rw [h2]; simp
  rw [letteredLetters_eq] at hCmem
  obtain ⟨m, hmmem, hletter⟩ := List.mem_filterMap.mp hCmem
  have hmlet : m = Mark.lettered 'C' := by
    cases m <;> simp [letterOf] at hletter
    rw [hletter]
  have hinfer : inferChorusRepetition s.items = s.items :=
    inferChorusRepetition_id_of_bad_mark s.items m hmmem (by rw [hmlet]; exact ⟨by decide, by decide⟩)
  obtain ⟨w, hw⟩ := recognizeCodas_succeeds s.items hall h2 h3
  obtain ⟨hmarksW, _, _⟩ := recognizeCodas_fired s.items w h2 h3 hw
  refine ⟨⟨s.annotations, fillInitialPlainSegments w⟩, ?_, ?_⟩
  · rw [Song.normalized, hlink]
    simp only [Option.bind_eq_bind, Option.some_bind, hinfer, hw]
    rfl
  · show stropheMarks (fillInitialPlainSegments w) = _
    rw [fill_stropheMarks, hmarksW]

/-- C1 witness: marks `[1, C]` (the only lettered mark is the final `C`)
normalize to `[1, Coda]`. -/
theorem recognize_codas_amended_witness :
    exC1w.items.all Item.noRepeats = true ∧ letteredLetters exC1w.items = ['C'] ∧
      (stropheMarks exC1w.items).getLast? = some (Mark.lettered 'C') ∧
      ∃ t, exC1w.normalized = some t ∧
        stropheMarks t.items = (stropheMarks exC1w.items).dropLast ++ [Mark.coda] :=
  ⟨by decide, by decide, by decide,
    recognize_codas_amended exC1w (by decide) (by decide) (by decide)⟩

/-- C1 counterexample: for the lettered strophes `[A, B, C]` — where `C`
occurs exactly once and is final, so the claim demands reclassification to
`[A, B, Coda]` — `normalized()` leaves all three lettered marks unchanged,
because `Counter(letters) == {"C": 1}` fails when other letters appear. -/
theorem recognize_codas_counterexample :
    (letteredLetters exC1.items).count 'C' = 1 ∧
    (stropheMarks exC1.items).getLast? = some (Mark.lettered 'C') ∧
    (Song.normalized exC1).map (fun t => stropheMarks t.items) =
      some [Mark.lettered 'A', Mark.lettered 'B', Mark.lettered 'C'] :=
  ⟨by decide, by decide, by rfl⟩

/-! ### Decimal rendering and digit lemmas (for the chord round trip) -/

theorem pyNatStrAux_append :
    ∀ (n f : Nat) (acc : PyStr), n < f →
      pyNatStrAux f n acc = pyNatStrAux (n + 1) n [] ++ acc := by
  intro n
  induction n using Nat.strong_induction_on with
  | _ n ih =>
    intro f acc hf
    match f, hf with
    | f + 1, hf =>
      by_cases h10 : n < 10
      · simp [pyNatStrAux, h10]
      · have hd : n / 10 < n := Nat.div_lt_self (by omega) (by omega)
        rw [pyNatStrAux, if_neg h10, ih (n / 10) hd f (digitChar (n % 10) :: acc) (by omega)]
        conv_rhs =>
          rw [pyNatStrAux, if_neg h10,
            ih (n / 10) hd n (digitChar (n % 10) :: []) (by omega)]
        simp

theorem pyNatStr_unfold (n : Nat) :
    pyNatStr n = if n < 10 then [digitChar n] else pyNatStr (n / 10) ++ [digitChar (n % 10)] := by
  by_cases h10 : n < 10
  · simp [pyNatStr, pyNatStrAux, h10]
  · rw [pyNatStr, pyNatStrAux, if_neg h10,
      pyNatStrAux_append (n / 10) n _ ((Nat.div_lt_self (by omega) (by omega) : n / 10 < n))]
    simp [pyNatStr, if_neg h10]

theorem pyNatStr_ne_nil (n : Nat) : pyNatStr n ≠ [] := by
  rw [pyNatStr_unfold]
  by_cases h10 : n < 10 <;> simp [h10]

theorem digitChar_toNat (k : Nat) (h : k < 10) : (digitChar k).toNat = 48 + k := by
  interval_cases k <;> decide

theorem digitChar_isDigit (k : Nat) (h : k < 10) : (digitChar k).isDigit = true := by
  interval_cases k <;> decide

theorem pyNatStr_all_digits (n : Nat) : ∀ c ∈ pyNatStr n, c.isDigit = true := by
  induction n using Nat.strong_induction_on with
  | _ n ih =>
    intro c hc
    rw [pyNatStr_unfold] at hc
    by_cases h10 : n < 10
    · rw [if_pos h10] at hc
      simp only [List.mem_singleton] at hc
      subst hc
      exact digitChar_isDigit n h10
    · rw [if_neg h10] at hc
      rcases List.mem_append.mp hc with h | h
      · exact ih (n / 10) (Nat.div_lt_self (by omega) (by omega)) c h
      · simp only [List.mem_singleton] at h
        subst h
        exact digitChar_isDigit (n % 10) (Nat.mod_lt _ (by omega))

theorem digitsToNat_append_digit (l : PyStr) (d : Char) :
    digitsToNat (l ++ [d]) = 10 * digitsToNat l + (d.toNat - 48) := by
  rw [digitsToNat, List.foldl_append]
  rfl

theorem digitsToNat_pyNatStr (n : Nat) : digitsToNat (pyNatStr n) = n := by
  induction n using Nat.strong_induction_on with
  | _ n ih =>
    rw [pyNatStr_unfold]
    by_cases h10 : n < 10
    · rw [if_pos h10]
      show 10 * 0 + ((digitChar n).toNat - 48) = n
      rw [digitChar_toNat n h10]
      omega
    · rw [if_neg h10, digitsToNat_append_digit,
        ih (n / 10) (Nat.div_lt_self (by omega) (by omega)),
        digitChar_toNat (n % 10) (Nat.mod_lt _ (by omega))]
      omega

theorem pyNatStr_single (k : Nat) (h : k < 10) : pyNatStr k = [digitChar k] := by
  rw [pyNatStr_unfold, if_pos h]

theorem digitChar_of_isDigit (c : Char) (h : c.isDigit = true) :
    digitChar (c.toNat - 48) = c := by
  have hb : 48 ≤ c.toNat ∧ c.toNat ≤ 57 := by
    revert h
    unfold Char.isDigit
    intro h
    rw [Bool.and_eq_true, decide_eq_true_eq, decide_eq_true_eq] at h
    obtain ⟨h1, h2⟩ := h
    exact ⟨h1, h2⟩
  have hk : c.toNat - 48 < 10 := by omega
  have ht : (digitChar (c.toNat - 48)).toNat = c.toNat := by
    rw [digitChar_toNat _ hk]; omega
  exact Char.ext (UInt32.ext ht)

/-! ### Pattern chain destructors for `DefaultChordParser.parse_modifiers` -/

theorem orElse_eq_some {α : Type} {a : Option α} {f : Unit → Option α} {x : α}
    (h : a.orElse f = some x) : a = some x ∨ (a = none ∧ f () = some x) := by
  cases a <;> simp_all [Option.orElse]

theorem tryPatterns_cases {s : PyStr} {m : Modifier} {k : Nat}
    (h : tryPatterns s = some (m, k)) :
    matchMaj s = some (m, k) ∨
    matchMaj s = none ∧ (matchMinor s = some (m, k) ∨
    matchMinor s = none ∧ (matchDom s = some (m, k) ∨
    matchDom s = none ∧ (matchAdded s = some (m, k) ∨
    matchAdded s = none ∧ (matchSus s = some (m, k) ∨
    matchSus s = none ∧ (matchAltered s = some (m, k) ∨
    matchAltered s = none ∧ matchBass s = some (m, k)))))) := by
  unfold tryPatterns at h
  rcases orElse_eq_some h with h | ⟨h1, h⟩
  · exact Or.inl h
  refine Or.inr ⟨h1, ?_⟩
  rcases orElse_eq_some h with h | ⟨h2, h⟩
  · exact Or.inl h
  refine Or.inr ⟨h2, ?_⟩
  rcases orElse_eq_some h with h | ⟨h3, h⟩
  · exact Or.inl h
  refine Or.inr ⟨h3, ?_⟩
  rcases orElse_eq_some h with h | ⟨h4, h⟩
  · exact Or.inl h
  refine Or.inr ⟨h4, ?_⟩
  rcases orElse_eq_some h with h | ⟨h5, h⟩
  · exact Or.inl h
  refine Or.inr ⟨h5, ?_⟩
  rcases orElse_eq_some h with h | ⟨h6, h⟩
  · exact Or.inl h
  exact Or.inr ⟨h6, h⟩

theorem matchMaj_spec {s : PyStr} {m : Modifier} {k : Nat}
    (h : matchMaj s = some (m, k)) :
    m = .majorSeventh ∧ (k = 3 ∨ k = 4) ∧ ∃ r, s = 'm' :: 'a' :: 'j' :: r ∧ k ≤ s.length := by
  unfold matchMaj at h
  split at h
  · split at h
    · injection h with h'
      injection h' with h1 h2
      exact ⟨h1.symm, Or.inr h2.symm, _, rfl, by subst h2; simp⟩
    · injection h with h'
      injection h' with h1 h2
      exact ⟨h1.symm, Or.inl h2.symm, _, rfl, by subst h2; simp⟩
  · exact absurd h (by simp)

theorem matchMinor_spec {s : PyStr} {m : Modifier} {k : Nat}
    (h : matchMinor s = some (m, k)) :
    m = .minor ∧ k = 1 ∧ ∃ r, s = 'm' :: r := by
  unfold matchMinor at h
  split at h
  · injection h with h'
    injection h' with h1 h2
    exact ⟨h1.symm, h2.symm, _, rfl⟩
  · exact absurd h (by simp)

theorem matchDom_spec {s : PyStr} {m : Modifier} {k : Nat}
    (h : matchDom s = some (m, k)) :
    m = .dominantSeventh ∧ k = 1 ∧ ∃ r, s = '7' :: r := by
  unfold matchDom at h
  split at h
  · injection h with h'
    injection h' with h1 h2
    exact ⟨h1.symm, h2.symm, _, rfl⟩
  · exact absurd h (by simp)

theorem matchAdded_spec {s : PyStr} {m : Modifier} {k : Nat}
    (h : matchAdded s = some (m, k)) :
    s.takeWhile Char.isDigit ≠ [] ∧
      m = .addedNote (digitsToNat (s.takeWhile Char.isDigit)) ∧
      k = (s.takeWhile Char.isDigit).length := by
  unfold matchAdded at h
  dsimp only at h
  split at h
  · exact absurd h (by simp)
  next hd =>
    injection h with h'
    injection h' with h1 h2
    refine ⟨?_, h1.symm, h2.symm⟩
    simpa [List.isEmpty_iff] using hd

theorem matchSus_spec {s : PyStr} {m : Modifier} {k : Nat}
    (h : matchSus s = some (m, k)) :
    ∃ c r, s = 's' :: 'u' :: 's' :: c :: r ∧ c.isDigit = true ∧
      m = .suspended (c.toNat - 48) ∧ k = 4 := by
  unfold matchSus at h
  split at h
  next c r =>
    split at h
    · injection h with h'
      injection h' with h1 h2
      exact ⟨c, r, rfl, by assumption, h1.symm, h2.symm⟩
    · exact absurd h (by simp)
  next => exact absurd h (by simp)

theorem matchAltered_spec {s : PyStr} {m : Modifier} {k : Nat}
    (h : matchAltered s = some (m, k)) :
    (∃ r, s = '+' :: r ∧
      ((∃ c r2, r = c :: r2 ∧ c.isDigit = true ∧ m = .altered .plus (c.toNat - 48) ∧ k = 2) ∨
        (m = .altered .plus 5 ∧ k = 1 ∧ startsWithDigit r = false))) ∨
    (∃ r, s = 'd' :: 'i' :: 'm' :: r ∧
      ((∃ c r2, r = c :: r2 ∧ c.isDigit = true ∧ m = .altered .dim (c.toNat - 48) ∧ k = 4) ∨
        (m = .altered .dim 5 ∧ k = 3 ∧ startsWithDigit r = false))) := by
  unfold matchAltered at h
  split at h
  next r =>
    refine Or.inl ⟨r, rfl, ?_⟩
    split at h
    next c r2 =>
      split at h
      next hc =>
        injection h with h'
        injection h' with h1 h2
        exact Or.inl ⟨c, r2, rfl, hc, h1.symm, h2.symm⟩
      next hc =>
        injection h with h'
        injection h' with h1 h2
        refine Or.inr ⟨h1.symm, h2.symm, ?_⟩
        simpa [startsWithDigit] using hc
    next =>
      injection h with h'
      injection h' with h1 h2
      exact Or.inr ⟨h1.symm, h2.symm, rfl⟩
  next r =>
    refine Or.inr ⟨r, rfl, ?_⟩
    split at h
    next c r2 =>
      split at h
      next hc =>
        injection h with h'
        injection h' with h1 h2
        exact Or.inl ⟨c, r2, rfl, hc, h1.symm, h2.symm⟩
      next hc =>
        injection h with h'
        injection h' with h1 h2
        refine Or.inr ⟨h1.symm, h2.symm, ?_⟩
        simpa [startsWithDigit] using hc
    next =>
      injection h with h'
      injection h' with h1 h2
      exact Or.inr ⟨h1.symm, h2.symm, rfl⟩
  next => exact absurd h (by simp)

theorem matchTone_spec {s : PyStr} {t : PyStr} {k : Nat}
    (h : matchTone s = some (t, k)) :
    ∃ c r, s = c :: r ∧ ('A' ≤ c && c ≤ 'H') = true ∧
      ((∃ x r2, r = x :: r2 ∧ (x == '#' || x == 'b') = true ∧ t = [c, x] ∧ k = 2) ∨
        (t = [c] ∧ k = 1 ∧ ∀ x, r.head? = some x → (x == '#' || x == 'b') = false)) := by
  unfold matchTone at h
  split at h
  · exact absurd h (by simp)
  next c r =>
    split at h
    next hc =>
      refine ⟨c, r, rfl, hc, ?_⟩
      split at h
      next x r2 =>
        split at h
        next hx =>
          injection h with h'
          injection h' with h1 h2
          exact Or.inl ⟨x, r2, rfl, hx, h1.symm, h2.symm⟩
        next hx =>
          injection h with h'
          injection h' with h1 h2
          refine Or.inr ⟨h1.symm, h2.symm, ?_⟩
          intro y hy
          injection hy with hy
          subst hy
          simpa using hx
      next =>
        injection h with h'
        injection h' with h1 h2
        exact Or.inr ⟨h1.symm, h2.symm, by intro x hx; exact absurd hx (by simp)⟩
    next => exact absurd h (by simp)

theorem matchBass_spec {s : PyStr} {m : Modifier} {k : Nat}
    (h : matchBass s = some (m, k)) :
    ∃ r t k2, s = '/' :: r ∧ matchTone r = some (t, k2) ∧ m = .bassNote t ∧ k = k2 + 1 := by
  unfold matchBass at h
  split at h
  next r =>
    refine ⟨r, ?_⟩
    split at h
    next t k2 heq =>
      injection h with h'
      injection h' with h1 h2
      exact ⟨t, k2, rfl, heq, h1.symm, h2.symm⟩
    next => exact absurd h (by simp)
  next => exact absurd h (by simp)

theorem tryPatterns_consumes {s : PyStr} {m : Modifier} {k : Nat}
    (h : tryPatterns s = some (m, k)) : 1 ≤ k ∧ k ≤ s.length := by
  rcases tryPatterns_cases h with h | ⟨-, h | ⟨-, h | ⟨-, h | ⟨-, h | ⟨-, h | ⟨-, h⟩⟩⟩⟩⟩⟩
  · obtain ⟨-, hk, r, rfl, hle⟩ := matchMaj_spec h
    exact ⟨by omega, hle⟩
  · obtain ⟨-, rfl, r, rfl⟩ := matchMinor_spec h
    simp
  · obtain ⟨-, rfl, r, rfl⟩ := matchDom_spec h
    simp
  · obtain ⟨hne, -, rfl⟩ := matchAdded_spec h
    constructor
    · have := List.length_pos.mpr hne
      omega
    · exact (List.takeWhile_prefix _).length_le
  · obtain ⟨c, r, rfl, -, -, rfl⟩ := matchSus_spec h
    simp
  · rcases matchAltered_spec h with ⟨r, rfl, hc⟩ | ⟨r, rfl, hc⟩ <;>
      rcases hc with ⟨c, r2, rfl, -, -, rfl⟩ | ⟨-, rfl, -⟩ <;> simp
  · obtain ⟨r, t, k2, rfl, ht, -, rfl⟩ := matchBass_spec h
    obtain ⟨c, r2, rfl, -, hc⟩ := matchTone_spec ht
    rcases hc with ⟨x, r3, rfl, -, -, rfl⟩ | ⟨-, rfl, -⟩ <;> simp

theorem parseModifiersF_irrel :
    ∀ (f g : Nat) (s : PyStr), s.length ≤ f → s.length ≤ g →
      parseModifiersF f s = parseModifiersF g s := by
  intro f
  induction f with
  | zero =>
    intro g s hf hg
    have : s = [] := List.eq_nil_of_length_eq_zero (by omega)
    subst this
    cases g <;> rfl
  | succ f ih =>
    intro g s hf hg
    cases s with
    | nil => cases g <;> rfl
    | cons c r =>
      cases g with
      | zero => simp at hg
      | succ g =>
        show parseModifiersF (f + 1) (c :: r) = parseModifiersF (g + 1) (c :: r)
        cases htp : tryPatterns (c :: r) with
        | none => simp [parseModifiersF, htp]
        | some v =>
          obtain ⟨m, k⟩ := v
          have hk := tryPatterns_consumes htp
          simp only [parseModifiersF, htp]
          obtain ⟨hk1, hk2⟩ := hk
          have hlen : ((c :: r).drop k).length ≤ f ∧ ((c :: r).drop k).length ≤ g := by
            simp only [List.length_drop]
            simp only [List.length_cons] at hf hg hk2 ⊢
            omega
          rw [ih g ((c :: r).drop k) hlen.1 hlen.2]

theorem parseModifiers_cons (c : Char) (r : PyStr) :
    parseModifiers (c :: r) =
      match tryPatterns (c :: r) with
      | some (m, k) => m :: parseModifiers ((c :: r).drop k)
      | none => [.generic (c :: r)] := by
  unfold parseModifiers
  cases htp : tryPatterns (c :: r) with
  | none => simp [parseModifiersF, htp]
  | some v =>
    obtain ⟨m, k⟩ := v
    have hk := tryPatterns_consumes htp
    simp only [List.length_cons, parseModifiersF, htp]
    obtain ⟨hk1, hk2⟩ := hk
    rw [parseModifiersF_irrel r.length ((c :: r).drop k).length ((c :: r).drop k)
      (by simp only [List.length_drop]; simp only [List.length_cons] at hk2 ⊢; omega)
      (le_refl _)]

theorem matchMaj_none_of (c : Char) (l : PyStr) (h : c ≠ 'm') : matchMaj (c :: l) = none := by
  unfold matchMaj
  split
  next heq =>
    injection heq with h1 _
    exact absurd h1 h
  next => rfl

theorem matchMaj_none_of_not_aj (l : PyStr) (h : ['a', 'j'].isPrefixOf l = false) :
    matchMaj ('m' :: l) = none := by
  unfold matchMaj
  split
  next heq =>
    injection heq with _ heq
    subst heq
    simp [List.isPrefixOf] at h
  next => rfl

theorem matchMinor_none_of (c : Char) (l : PyStr) (h : c ≠ 'm') : matchMinor (c :: l) = none := by
  unfold matchMinor
  split
  next heq =>
    injection heq with h1 _
    exact absurd h1 h
  next => rfl

theorem matchDom_none_of (c : Char) (l : PyStr) (h : c ≠ '7') : matchDom (c :: l) = none := by
  unfold matchDom
  split
  next heq =>
    injection heq with h1 _
    exact absurd h1 h
  next => rfl

theorem matchAdded_none_of (c : Char) (l : PyStr) (h : c.isDigit = false) :
    matchAdded (c :: l) = none := by
  unfold matchAdded
  simp [List.takeWhile_cons, h]

theorem matchSus_none_of (c : Char) (l : PyStr) (h : c ≠ 's') : matchSus (c :: l) = none := by
  unfold matchSus
  split
  next heq =>
    injection heq with h1 _
    exact absurd h1 h
  next => rfl

theorem matchAltered_none_of (c : Char) (l : PyStr) (h1 : c ≠ '+') (h2 : c ≠ 'd') :
    matchAltered (c :: l) = none := by
  unfold matchAltered
  split
  next heq =>
    injection heq with he _
    exact absurd he h1
  next heq =>
    injection heq with he _
    exact absurd he h2
  next => rfl

theorem matchBass_none_of (c : Char) (l : PyStr) (h : c ≠ '/') : matchBass (c :: l) = none := by
  unfold matchBass
  split
  next heq =>
    injection heq with he _
    exact absurd he h
  next => rfl

/-- A digit character is none of the pattern-leading literal characters. -/
theorem digit_ne_lits {c : Char} (h : c.isDigit = true) :
    c ≠ 'm' ∧ c ≠ 's' ∧ c ≠ '+' ∧ c ≠ 'd' ∧ c ≠ '/' ∧ c ≠ 'a' ∧ c ≠ '#' ∧ c ≠ 'b' := by
  refine ⟨?_, ?_, ?_, ?_, ?_, ?_, ?_, ?_⟩ <;>
    (intro heq; subst heq; exact absurd h (by decide))

theorem takeWhile_append_of (p : Char → Bool) (l t : PyStr)
    (hl : ∀ c ∈ l, p c = true) (ht : ∀ c, t.head? = some c → p c = false) :
    (l ++ t).takeWhile p = l ∧ (l ++ t).dropWhile p = t := by
  induction l with
  | nil =>
    simp only [List.nil_append]
    cases t with
    | nil => simp
    | cons c r =>
      have := ht c rfl
      simp [List.takeWhile_cons, List.dropWhile_cons, this]
  | cons c l ih =>
    have hc := hl c (by simp)
    have ih2 := ih fun d hd => hl d (by simp [hd])
    simp [List.takeWhile_cons, List.dropWhile_cons, hc, ih2.1, ih2.2]

theorem takeWhile_ne_nil_head {p : Char → Bool} {s : PyStr}
    (h : s.takeWhile p ≠ []) : ∃ c r, s = c :: r ∧ p c = true := by
  cases s with
  | nil => simp at h
  | cons c r =>
    refine ⟨c, r, rfl, ?_⟩
    by_cases hc : p c = true
    · exact hc
    · rw [List.takeWhile_cons, if_neg (by simpa using hc)] at h
      simp at h

theorem dropWhile_head_not {p : Char → Bool} {s : PyStr} {c : Char}
    (h : (s.dropWhile p).head? = some c) : p c = false := by
  induction s with
  | nil => simp at h
  | cons d r ih =>
    rw [List.dropWhile_cons] at h
    by_cases hd : p d = true
    · rw [if_pos hd] at h
      exact ih h
    · rw [if_neg (by simpa using hd)] at h
      injection h with h
      subst h
      simpa using hd

theorem drop_length_takeWhile (p : Char → Bool) (s : PyStr) :
    s.drop (s.takeWhile p).length = s.dropWhile p := by
  nth_rewrite 2 [← List.takeWhile_append_dropWhile (p := p) (l := s)]
  rw [List.drop_left]

theorem tryPatterns_render_ne_nil {s : PyStr} {m : Modifier} {k : Nat}
    (h : tryPatterns s = some (m, k)) : m.render ≠ [] := by
  rcases tryPatterns_cases h with h | ⟨-, h | ⟨-, h | ⟨-, h | ⟨-, h | ⟨-, h | ⟨-, h⟩⟩⟩⟩⟩⟩
  · obtain ⟨rfl, -, -⟩ := matchMaj_spec h
    simp [Modifier.render]
  · obtain ⟨rfl, -, -⟩ := matchMinor_spec h
    simp [Modifier.render]
  · obtain ⟨rfl, -, -⟩ := matchDom_spec h
    simp [Modifier.render]
  · obtain ⟨-, rfl, -⟩ := matchAdded_spec h
    exact pyNatStr_ne_nil _
  · obtain ⟨c, r, -, -, rfl, -⟩ := matchSus_spec h
    simp [Modifier.render]
  · rcases matchAltered_spec h with ⟨r, -, hc⟩ | ⟨r, -, hc⟩ <;>
      rcases hc with ⟨c, r2, -, -, rfl, -⟩ | ⟨rfl, -, -⟩ <;>
      simp [Modifier.render, AltDir.render] <;>
      split <;> simp [AltDir.render]
  · obtain ⟨r, t, k2, -, -, rfl, -⟩ := matchBass_spec h
    simp [Modifier.render]

theorem render_head_cases {s : PyStr} {m : Modifier} {k : Nat}
    (h : tryPatterns s = some (m, k)) :
    ∃ c t, m.render = c :: t ∧
      ((c = 'm' ∨ c = '7' ∨ c = 's' ∨ c = '+' ∨ c = 'd' ∨ c = '/') ∨ c.isDigit = true) ∧
      (c.isDigit = true → startsWithDigit s = true) := by
  rcases tryPatterns_cases h with h | ⟨-, h | ⟨-, h | ⟨-, h | ⟨-, h | ⟨-, h | ⟨-, h⟩⟩⟩⟩⟩⟩
  · obtain ⟨rfl, -, r, rfl, -⟩ := matchMaj_spec h
    exact ⟨'m', _, rfl, Or.inl (Or.inl rfl), fun hd => absurd hd (by decide)⟩
  · obtain ⟨rfl, rfl, r, rfl⟩ := matchMinor_spec h
    exact ⟨'m', _, rfl, Or.inl (Or.inl rfl), fun hd => absurd hd (by decide)⟩
  · obtain ⟨rfl, rfl, r, rfl⟩ := matchDom_spec h
    exact ⟨'7', _, rfl, Or.inl (Or.inr (Or.inl rfl)), fun _ => rfl⟩
  · obtain ⟨hne, rfl, rfl⟩ := matchAdded_spec h
    obtain ⟨c, t, hct⟩ :=
      List.exists_cons_of_ne_nil (pyNatStr_ne_nil (digitsToNat (s.takeWhile Char.isDigit)))
    refine ⟨c, t, hct, Or.inr ?_, fun _ => ?_⟩
    · exact pyNatStr_all_digits _ c (by rw [hct]; simp)
    · obtain ⟨c0, r0, rfl, hc0⟩ := takeWhile_ne_nil_head hne
      simp [startsWithDigit, hc0]
  · obtain ⟨c, r, rfl, hc, rfl, rfl⟩ := matchSus_spec h
    exact ⟨'s', _, rfl, Or.inl (Or.inr (Or.inr (Or.inl rfl))), fun hd => absurd hd (by decide)⟩
  · rcases matchAltered_spec h with ⟨r, rfl, hc⟩ | ⟨r, rfl, hc⟩
    · have hf : ∀ f, (Modifier.altered AltDir.plus f).render =
          '+' :: (if f = 5 then [] else pyNatStr f) := by
        intro f
        by_cases h5 : f = 5 <;> simp [Modifier.render, AltDir.render, h5]
      rcases hc with ⟨c, r2, rfl, -, rfl, -⟩ | ⟨rfl, -, -⟩ <;>
        exact ⟨'+', _, hf _, Or.inl (Or.inr (Or.inr (Or.inr (Or.inl rfl)))),
          fun hd => absurd hd (by decide)⟩
    · have hf : ∀ f, (Modifier.altered AltDir.dim f).render =
          'd' :: ('i' :: 'm' :: (if f = 5 then [] else pyNatStr f)) := by
        intro f
        by_cases h5 : f = 5 <;> simp [Modifier.render, AltDir.render, h5]
      rcases hc with ⟨c, r2, rfl, -, rfl, -⟩ | ⟨rfl, -, -⟩ <;>
        exact ⟨'d', _, hf _, Or.inl (Or.inr (Or.inr (Or.inr (Or.inr (Or.inl rfl))))),
          fun hd => absurd hd (by decide)⟩
  · obtain ⟨r, t, k2, rfl, -, rfl, rfl⟩ := matchBass_spec h
    exact ⟨'/', _, rfl, Or.inl (Or.inr (Or.inr (Or.inr (Or.inr (Or.inr rfl))))),
      fun hd => absurd hd (by decide)⟩

theorem headCompat_render (s : PyStr) : headCompat s (renderMods (parseModifiers s)) := by
  cases s with
  | nil =>
    refine ⟨fun h => absurd h (by decide), fun h => absurd h (by decide), fun c hc _ => ?_⟩
    exact absurd hc (by simp [renderMods, parseModifiers, parseModifiersF])
  | cons c0 r0 =>
    rw [parseModifiers_cons]
    cases htp : tryPatterns (c0 :: r0) with
    | none =>
      have hT : renderMods [Modifier.generic (c0 :: r0)] = c0 :: r0 := by
        simp [renderMods, Modifier.render]
      rw [hT]
      exact ⟨fun h => h, fun h => h, fun c h _ => h⟩
    | some v =>
      obtain ⟨m, k⟩ := v
      obtain ⟨ch, t, hrend, hclass, hdig⟩ := render_head_cases htp
      have hT : renderMods (m :: parseModifiers ((c0 :: r0).drop k)) =
          ch :: (t ++ renderMods (parseModifiers ((c0 :: r0).drop k))) := by
        simp [renderMods, hrend]
      rw [hT]
      refine ⟨?_, ?_, ?_⟩
      · intro h
        exact hdig h
      · intro h
        exfalso
        have hch : ch = 'a' := by
          simp [List.isPrefixOf] at h
          exact h.1.symm
        subst hch
        exact absurd hclass (by decide)
      · intro c h hcb
        exfalso
        injection h with h
        subst h
        rcases hcb with rfl | rfl <;> exact absurd hclass (by decide)

theorem chainSafe_cons {a : Modifier} {l : List Modifier} (h : chainSafe (a :: l) = true) :
    chainSafe l = true ∧ ∀ b r, l = b :: r → safeStep a b = true := by
  cases l with
  | nil => exact ⟨rfl, by intro b r h'; cases h'⟩
  | cons b r =>
    rw [chainSafe, Bool.and_eq_true] at h
    refine ⟨h.2, ?_⟩
    intro b2 r2 h'
    injection h' with h1 h2
    subst h1
    exact h.1

theorem parseModifiers_render_ne_nil :
    ∀ (n : Nat) (s : PyStr), s.length ≤ n → ∀ m ∈ parseModifiers s, m.render ≠ [] := by
  intro n
  induction n with
  | zero =>
    intro s hs m hm
    have : s = [] := List.eq_nil_of_length_eq_zero (by omega)
    subst this
    simp [parseModifiers, parseModifiersF] at hm
  | succ n ih =>
    intro s hs m hm
    cases s with
    | nil => simp [parseModifiers, parseModifiersF] at hm
    | cons c r =>
      rw [parseModifiers_cons] at hm
      cases htp : tryPatterns (c :: r) with
      | none =>
        rw [htp] at hm
        simp at hm
        subst hm
        simp [Modifier.render]
      | some v =>
        obtain ⟨m0, k⟩ := v
        rw [htp] at hm
        rcases List.mem_cons.mp hm with rfl | hm'
        · exact tryPatterns_render_ne_nil htp
        · have hk := tryPatterns_consumes htp
          refine ih ((c :: r).drop k) ?_ m hm'
          obtain ⟨hk1, hk2⟩ := hk
          simp only [List.length_drop, List.length_cons] at hk2 ⊢
          simp only [List.length_cons] at hs
          omega

theorem startsWithDigit_renderMods_cons {m2 : Modifier} {l : List Modifier}
    (hne : m2.render ≠ []) :
    startsWithDigit (renderMods (m2 :: l)) = startsWithDigit m2.render := by
  obtain ⟨c, t, hct⟩ := List.exists_cons_of_ne_nil hne
  simp [renderMods, hct, startsWithDigit]

theorem isDigit_bounds {c : Char} (h : c.isDigit = true) : 48 ≤ c.toNat ∧ c.toNat ≤ 57 := by
  revert h
  unfold Char.isDigit
  intro h
  rw [Bool.and_eq_true, decide_eq_true_eq, decide_eq_true_eq] at h
  exact ⟨h.1, h.2⟩

theorem head_not_digit {T : PyStr} (h : startsWithDigit T = false) :
    ∀ c, T.head? = some c → c.isDigit = false := by
  cases T with
  | nil => intro c hc; exact absurd hc (by simp)
  | cons d r =>
    intro c hc
    injection hc with hc
    subst hc
    simpa [startsWithDigit] using h

/-- One reparse step: if the pattern chain recognises exactly the rendering of
`m` at the front, `parse_modifiers` peels `m` off and continues on the rest. -/
theorem parseModifiers_step {m : Modifier} {T : PyStr}
    (hne : m.render ≠ [])
    (h : tryPatterns (m.render ++ T) = some (m, m.render.length)) :
    parseModifiers (m.render ++ T) = m :: parseModifiers T := by
  obtain ⟨c, t, hct⟩ := List.exists_cons_of_ne_nil hne
  rw [hct, List.cons_append, parseModifiers_cons]
  rw [hct, List.cons_append] at h
  rw [h]
  show m :: parseModifiers ((c :: (t ++ T)).drop (c :: t).length) = m :: parseModifiers T
  have hdrop : (c :: (t ++ T)).drop (c :: t).length = T := by
    rw [← List.cons_append, List.drop_left]
  rw [hdrop]

theorem matchTone_single {L : Char} {T : PyStr} (hL : ('A' ≤ L && L ≤ 'H') = true)
    (hT : ∀ x, T.head? = some x → (x == '#' || x == 'b') = false) :
    matchTone (L :: T) = some ([L], 1) := by
  simp only [matchTone]
  rw [if_pos hL]
  cases T with
  | nil => rfl
  | cons x r => simp [hT x rfl]

theorem matchTone_double {L x : Char} {T : PyStr} (hL : ('A' ≤ L && L ≤ 'H') = true)
    (hx : (x == '#' || x == 'b') = true) :
    matchTone (L :: x :: T) = some ([L, x], 2) := by
  simp only [matchTone]
  rw [if_pos hL]
  simp [hx]

theorem tryPatterns_render_maj (T : PyStr) :
    tryPatterns (Modifier.majorSeventh.render ++ T) = some (.majorSeventh, 4) := rfl

theorem tryPatterns_render_minor {T : PyStr} (hT : ['a', 'j'].isPrefixOf T = false) :
    tryPatterns (Modifier.minor.render ++ T) = some (.minor, 1) := by
  show tryPatterns ('m' :: T) = some (.minor, 1)
  unfold tryPatterns
  rw [matchMaj_none_of_not_aj T hT]
  rfl

theorem tryPatterns_render_dom (T : PyStr) :
    tryPatterns (Modifier.dominantSeventh.render ++ T) = some (.dominantSeventh, 1) := by
  show tryPatterns ('7' :: T) = some (.dominantSeventh, 1)
  unfold tryPatterns
  rw [matchMaj_none_of '7' T (by decide), matchMinor_none_of '7' T (by decide)]
  rfl

theorem tryPatterns_render_added {n : Nat} {T : PyStr}
    (h7 : ∀ t, pyNatStr n = '7' :: t → False)
    (hT : startsWithDigit T = false) :
    tryPatterns ((Modifier.addedNote n).render ++ T) =
      some (.addedNote n, (pyNatStr n).length) := by
  obtain ⟨c, t, hct⟩ := List.exists_cons_of_ne_nil (pyNatStr_ne_nil n)
  have hcd : c.isDigit = true := pyNatStr_all_digits n c (by rw [hct]; simp)
  obtain ⟨hm, hs, hp, hd, hsl, -, -, -⟩ := digit_ne_lits hcd
  have htw := takeWhile_append_of Char.isDigit (pyNatStr n) T (pyNatStr_all_digits n)
    (head_not_digit hT)
  have hadd : matchAdded (pyNatStr n ++ T) = some (.addedNote n, (pyNatStr n).length) := by
    unfold matchAdded
    dsimp only
    rw [htw.1, digitsToNat_pyNatStr,
      if_neg (by simpa [List.isEmpty_iff] using pyNatStr_ne_nil n)]
  have hdecomp : pyNatStr n ++ T = c :: (t ++ T) := by
    rw [hct]
    rfl
  rw [hdecomp] at hadd
  show tryPatterns (pyNatStr n ++ T) = some (.addedNote n, (pyNatStr n).length)
  rw [hdecomp]
  unfold tryPatterns
  rw [matchMaj_none_of c _ hm, matchMinor_none_of c _ hm,
    matchDom_none_of c _ (by rintro rfl; exact h7 t hct), hadd]
  rfl

theorem tryPatterns_render_sus {d : Nat} (hlt : d < 10) (T : PyStr) :
    tryPatterns ((Modifier.suspended d).render ++ T) = some (.suspended d, 4) := by
  have hr : (Modifier.suspended d).render ++ T = 's' :: 'u' :: 's' :: digitChar d :: T := by
    simp [Modifier.render, pyNatStr_single d hlt]
  rw [hr]
  unfold tryPatterns
  rw [matchMaj_none_of _ _ (by decide), matchMinor_none_of _ _ (by decide),
    matchDom_none_of _ _ (by decide), matchAdded_none_of _ _ (by decide)]
  have hsus : matchSus ('s' :: 'u' :: 's' :: digitChar d :: T) = some (.suspended d, 4) := by
    simp only [matchSus]
    rw [if_pos (digitChar_isDigit d hlt), digitChar_toNat d hlt]
    have h48 : 48 + d - 48 = d := by omega
    rw [h48]
  rw [hsus]
  rfl

theorem tryPatterns_render_alt_plus5 {T : PyStr} (hT : startsWithDigit T = false) :
    tryPatterns ((Modifier.altered .plus 5).render ++ T) = some (.altered .plus 5, 1) := by
  have hr : (Modifier.altered AltDir.plus 5).render ++ T = '+' :: T := by
    simp [Modifier.render, AltDir.render]
  rw [hr]
  unfold tryPatterns
  rw [matchMaj_none_of _ _ (by decide), matchMinor_none_of _ _ (by decide),
    matchDom_none_of _ _ (by decide), matchAdded_none_of _ _ (by decide),
    matchSus_none_of _ _ (by decide)]
  have halt : matchAltered ('+' :: T) = some (.altered .plus 5, 1) := by
    simp only [matchAltered]
    cases T with
    | nil => rfl
    | cons c r =>
      have hcd : c.isDigit = false := by simpa [startsWithDigit] using hT
      simp [hcd]
  rw [halt]
  rfl

theorem tryPatterns_render_alt_plusf {f : Nat} (hf : f < 10) (hf5 : f ≠ 5) (T : PyStr) :
    tryPatterns ((Modifier.altered .plus f).render ++ T) = some (.altered .plus f, 2) := by
  have hr : (Modifier.altered AltDir.plus f).render ++ T = '+' :: digitChar f :: T := by
    simp [Modifier.render, AltDir.render, hf5, pyNatStr_single f hf]
  rw [hr]
  unfold tryPatterns
  rw [matchMaj_none_of _ _ (by decide), matchMinor_none_of _ _ (by decide),
    matchDom_none_of _ _ (by decide), matchAdded_none_of _ _ (by decide),
    matchSus_none_of _ _ (by decide)]
  have halt : matchAltered ('+' :: digitChar f :: T) = some (.altered .plus f, 2) := by
    simp only [matchAltered]
    rw [if_pos (digitChar_isDigit f hf), digitChar_toNat f hf]
    have h48 : 48 + f - 48 = f := by omega
    rw [h48]
  rw [halt]
  rfl

theorem tryPatterns_render_alt_dim5 {T : PyStr} (hT : startsWithDigit T = false) :
    tryPatterns ((Modifier.altered .dim 5).render ++ T) = some (.altered .dim 5, 3) := by
  have hr : (Modifier.altered AltDir.dim 5).render ++ T = 'd' :: 'i' :: 'm' :: T := by
    simp [Modifier.render, AltDir.render]
  rw [hr]
  unfold tryPatterns
  rw [matchMaj_none_of _ _ (by decide), matchMinor_none_of _ _ (by decide),
    matchDom_none_of _ _ (by decide), matchAdded_none_of _ _ (by decide),
    matchSus_none_of _ _ (by decide)]
  have halt : matchAltered ('d' :: 'i' :: 'm' :: T) = some (.altered .dim 5, 3) := by
    simp only [matchAltered]
    cases T with
    | nil => rfl
    | cons c r =>
      have hcd : c.isDigit = false := by simpa [startsWithDigit] using hT
      simp [hcd]
  rw [halt]
  rfl

theorem tryPatterns_render_alt_dimf {f : Nat} (hf : f < 10) (hf5 : f ≠ 5) (T : PyStr) :
    tryPatterns ((Modifier.altered .dim f).render ++ T) = some (.altered .dim f, 4) := by
  have hr : (Modifier.altered AltDir.dim f).render ++ T =
      'd' :: 'i' :: 'm' :: digitChar f :: T := by
    simp [Modifier.render, AltDir.render, hf5, pyNatStr_single f hf]
  rw [hr]
  unfold tryPatterns
  rw [matchMaj_none_of _ _ (by decide), matchMinor_none_of _ _ (by decide),
    matchDom_none_of _ _ (by decide), matchAdded_none_of _ _ (by decide),
    matchSus_none_of _ _ (by decide)]
  have halt : matchAltered ('d' :: 'i' :: 'm' :: digitChar f :: T) =
      some (.altered .dim f, 4) := by
    simp only [matchAltered]
    rw [if_pos (digitChar_isDigit f hf), digitChar_toNat f hf]
    have h48 : 48 + f - 48 = f := by omega
    rw [h48]
  rw [halt]
  rfl

theorem tryPatterns_render_bass {note T : PyStr}
    (htone : matchTone (note ++ T) = some (note, note.length)) :
    tryPatterns ((Modifier.bassNote note).render ++ T) =
      some (.bassNote note, note.length + 1) := by
  have hr : (Modifier.bassNote note).render ++ T = '/' :: (note ++ T) := by
    simp [Modifier.render]
  rw [hr]
  unfold tryPatterns
  rw [matchMaj_none_of _ _ (by decide), matchMinor_none_of _ _ (by decide),
    matchDom_none_of _ _ (by decide), matchAdded_none_of _ _ (by decide),
    matchSus_none_of _ _ (by decide), matchAltered_none_of _ _ (by decide) (by decide)]
  have hb : matchBass ('/' :: (note ++ T)) = some (.bassNote note, note.length + 1) := by
    simp only [matchBass]
    simp [htone]
  rw [hb]
  rfl

/-- Core of the chord modifier round trip: under the safety conditions, the
modifier list parsed from a string reparses verbatim from its own rendering. -/
theorem roundtrip_aux :
    ∀ (n : Nat) (s : PyStr), s.length ≤ n → safeMods (parseModifiers s) = true →
      parseModifiers (renderMods (parseModifiers s)) = parseModifiers s := by
  intro n
  induction n with
  | zero =>
    intro s hs _
    have hnil : s = [] := List.eq_nil_of_length_eq_zero (by omega)
    subst hnil
    rfl
  | succ n ih =>
    intro s hs hsafe
    cases s with
    | nil => rfl
    | cons c0 r0 =>
      rw [parseModifiers_cons]
      cases htp : tryPatterns (c0 :: r0) with
      | none =>
        have hT : renderMods [Modifier.generic (c0 :: r0)] = c0 :: r0 := by
          simp [renderMods, Modifier.render]
        rw [hT, parseModifiers_cons, htp]
      | some v =>
        obtain ⟨m, k⟩ := v
        have hsafe2 : safeMods (m :: parseModifiers ((c0 :: r0).drop k)) = true := by
          rw [parseModifiers_cons, htp] at hsafe
          exact hsafe
        rw [safeMods, Bool.and_eq_true, List.all_cons, Bool.and_eq_true] at hsafe2
        obtain ⟨⟨hA, hallA⟩, hchain⟩ := hsafe2
        obtain ⟨hchain2, hstep⟩ := chainSafe_cons hchain
        obtain ⟨hk1, hk2⟩ := tryPatterns_consumes htp
        have hlen2 : ((c0 :: r0).drop k).length ≤ n := by
          simp only [List.length_drop, List.length_cons] at hk2 ⊢
          simp only [List.length_cons] at hs
          omega
        have hIH := ih ((c0 :: r0).drop k) hlen2
          (by rw [safeMods, Bool.and_eq_true]; exact ⟨hallA, hchain2⟩)
        obtain ⟨hc1, hc2, hc3⟩ := headCompat_render ((c0 :: r0).drop k)
        have hne : m.render ≠ [] := tryPatterns_render_ne_nil htp
        have haltT : ∀ d : AltDir, m = Modifier.altered d 5 →
            startsWithDigit (renderMods (parseModifiers ((c0 :: r0).drop k))) = false := by
          intro d hm
          cases hout : parseModifiers ((c0 :: r0).drop k) with
          | nil => rfl
          | cons b rest =>
            have hb := hstep b rest hout
            rw [hm] at hb
            have hbne : b.render ≠ [] :=
              parseModifiers_render_ne_nil ((c0 :: r0).drop k).length _ (le_refl _) b
                (by rw [hout]; simp)
            rw [startsWithDigit_renderMods_cons hbne]
            simp [safeStep] at hb
            exact hb
        have hTdecomp : renderMods (m :: parseModifiers ((c0 :: r0).drop k)) =
            m.render ++ renderMods (parseModifiers ((c0 :: r0).drop k)) := by
          simp [renderMods]
        rw [hTdecomp]
        generalize hTg : renderMods (parseModifiers ((c0 :: r0).drop k)) = T
          at hIH hc1 hc2 hc3 haltT ⊢
        rcases tryPatterns_cases htp with hcase |
          ⟨hmajN, hcase | ⟨hminN, hcase | ⟨hdomN, hcase |
          ⟨haddN, hcase | ⟨hsusN, hcase | ⟨haltN, hcase⟩⟩⟩⟩⟩⟩
        · -- maj7
          obtain ⟨rfl, hk34, r, heq, -⟩ := matchMaj_spec hcase
          rw [parseModifiers_step hne (tryPatterns_render_maj T), hIH]
        · -- minor
          obtain ⟨rfl, rfl, r, heq⟩ := matchMinor_spec hcase
          injection heq with he1 he2
          subst he1
          subst he2
          have haj : ['a', 'j'].isPrefixOf T = false := by
            cases hv : ['a', 'j'].isPrefixOf T with
            | false => rfl
            | true =>
              exfalso
              have h2 : (['a', 'j'] : PyStr).isPrefixOf r0 = true := hc2 hv
              obtain ⟨tl, htl⟩ := List.isPrefixOf_iff_prefix.mp h2
              rw [← htl] at hmajN
              simp only [List.cons_append, List.nil_append, matchMaj] at hmajN
              split at hmajN <;> simp at hmajN
          rw [parseModifiers_step hne (tryPatterns_render_minor haj), hIH]
        · -- dominant seventh
          obtain ⟨rfl, rfl, r, heq⟩ := matchDom_spec hcase
          rw [parseModifiers_step hne (tryPatterns_render_dom T), hIH]
        · -- added note
          obtain ⟨hdne, rfl, rfl⟩ := matchAdded_spec hcase
          have h7 : ∀ t, pyNatStr (digitsToNat ((c0 :: r0).takeWhile Char.isDigit)) =
              '7' :: t → False := by
            intro t ht
            rw [addedOk, ht] at hA
            simp [startsWithDigit] at hA
          have hsd : startsWithDigit
              ((c0 :: r0).drop ((c0 :: r0).takeWhile Char.isDigit).length) = false := by
            rw [drop_length_takeWhile]
            cases hdw : (c0 :: r0).dropWhile Char.isDigit with
            | nil => rfl
            | cons e rest =>
              have he : Char.isDigit e = false :=
                dropWhile_head_not (p := Char.isDigit) (s := c0 :: r0) (by rw [hdw]; rfl)
              simpa [startsWithDigit] using he
          have hTd : startsWithDigit T = false := by
            cases hv : startsWithDigit T with
            | false => rfl
            | true =>
              have h2 := hc1 hv
              rw [hsd] at h2
              simp at h2
          rw [parseModifiers_step hne (tryPatterns_render_added h7 hTd), hIH]
        · -- suspended
          obtain ⟨c, r, heq, hcd, rfl, rfl⟩ := matchSus_spec hcase
          have hlt : c.toNat - 48 < 10 := by
            have := isDigit_bounds hcd
            omega
          have hlen4 : (Modifier.suspended (c.toNat - 48)).render.length = 4 := by
            simp [Modifier.render, pyNatStr_single _ hlt]
          have hstep2 : tryPatterns ((Modifier.suspended (c.toNat - 48)).render ++ T) =
              some (.suspended (c.toNat - 48),
                (Modifier.suspended (c.toNat - 48)).render.length) := by
            rw [hlen4]
            exact tryPatterns_render_sus hlt T
          rw [parseModifiers_step hne hstep2, hIH]
        · -- altered
          rcases matchAltered_spec hcase with ⟨r, heq, hsub⟩ | ⟨r, heq, hsub⟩
          · rcases hsub with ⟨c, r2, hreq, hcd, rfl, rfl⟩ | ⟨rfl, rfl, hrd⟩
            · have hlt : c.toNat - 48 < 10 := by
                have := isDigit_bounds hcd
                omega
              by_cases h5 : c.toNat - 48 = 5
              · have hTd := haltT AltDir.plus (by rw [h5])
                rw [h5] at hne ⊢
                rw [parseModifiers_step hne (tryPatterns_render_alt_plus5 hTd), hIH]
              · have hlen2a : (Modifier.altered AltDir.plus (c.toNat - 48)).render.length = 2 := by
                  simp [Modifier.render, AltDir.render, h5, pyNatStr_single _ hlt]
                have hstep2 : tryPatterns
                    ((Modifier.altered AltDir.plus (c.toNat - 48)).render ++ T) =
                    some (.altered .plus (c.toNat - 48),
                      (Modifier.altered AltDir.plus (c.toNat - 48)).render.length) := by
                  rw [hlen2a]
                  exact tryPatterns_render_alt_plusf hlt h5 T
                rw [parseModifiers_step hne hstep2, hIH]
            · have hTd := haltT AltDir.plus rfl
              rw [parseModifiers_step hne (tryPatterns_render_alt_plus5 hTd), hIH]
          · rcases hsub with ⟨c, r2, hreq, hcd, rfl, rfl⟩ | ⟨rfl, rfl, hrd⟩
            · have hlt : c.toNat - 48 < 10 := by
                have := isDigit_bounds hcd
                omega
              by_cases h5 : c.toNat - 48 = 5
              · have hTd := haltT AltDir.dim (by rw [h5])
                rw [h5] at hne ⊢
                rw [parseModifiers_step hne (tryPatterns_render_alt_dim5 hTd), hIH]
              · have hlen4a : (Modifier.altered AltDir.dim (c.toNat - 48)).render.length = 4 := by
                  simp [Modifier.render, AltDir.render, h5, pyNatStr_single _ hlt]
                have hstep2 : tryPatterns
                    ((Modifier.altered AltDir.dim (c.toNat - 48)).render ++ T) =
                    some (.altered .dim (c.toNat - 48),
                      (Modifier.altered AltDir.dim (c.toNat - 48)).render.length) := by
                  rw [hlen4a]
                  exact tryPatterns_render_alt_dimf hlt h5 T
                rw [parseModifiers_step hne hstep2, hIH]
            · have hTd := haltT AltDir.dim rfl
              rw [parseModifiers_step hne (tryPatterns_render_alt_dim5 hTd), hIH]
        · -- bass note
          obtain ⟨r, note, k2, heq, htone, rfl, rfl⟩ := matchBass_spec hcase
          obtain ⟨L, r2, hreq, hL, hcases⟩ := matchTone_spec htone
          rcases hcases with ⟨x, r3, hr2, hx, rfl, rfl⟩ | ⟨rfl, rfl, hnb⟩
          · have htone2 : matchTone ([L, x] ++ T) = some ([L, x], ([L, x] : PyStr).length) :=
              matchTone_double hL hx
            rw [parseModifiers_step hne (tryPatterns_render_bass htone2), hIH]
          · rw [hreq] at heq
            injection heq with he1 he2
            subst he1
            subst he2
            have hTx : ∀ x, T.head? = some x → (x == '#' || x == 'b') = false := by
              intro x hxh
              cases hv : (x == '#' || x == 'b') with
              | false => rfl
              | true =>
                have hx2 : x = '#' ∨ x = 'b' := by simpa using hv
                have h3 : r2.head? = some x := hc3 x hxh hx2
                have h4 := hnb x h3
                rw [hv] at h4
                exact absurd h4 (by decide)
            have htone2 : matchTone ([L] ++ T) = some ([L], ([L] : PyStr).length) :=
              matchTone_single hL hTx
            rw [parseModifiers_step hne (tryPatterns_render_bass htone2), hIH]

/-- C5 (amended): chord parsing round-trips under the safety condition: for
every string accepted by `DefaultChordParser.parse` whose resulting chord
satisfies `safeChord` (no `Altered` rendered without its factor immediately
followed by a digit-initial rendering, and no `AddedNote` whose decimal
rendering starts with 7), reparsing the rendered chord returns the same chord;
the condition is not the absence of `GenericChordModifier` claimed originally. -/
theorem default_chord_parser_round_trip (s : PyStr) (c : Chord)
    (hp : defaultChordParse s = some c) (hsafe : safeChord c = true) :
    defaultChordParse c.render = some c := by
  unfold defaultChordParse at hp
  by_cases hemp : s.isEmpty
  · rw [if_pos hemp] at hp
    exact Option.noConfusion hp
  · rw [if_neg hemp] at hp
    cases ht : matchTone s with
    | none =>
      rw [ht] at hp
      exact Option.noConfusion hp
    | some v =>
      obtain ⟨root, k⟩ := v
      have hp2 : some (⟨root, parseModifiers (s.drop k)⟩ : Chord) = some c := by
        rw [ht] at hp
        exact hp
      injection hp2 with hp2
      subst hp2
      obtain ⟨c1, r1, hs1, hrange, hcase⟩ := matchTone_spec ht
      subst hs1
      have hsafe2 : safeMods (parseModifiers ((c1 :: r1).drop k)) = true := hsafe
      have hrt := roundtrip_aux ((c1 :: r1).drop k).length ((c1 :: r1).drop k)
        (le_refl _) hsafe2
      obtain ⟨-, -, hc3⟩ := headCompat_render ((c1 :: r1).drop k)
      show defaultChordParse (root ++ renderMods (parseModifiers ((c1 :: r1).drop k))) =
        some ⟨root, parseModifiers ((c1 :: r1).drop k)⟩
      generalize hTg : renderMods (parseModifiers ((c1 :: r1).drop k)) = T at hrt hc3 ⊢
      rcases hcase with ⟨x, r2, hr2, hx, rfl, rfl⟩ | ⟨rfl, rfl, hnb⟩
      · have htone2 : matchTone ([c1, x] ++ T) = some ([c1, x], 2) :=
          matchTone_double hrange hx
        have hev : defaultChordParse ([c1, x] ++ T) = some ⟨[c1, x], parseModifiers T⟩ := by
          unfold defaultChordParse
          rw [if_neg (by simp), htone2]
          rfl
        rw [hev, hrt]
      · have hTx : ∀ x, T.head? = some x → (x == '#' || x == 'b') = false := by
          intro x hxh
          cases hv : (x == '#' || x == 'b') with
          | false => rfl
          | true =>
            have hx2 : x = '#' ∨ x = 'b' := by simpa using hv
            have h3 : r1.head? = some x := hc3 x hxh hx2
            have h4 := hnb x h3
            rw [hv] at h4
            exact absurd h4 (by decide)
        have htone2 : matchTone ([c1] ++ T) = some ([c1], 1) := matchTone_single hrange hTx
        have hev : defaultChordParse ([c1] ++ T) = some ⟨[c1], parseModifiers T⟩ := by
          unfold defaultChordParse
          rw [if_neg (by simp), htone2]
          rfl
        rw [hev, hrt]

/-- C5 counterexample: the source string C+55 parses to a chord with no
generic modifier (an `Altered` with factor 5 followed by `AddedNote 5`), yet
its rendering C+5 reparses to a different chord: the digit 5 is absorbed
into the `Altered` on reparse. -/
theorem default_chord_parser_round_trip_counterexample :
    ∃ s c, defaultChordParse s = some c ∧ noGenericModifier c = true ∧
      defaultChordParse c.render ≠ some c := by
  refine ⟨['C', '+', '5', '5'],
    ⟨['C'], [.altered .plus 5, .addedNote 5]⟩, ?_, ?_, ?_⟩ <;> decide

/-- C5 witness: the chord Am7/F# parses, satisfies the safety condition, and
round-trips through rendering by the amended theorem. -/
theorem default_chord_parser_round_trip_witness :
    defaultChordParse ['A', 'm', '7', '/', 'F', '#'] =
        some ⟨['A'], [.minor, .dominantSeventh, .bassNote ['F', '#']]⟩ ∧
      safeChord ⟨['A'], [.minor, .dominantSeventh, .bassNote ['F', '#']]⟩ = true ∧
      defaultChordParse
          (Chord.render ⟨['A'], [.minor, .dominantSeventh, .bassNote ['F', '#']]⟩) =
        some ⟨['A'], [.minor, .dominantSeventh, .bassNote ['F', '#']]⟩ :=
  ⟨by decide, by decide,
    default_chord_parser_round_trip ['A', 'm', '7', '/', 'F', '#'] _ (by decide) (by decide)⟩

/-! ### Idempotence of the normalization passes -/

theorem setFirstSeg_segments (it : Item) (r : Seg) :
    (it.setFirstSeg r).segments = it.segments.set 0 r := by
  induction it with
  | strophe m segs => rfl
  | repeatSame m segs => rfl
  | stropheRepeat rep ih =>
    show (rep.setFirstSeg r).segments = rep.segments.set 0 r
    exact ih
  | annot a => rfl

theorem setFirstSeg_isRepeatSame (it : Item) (r : Seg) :
    (it.setFirstSeg r).isRepeatSame = it.isRepeatSame := by
  cases it <;> rfl

theorem applyRepls_noRepeatSame :
    ∀ (repls : List (Nat × Seg)) (items : List Item),
      (∀ it ∈ items, it.isRepeatSame = false) →
      ∀ it ∈ applyRepls items repls, it.isRepeatSame = false := by
  intro repls
  induction repls with
  | nil => intro items h; exact h
  | cons p rest ih =>
    intro items h
    obtain ⟨i, r⟩ := p
    rw [applyRepls]
    apply ih
    intro it2 hmem
    rcases List.mem_or_eq_of_mem_set hmem with h2 | h2
    · exact h it2 h2
    · subst h2
      rw [setFirstSeg_isRepeatSame]
      cases hg : items.get? i with
      | none => rw [List.getD_eq_getD_get?, hg]; rfl
      | some it0 =>
        rw [List.getD_eq_getD_get?, hg]
        exact h it0 (List.get?_mem hg)

theorem fill_noRepeatSame (items : List Item)
    (h : ∀ it ∈ items, it.isRepeatSame = false) :
    ∀ it ∈ fillInitialPlainSegments items, it.isRepeatSame = false :=
  applyRepls_noRepeatSame (fillRepls items) items h

theorem infer_noRepeatSame (items : List Item)
    (h : ∀ it ∈ items, it.isRepeatSame = false) :
    ∀ it ∈ inferChorusRepetition items, it.isRepeatSame = false := by
  unfold inferChorusRepetition
  dsimp only
  split
  · exact h
  · split
    · split
      next a b rest =>
        intro it2 hmem
        rcases List.mem_cons.mp hmem with rfl | hmem
        · exact h it2 (by simp)
        · rcases List.mem_cons.mp hmem with rfl | hmem
          · exact h it2 (by simp)
          · rw [List.mem_flatMap] at hmem
            obtain ⟨st, hst, hmem2⟩ := hmem
            rcases List.mem_cons.mp hmem2 with rfl | hmem3
            · exact h it2 (by simp [hst])
            · rcases List.mem_cons.mp hmem3 with rfl | hmem4
              · rfl
              · simp at hmem4
      next => exact h
    · exact h

theorem stropheKinds_length_le (items : List Item) :
    (stropheKinds items).length ≤ items.length :=
  List.length_filterMap_le _ _

theorem stropheKinds_cons_strophe (it : Item) (rest : List Item) (m : Mark)
    (h1 : it.isStrophe = true) (h2 : it.mark = some m) :
    stropheKinds (it :: rest) = Mark.kind m :: stropheKinds rest := by
  simp [stropheKinds, List.filterMap_cons, h1, h2]

theorem all_strophes_of_kinds_length (items : List Item)
    (h : (stropheKinds items).length = items.length) :
    ∀ it ∈ items, it.isStrophe = true ∧ ∃ m, it.mark = some m := by
  induction items with
  | nil => intro it hmem; simp at hmem
  | cons it rest ih =>
    intro it2 hmem
    have hle := stropheKinds_length_le rest
    by_cases hs : it.isStrophe = true
    · cases hm : it.mark with
      | none =>
        exfalso
        rw [show stropheKinds (it :: rest) = stropheKinds rest from by
          simp [stropheKinds, List.filterMap_cons, hs, hm]] at h
        simp only [List.length_cons] at h
        omega
      | some m =>
        rw [stropheKinds_cons_strophe it rest m hs hm, List.length_cons,
          List.length_cons] at h
        rcases List.mem_cons.mp hmem with rfl | hmem2
        · exact ⟨hs, m, hm⟩
        · exact ih (by omega) it2 hmem2
    · exfalso
      simp only [Bool.not_eq_true] at hs
      rw [show stropheKinds (it :: rest) = stropheKinds rest from by
        simp [stropheKinds, List.filterMap_cons, hs]] at h
      simp only [List.length_cons] at h
      omega

theorem stropheMarks_mem_ex (items : List Item) (m : Mark)
    (h : m ∈ stropheMarks items) :
    ∃ it ∈ items, it.isStrophe = true ∧ it.mark = some m := by
  rw [stropheMarks, List.mem_map] at h
  obtain ⟨p, hp, hsnd⟩ := h
  obtain ⟨it, hget, hstr, hmark⟩ := stropheMarksIdxAux_get items 0 p hp
  exact ⟨it, List.get?_mem hget, hstr, by rw [hmark, hsnd]⟩

theorem letterOf_none_of_kind (m : Mark)
    (h : Mark.kind m = MarkKind.numberedK ∨ Mark.kind m = MarkKind.chorusK) :
    letterOf m = none := by
  cases m <;> first | rfl | (exfalso; simp [Mark.kind] at h)

theorem fill_letteredLetters (items : List Item) :
    letteredLetters (fillInitialPlainSegments items) = letteredLetters items := by
  rw [letteredLetters_eq, letteredLetters_eq, fill_stropheMarks]

theorem fill_stropheKinds (items : List Item) :
    stropheKinds (fillInitialPlainSegments items) = stropheKinds items := by
  rw [stropheKinds_eq_map_marks, stropheKinds_eq_map_marks, fill_stropheMarks]

theorem fillTransform_nil (j : Nat) (it : Item) : fillTransform [] j it = it := rfl

theorem fillTransform_isStrophe (repls : List (Nat × Seg)) (j : Nat) (it : Item) :
    (fillTransform repls j it).isStrophe = it.isStrophe := by
  unfold fillTransform
  cases repls.find? (fun p => p.1 == j) with
  | none => rfl
  | some p => exact (setFirstSeg_preserves it p.2).1

theorem fillTransform_not_key (repls : List (Nat × Seg)) (j : Nat) (it : Item)
    (h : ∀ p ∈ repls, p.1 ≠ j) : fillTransform repls j it = it := by
  unfold fillTransform
  rw [List.find?_eq_none.mpr (by intro p hp; simpa using h p hp)]

theorem mapWithIdx_get? (g : Nat → Item → Item) :
    ∀ (items : List Item) (k j : Nat),
      (mapWithIdx g k items).get? j = (items.get? j).map (g (k + j)) := by
  intro items
  induction items with
  | nil => intro k j; simp [mapWithIdx]
  | cons it rest ih =>
    intro k j
    cases j with
    | zero => simp [mapWithIdx]
    | succ j =>
      rw [mapWithIdx]
      simp only [List.get?_cons_succ]
      rw [ih (k + 1) j]
      have hk : k + 1 + j = k + (j + 1) := by omega
      rw [hk]

theorem applyRepls_get? :
    ∀ (repls : List (Nat × Seg)) (items : List Item) (j : Nat),
      List.Pairwise (fun p q => p.1 < q.1) repls →
      (applyRepls items repls).get? j = (items.get? j).map (fillTransform repls j) := by
  intro repls
  induction repls with
  | nil =>
    intro items j _
    rw [applyRepls]
    cases items.get? j <;> rfl
  | cons p rest ih =>
    intro items j hpw
    obtain ⟨i, r⟩ := p
    rw [List.pairwise_cons] at hpw
    obtain ⟨hgt, hpw2⟩ := hpw
    rw [applyRepls, ih _ j hpw2]
    by_cases hij : i = j
    · subst hij
      rw [List.get?_set_eq]
      cases hg : items.get? i with
      | none => rfl
      | some it0 =>
        have hgetD : items.getD i (Item.annot (Annot.generic [] [] false)) = it0 := by
          rw [List.getD_eq_getD_get?, hg]
          rfl
        rw [hgetD]
        have hrest : fillTransform rest i (it0.setFirstSeg r) = it0.setFirstSeg r :=
          fillTransform_not_key rest i _ (by intro q hq; have := hgt q hq; omega)
        have hfind : fillTransform ((i, r) :: rest) i it0 = it0.setFirstSeg r := by
          unfold fillTransform
          rw [List.find?_cons_of_pos _ (by simp)]
        show some (fillTransform rest i (it0.setFirstSeg r)) =
          some (fillTransform ((i, r) :: rest) i it0)
        rw [hrest, hfind]
    · rw [List.get?_set_ne _ _ (by omega)]
      cases hg : items.get? j with
      | none => rfl
      | some it0 =>
        show some (fillTransform rest j it0) = some (fillTransform ((i, r) :: rest) j it0)
        congr 1
        unfold fillTransform
        rw [List.find?_cons_of_neg _ (by simp [hij])]

theorem applyRepls_eq_mapWithIdx (repls : List (Nat × Seg)) (items : List Item)
    (hpw : List.Pairwise (fun p q => p.1 < q.1) repls) :
    applyRepls items repls = mapWithIdx (fillTransform repls) 0 items := by
  apply List.ext_get?
  intro j
  rw [applyRepls_get? repls items j hpw, mapWithIdx_get?]
  simp

theorem strophesIdxAux_fst_ge :
    ∀ (items : List Item) (k : Nat) (p : Nat × Item),
      p ∈ strophesIdxAux k items → k ≤ p.1 := by
  intro items
  induction items with
  | nil => intro k p hp; simp [strophesIdxAux] at hp
  | cons it rest ih =>
    intro k p hp
    simp only [strophesIdxAux, List.mem_append] at hp
    rcases hp with hp | hp
    · cases hs : it.isStrophe <;> simp [hs] at hp
      subst hp
      exact le_refl _
    · exact Nat.le_of_succ_le (ih (k + 1) p hp)

theorem strophesIdxAux_pairwise :
    ∀ (items : List Item) (k : Nat),
      List.Pairwise (fun p q => p.1 < q.1) (strophesIdxAux k items) := by
  intro items
  induction items with
  | nil => intro k; simp [strophesIdxAux]
  | cons it rest ih =>
    intro k
    rw [strophesIdxAux, List.pairwise_append]
    refine ⟨?_, ih (k + 1), ?_⟩
    · cases hs : it.isStrophe <;> simp [hs]
    · intro p hp q hq
      have hq1 := strophesIdxAux_fst_ge rest (k + 1) q hq
      cases hs : it.isStrophe <;> simp [hs] at hp
      subst hp
      omega

theorem strophesIdxAux_mapWithIdx (g : Nat → Item → Item)
    (hpres : ∀ j it, (g j it).isStrophe = it.isStrophe) :
    ∀ (items : List Item) (k : Nat),
      strophesIdxAux k (mapWithIdx g k items) =
        (strophesIdxAux k items).map fun p => (p.1, g p.1 p.2) := by
  intro items
  induction items with
  | nil => intro k; rfl
  | cons it rest ih =>
    intro k
    rw [mapWithIdx, strophesIdxAux, strophesIdxAux, ih (k + 1), List.map_append]
    congr 1
    rw [hpres k it]
    cases hs : it.isStrophe <;> simp [hs]

theorem mem_zip_tail {α : Type} :
    ∀ (l : List α) (x y : α), (x, y) ∈ l.zip l.tail →
      ∃ m, l.get? m = some x ∧ l.get? (m + 1) = some y := by
  intro l
  induction l with
  | nil => intro x y h; simp at h
  | cons a rest ih =>
    intro x y h
    cases rest with
    | nil => simp at h
    | cons b rest2 =>
      rw [show (a :: b :: rest2 : List α).tail = b :: rest2 from rfl, List.zip_cons_cons] at h
      rcases List.mem_cons.mp h with heq | hmem
      · injection heq with h1 h2
        exact ⟨0, by rw [h1]; rfl, by rw [h2]; rfl⟩
      · obtain ⟨m, hm1, hm2⟩ := ih x y (by simpa using hmem)
        exact ⟨m + 1, by simpa using hm1, by simpa using hm2⟩

theorem get?_fst_inj {l : List (Nat × Item)}
    (hpw : List.Pairwise (fun p q => p.1 < q.1) l) :
    ∀ (m₁ m₂ : Nat) (y₁ y₂ : Nat × Item), l.get? m₁ = some y₁ → l.get? m₂ = some y₂ →
      y₁.1 = y₂.1 → m₁ = m₂ := by
  induction l with
  | nil => intro m₁ m₂ y₁ y₂ h₁ h₂ _; simp at h₁
  | cons a rest ih =>
    intro m₁ m₂ y₁ y₂ h₁ h₂ heq
    rw [List.pairwise_cons] at hpw
    obtain ⟨hgt, hpw2⟩ := hpw
    cases m₁ with
    | zero =>
      cases m₂ with
      | zero => rfl
      | succ m₂ =>
        exfalso
        injection h₁ with h₁
        subst h₁
        simp only [List.get?_cons_succ] at h₂
        have := hgt y₂ (List.get?_mem h₂)
        omega
    | succ m₁ =>
      cases m₂ with
      | zero =>
        exfalso
        injection h₂ with h₂
        subst h₂
        simp only [List.get?_cons_succ] at h₁
        have := hgt y₁ (List.get?_mem h₁)
        omega
      | succ m₂ =>
        simp only [List.get?_cons_succ] at h₁ h₂
        rw [ih hpw2 m₁ m₂ y₁ y₂ h₁ h₂ heq]

theorem mem_fst_inj {l : List (Nat × Item)}
    (hpw : List.Pairwise (fun p q => p.1 < q.1) l)
    {a b : Nat × Item} (ha : a ∈ l) (hb : b ∈ l) (heq : a.1 = b.1) : a = b := by
  obtain ⟨m₁, h₁⟩ := List.mem_iff_get?.mp ha
  obtain ⟨m₂, h₂⟩ := List.mem_iff_get?.mp hb
  have := get?_fst_inj hpw m₁ m₂ a b h₁ h₂ heq
  subst this
  rw [h₁] at h₂
  exact Option.some.inj h₂

theorem zip_tail_pairwise :
    ∀ (l : List (Nat × Item)), List.Pairwise (fun p q => p.1 < q.1) l →
      List.Pairwise (fun x y => x.2.1 < y.2.1) (l.zip l.tail) := by
  intro l
  induction l with
  | nil => intro _; simp
  | cons a rest ih =>
    intro hpw
    rw [List.pairwise_cons] at hpw
    obtain ⟨hgt, hpw2⟩ := hpw
    cases rest with
    | nil => simp
    | cons b rest2 =>
      rw [show (a :: b :: rest2 : List (Nat × Item)).tail = b :: rest2 from rfl,
        List.zip_cons_cons, List.pairwise_cons]
      refine ⟨?_, ih hpw2⟩
      intro z hz
      have hz2 : z.2 ∈ rest2 := (List.of_mem_zip hz).2
      rw [List.pairwise_cons] at hpw2
      exact hpw2.1 z.2 hz2

theorem pairwise_keys_filterMap {α β : Type} (g : α → Option (Nat × β)) (key : α → Nat)
    (hg : ∀ a x, g a = some x → x.1 = key a) :
    ∀ l : List α, List.Pairwise (fun x y => key x < key y) l →
      List.Pairwise (fun p q => p.1 < q.1) (l.filterMap g) := by
  intro l
  induction l with
  | nil => intro _; simp
  | cons a rest ih =>
    intro hpw
    rw [List.pairwise_cons] at hpw
    obtain ⟨hgt, hpw2⟩ := hpw
    rw [List.filterMap_cons]
    cases hga : g a with
    | none => exact ih hpw2
    | some x =>
      rw [List.pairwise_cons]
      refine ⟨?_, ih hpw2⟩
      intro y hy
      obtain ⟨b, hb, hgb⟩ := List.mem_filterMap.mp hy
      rw [hg a x hga, hg b y hgb]
      exact hgt b hb

theorem fillRepls_pairwise (items : List Item) :
    List.Pairwise (fun p q => p.1 < q.1) (fillRepls items) := by
  rw [fillRepls]
  apply pairwise_keys_filterMap _ (fun pc => pc.2.1)
  · intro pc x hx
    split at hx
    · injection hx with hx
      rw [← hx]
    · exact absurd hx (by simp)
  · exact zip_tail_pairwise _ (strophesIdxAux_pairwise items 0)

theorem canReplace_elim {p q : Item} (h : canReplace p q = true) :
    (∃ t, q.segments.head? = some (.plain t)) ∧
      q.segments.any (fun s => match s with | .chorded _ _ => true | _ => false) = true ∧
      q.segments.isEmpty = false ∧ p.segments.isEmpty = false ∧
      (∃ c t, p.segments.getLast? = some (.chorded c t)) := by
  rw [canReplace] at h
  simp only [Bool.and_eq_true, Bool.not_eq_eq_eq_not, Bool.not_true] at h
  obtain ⟨⟨⟨⟨hqe, hqh⟩, hqa⟩, hpe⟩, hpl⟩ := h
  refine ⟨?_, hqa, hqe, hpe, ?_⟩
  · cases hh : q.segments.head? with
    | none => rw [hh] at hqh; cases hqh
    | some s =>
      rw [hh] at hqh
      cases s with
      | plain t => exact ⟨t, rfl⟩
      | chorded c t => cases hqh
      | chordsOnPI => cases hqh
      | chordsOffPI => cases hqh
      | repCountPI n => cases hqh
      | embedded m segs => cases hqh
  · cases hl : p.segments.getLast? with
    | none => rw [hl] at hpl; cases hpl
    | some s =>
      rw [hl] at hpl
      cases s with
      | plain t => cases hpl
      | chorded c t => exact ⟨c, t, rfl⟩
      | chordsOnPI => cases hpl
      | chordsOffPI => cases hpl
      | repCountPI n => cases hpl
      | embedded m segs => cases hpl

theorem canReplace_false_of_head {p q : Item} {c : Chord} {t : PyStr}
    (h : q.segments.head? = some (.chorded c t)) : canReplace p q = false := by
  rw [canReplace, h]
  simp

theorem canReplace_congr_prev {p p' : Item} (q : Item)
    (h1 : p.segments.isEmpty = p'.segments.isEmpty)
    (h2 : p.segments.getLast? = p'.segments.getLast?) :
    canReplace p q = canReplace p' q := by
  rw [canReplace, canReplace, h1, h2]

theorem head_plain_any_len {segs : List Seg} {t : PyStr}
    (hh : segs.head? = some (.plain t))
    (ha : segs.any (fun s => match s with | .chorded _ _ => true | _ => false) = true) :
    2 ≤ segs.length := by
  cases segs with
  | nil => cases hh
  | cons s rest =>
    injection hh with hh
    subst hh
    rw [List.any_cons] at ha
    simp only [Bool.false_or] at ha
    cases rest with
    | nil => simp [List.any_nil] at ha
    | cons s2 rest2 => simp

theorem head?_set_zero {α : Type} {l : List α} (r : α) (h : l ≠ []) :
    (l.set 0 r).head? = some r := by
  cases l with
  | nil => exact absurd rfl h
  | cons a rest => rfl

theorem getLast?_set_zero {α : Type} {l : List α} (r : α) (h : 2 ≤ l.length) :
    (l.set 0 r).getLast? = l.getLast? := by
  match l, h with
  | a :: b :: t, _ =>
    rw [List.set_cons_zero, List.getLast?_cons_cons, List.getLast?_cons_cons]

theorem isEmpty_set_zero {α : Type} (l : List α) (r : α) :
    (l.set 0 r).isEmpty = l.isEmpty := by
  cases l <;> rfl

theorem find?_key_some {repls : List (Nat × Seg)} {j : Nat} {r : Seg}
    (hpw : List.Pairwise (fun p q => p.1 < q.1) repls) (hmem : (j, r) ∈ repls) :
    repls.find? (fun p => p.1 == j) = some (j, r) := by
  induction repls with
  | nil => simp at hmem
  | cons p0 rest ih =>
    rw [List.pairwise_cons] at hpw
    obtain ⟨hgt, hpw2⟩ := hpw
    rcases List.mem_cons.mp hmem with rfl | hmem2
    · exact List.find?_cons_of_pos _ (by simp)
    · have hne : p0.1 ≠ j := by
        have := hgt (j, r) hmem2
        omega
      rw [List.find?_cons_of_neg _ (by simpa using hne)]
      exact ih hpw2 hmem2

theorem mem_fillRepls_of {items : List Item} {pr qr : Nat × Item}
    (hmem : (pr, qr) ∈ (strophesIdx items).zip (strophesIdx items).tail)
    (hcr : canReplace pr.2 qr.2 = true) :
    (qr.1, replSegment pr.2 qr.2) ∈ fillRepls items := by
  rw [fillRepls]
  exact List.mem_filterMap.mpr ⟨(pr, qr), hmem, by simp [hcr]⟩

theorem fillRepls_mem_ex {items : List Item} {p : Nat × Seg}
    (h : p ∈ fillRepls items) :
    ∃ pr qr, (pr, qr) ∈ (strophesIdx items).zip (strophesIdx items).tail ∧
      canReplace pr.2 qr.2 = true ∧ p.1 = qr.1 ∧ p.2 = replSegment pr.2 qr.2 := by
  rw [fillRepls] at h
  obtain ⟨pc, hpc, hsome⟩ := List.mem_filterMap.mp h
  by_cases hcr : canReplace pc.1.2 pc.2.2 = true
  · rw [if_pos hcr] at hsome
    injection hsome with hsome
    exact ⟨pc.1, pc.2, hpc, hcr, by rw [← hsome], by rw [← hsome]⟩
  · rw [if_neg hcr] at hsome
    cases hsome

theorem zip_snd_unique {l : List (Nat × Item)}
    (hpw : List.Pairwise (fun p q => p.1 < q.1) l)
    {pr qr pr2 qr2 : Nat × Item}
    (h1 : (pr, qr) ∈ l.zip l.tail) (h2 : (pr2, qr2) ∈ l.zip l.tail)
    (heq : qr.1 = qr2.1) : pr = pr2 ∧ qr = qr2 := by
  obtain ⟨m, hm1, hm2⟩ := mem_zip_tail l pr qr h1
  obtain ⟨m2, hn1, hn2⟩ := mem_zip_tail l pr2 qr2 h2
  have hmm : m + 1 = m2 + 1 := get?_fst_inj hpw (m + 1) (m2 + 1) qr qr2 hm2 hn2 heq
  have hm : m = m2 := by omega
  subst hm
  rw [hm1] at hn1
  rw [hm2] at hn2
  exact ⟨Option.some.inj hn1, Option.some.inj hn2⟩

theorem fill_pair_false (items : List Item) (pr qr : Nat × Item)
    (hmem : (pr, qr) ∈ (strophesIdx items).zip (strophesIdx items).tail) :
    canReplace (fillTransform (fillRepls items) pr.1 pr.2)
      (fillTransform (fillRepls items) qr.1 qr.2) = false := by
  have hpwS : List.Pairwise (fun p q => p.1 < q.1) (strophesIdx items) :=
    strophesIdxAux_pairwise items 0
  have hpwR := fillRepls_pairwise items
  have hpmem : pr ∈ strophesIdx items := (List.of_mem_zip hmem).1
  have hqmem : qr ∈ strophesIdx items :=
    List.mem_of_mem_tail (List.of_mem_zip hmem).2
  by_cases hcr : canReplace pr.2 qr.2 = true
  · have hmemR := mem_fillRepls_of hmem hcr
    have hq : fillTransform (fillRepls items) qr.1 qr.2 =
        qr.2.setFirstSeg (replSegment pr.2 qr.2) := by
      unfold fillTransform
      rw [find?_key_some hpwR hmemR]
    obtain ⟨⟨tq, hqh⟩, hqa, hqe, hpe, c0, t0, hpl⟩ := canReplace_elim hcr
    have hrepl : replSegment pr.2 qr.2 = .chorded c0 (((Seg.plain tq).text).getD []) := by
      rw [replSegment, hpl, hqh]
    have hne : qr.2.segments ≠ [] := by
      intro h0
      rw [h0] at hqh
      cases hqh
    apply canReplace_false_of_head (c := c0) (t := ((Seg.plain tq).text).getD [])
    rw [hq, setFirstSeg_segments, head?_set_zero _ hne, hrepl]
  · have hcrF : canReplace pr.2 qr.2 = false := by
      cases hv : canReplace pr.2 qr.2
      · rfl
      · exact absurd hv hcr
    have hqT : fillTransform (fillRepls items) qr.1 qr.2 = qr.2 := by
      apply fillTransform_not_key
      intro p hp heq
      obtain ⟨pr2, qr2, hmem2, hcr2, hj, -⟩ := fillRepls_mem_ex hp
      have hqeq : qr2.1 = qr.1 := by rw [← hj, heq]
      obtain ⟨hpr, hqr⟩ := zip_snd_unique hpwS hmem2 hmem hqeq
      rw [hpr, hqr] at hcr2
      exact hcr hcr2
    cases hfind : (fillRepls items).find? (fun p => p.1 == pr.1) with
    | none =>
      have hpT : fillTransform (fillRepls items) pr.1 pr.2 = pr.2 := by
        unfold fillTransform
        rw [hfind]
      rw [hpT, hqT]
      exact hcrF
    | some p0 =>
      have hp0mem : p0 ∈ fillRepls items := List.mem_of_find?_eq_some hfind
      have hp0j : p0.1 = pr.1 := by
        have := List.find?_some hfind
        simpa using this
      obtain ⟨pr2, qr2, hmem2, hcr2, hj, -⟩ := fillRepls_mem_ex hp0mem
      have hqq : qr2 = pr :=
        mem_fst_inj hpwS (List.mem_of_mem_tail (List.of_mem_zip hmem2).2) hpmem
          (by rw [← hj, hp0j])
      rw [hqq] at hcr2
      obtain ⟨⟨tp, hph⟩, hpany, -, -, -⟩ := canReplace_elim hcr2
      have hlen2 : 2 ≤ pr.2.segments.length := head_plain_any_len hph hpany
      have hpT : fillTransform (fillRepls items) pr.1 pr.2 = pr.2.setFirstSeg p0.2 := by
        unfold fillTransform
        rw [hfind]
      rw [hpT, hqT]
      have h1 : (pr.2.setFirstSeg p0.2).segments.isEmpty = pr.2.segments.isEmpty := by
        rw [setFirstSeg_segments, isEmpty_set_zero]
      have h2 : (pr.2.setFirstSeg p0.2).segments.getLast? = pr.2.segments.getLast? := by
        rw [setFirstSeg_segments, getLast?_set_zero _ hlen2]
      rw [canReplace_congr_prev qr.2 h1 h2]
      exact hcrF

theorem fillRepls_of_fill_nil (items : List Item) :
    fillRepls (fillInitialPlainSegments items) = [] := by
  rw [fillInitialPlainSegments,
    applyRepls_eq_mapWithIdx (fillRepls items) items (fillRepls_pairwise items)]
  rw [fillRepls]
  have hS : strophesIdx (mapWithIdx (fillTransform (fillRepls items)) 0 items) =
      (strophesIdx items).map fun p => (p.1, fillTransform (fillRepls items) p.1 p.2) := by
    rw [strophesIdx, strophesIdx]
    exact strophesIdxAux_mapWithIdx _ (fillTransform_isStrophe _) items 0
  rw [hS]
  have hT : ((strophesIdx items).map
      fun p => (p.1, fillTransform (fillRepls items) p.1 p.2)).tail =
      (strophesIdx items).tail.map
        fun p => (p.1, fillTransform (fillRepls items) p.1 p.2) := by
    cases strophesIdx items <;> rfl
  rw [hT, List.zip_map, List.filterMap_map]
  rw [List.filterMap_eq_nil]
  intro pc hpc
  obtain ⟨pr, qr⟩ := pc
  have := fill_pair_false items pr qr hpc
  simp only [Function.comp, Prod.map]
  rw [if_neg (by rw [this]; exact Bool.false_ne_true)]

theorem fill_idempotent (items : List Item) :
    fillInitialPlainSegments (fillInitialPlainSegments items) =
      fillInitialPlainSegments items := by
  conv_lhs => rw [fillInitialPlainSegments]
  rw [fillRepls_of_fill_nil]
  rfl

theorem mem_stropheMarks_of :
    ∀ (items : List Item) (it : Item) (m : Mark), it ∈ items → it.isStrophe = true →
      it.mark = some m → m ∈ stropheMarks items := by
  have aux : ∀ (items : List Item) (k : Nat) (it : Item) (m : Mark), it ∈ items →
      it.isStrophe = true → it.mark = some m →
      m ∈ (stropheMarksIdxAux k items).map Prod.snd := by
    intro items
    induction items with
    | nil => intro k it m hmem; simp at hmem
    | cons it2 rest ih =>
      intro k it m hmem hstr hmark
      rw [stropheMarksIdxAux, List.map_append, List.mem_append]
      rcases List.mem_cons.mp hmem with rfl | hmem2
      · left
        rw [hstr, hmark]
        simp
      · right
        exact ih (k + 1) it m hmem2 hstr hmark
  intro items it m hmem hstr hmark
  rw [stropheMarks, stropheMarksIdx]
  exact aux items 0 it m hmem hstr hmark

/-- Core of the idempotence of `Song.normalized`: on the output of the first
run (the filled, coda-recognized, chorus-inferred item list), the chorus
inference and the coda pass are both the identity. -/
theorem second_round (linked coded : List Item)
    (hcodas : recognizeCodas (inferChorusRepetition linked) = some coded) :
    inferChorusRepetition (fillInitialPlainSegments coded) =
        fillInitialPlainSegments coded ∧
      recognizeCodas (fillInitialPlainSegments coded) =
        some (fillInitialPlainSegments coded) := by
  by_cases hfire : ¬((stropheKinds linked).length ≤ 2 ∨
      (stropheKinds linked).length < linked.length) ∧
      stropheKinds linked = MarkKind.numberedK :: MarkKind.chorusK ::
        List.replicate ((stropheKinds linked).length - 2) MarkKind.numberedK
  · -- the chorus-repetition pass fired
    obtain ⟨hC, hB⟩ := hfire
    have hlenK : (stropheKinds linked).length = linked.length := by
      have h1 := stropheKinds_length_le linked
      omega
    have hgt2 : 2 < (stropheKinds linked).length := by omega
    have hall := all_strophes_of_kinds_length linked hlenK
    obtain ⟨a, l1, rfl⟩ : ∃ a l1, linked = a :: l1 := by
      cases linked with
      | nil => exfalso; rw [hlenK] at hgt2; simp at hgt2
      | cons a l1 => exact ⟨a, l1, rfl⟩
    obtain ⟨b, rest, rfl⟩ : ∃ b rest, l1 = b :: rest := by
      cases l1 with
      | nil => exfalso; rw [hlenK] at hgt2; simp at hgt2
      | cons b rest => exact ⟨b, rest, rfl⟩
    have hrestne : rest ≠ [] := by
      intro h0
      subst h0
      rw [hlenK] at hgt2
      simp at hgt2
    obtain ⟨hsa, ma, hma⟩ := hall a (by simp)
    obtain ⟨hsb, mb, hmb⟩ := hall b (by simp)
    have hdec : stropheKinds (a :: b :: rest) =
        Mark.kind ma :: Mark.kind mb :: stropheKinds rest := by
      rw [stropheKinds_cons_strophe a _ ma hsa hma,
        stropheKinds_cons_strophe b _ mb hsb hmb]
    rw [hdec] at hB
    simp only [List.length_cons] at hB
    have hsub : (stropheKinds rest).length + 1 + 1 - 2 = (stropheKinds rest).length := by
      omega
    rw [hsub] at hB
    injection hB with hka hB
    injection hB with hkb hB
    -- hka : kind ma = numberedK, hkb : kind mb = chorusK,
    -- hB : stropheKinds rest = replicate _ numberedK
    have hrestlen : (stropheKinds rest).length = rest.length := by
      rw [hdec] at hlenK
      simp only [List.length_cons] at hlenK
      omega
    have hI : inferChorusRepetition (a :: b :: rest) =
        a :: b :: rest.flatMap fun st => [st, Item.stropheRepeat b] := by
      apply inferChorusRepetition_fires a b rest hrestne
      rw [hdec, hka, hkb, hB, hrestlen]
    have hrestN : ∀ st ∈ rest, ∃ m, st.mark = some m ∧ Mark.kind m = MarkKind.numberedK := by
      intro st hst
      obtain ⟨hss, m, hm⟩ := hall st (by simp [hst])
      refine ⟨m, hm, ?_⟩
      have hmm : m ∈ stropheMarks rest := mem_stropheMarks_of rest st m hst hss hm
      have : Mark.kind m ∈ stropheKinds rest := by
        rw [stropheKinds_eq_map_marks]
        exact List.mem_map_of_mem Mark.kind hmm
      rw [hB] at this
      exact List.eq_of_mem_replicate this
    -- all marks of the rewritten song are numbered- or chorus-kinded
    have hkinds2 : ∀ m ∈ stropheMarks (a :: b :: rest.flatMap
        fun st => [st, Item.stropheRepeat b]),
        Mark.kind m = MarkKind.numberedK ∨ Mark.kind m = MarkKind.chorusK := by
      intro m hm
      obtain ⟨it, hit, hstr, hmark⟩ := stropheMarks_mem_ex _ m hm
      rcases List.mem_cons.mp hit with rfl | hit2
      · rw [hma] at hmark
        injection hmark with hmark
        subst hmark
        exact Or.inl hka
      rcases List.mem_cons.mp hit2 with rfl | hit3
      · rw [hmb] at hmark
        injection hmark with hmark
        subst hmark
        exact Or.inr hkb
      rw [List.mem_flatMap] at hit3
      obtain ⟨st, hst, hit4⟩ := hit3
      rcases List.mem_cons.mp hit4 with rfl | hit5
      · obtain ⟨m2, hm2, hk2⟩ := hrestN it hst
        rw [hm2] at hmark
        injection hmark with hmark
        subst hmark
        exact Or.inl hk2
      rcases List.mem_cons.mp hit5 with rfl | hit6
      · rw [show (Item.stropheRepeat b).mark = b.mark from rfl, hmb] at hmark
        injection hmark with hmark
        subst hmark
        exact Or.inr hkb
      · simp at hit6
    have hlets2 : letteredLetters (a :: b :: rest.flatMap
        fun st => [st, Item.stropheRepeat b]) = [] := by
      rw [letteredLetters_eq]
      rw [List.filterMap_eq_nil]
      intro m hm
      exact letterOf_none_of_kind m (hkinds2 m hm)
    have hcodasI : recognizeCodas (a :: b :: rest.flatMap
        fun st => [st, Item.stropheRepeat b]) =
        some (a :: b :: rest.flatMap fun st => [st, Item.stropheRepeat b]) := by
      apply recognizeCodas_id
      intro hcon
      rw [hlets2] at hcon
      cases hcon.1
    rw [hI, hcodasI] at hcodas
    injection hcodas with hcodas
    subst hcodas
    constructor
    · -- second chorus inference is the identity: position 3 is chorus-kinded
      apply inferChorusRepetition_id
      right
      right
      intro hpat
      rw [fill_stropheKinds] at hpat
      obtain ⟨st0, rest2, rfl⟩ : ∃ st0 rest2, rest = st0 :: rest2 := by
        cases rest with
        | nil => exact absurd rfl hrestne
        | cons st0 rest2 => exact ⟨st0, rest2, rfl⟩
      obtain ⟨hss0, m0, hm0⟩ := hall st0 (by simp)
      obtain ⟨m0b, hm0b, hk0⟩ := hrestN st0 (by simp)
      rw [hm0] at hm0b
      injection hm0b with hm0b
      subst hm0b
      have hk4 : stropheKinds (a :: b :: (st0 :: rest2).flatMap
          fun st => [st, Item.stropheRepeat b]) =
          Mark.kind ma :: Mark.kind mb :: Mark.kind m0 :: Mark.kind mb ::
            stropheKinds (rest2.flatMap fun st => [st, Item.stropheRepeat b]) := by
        rw [show (st0 :: rest2).flatMap (fun st => [st, Item.stropheRepeat b]) =
          st0 :: Item.stropheRepeat b ::
            rest2.flatMap (fun st => [st, Item.stropheRepeat b]) from rfl]
        rw [stropheKinds_cons_strophe a _ ma hsa hma,
          stropheKinds_cons_strophe b _ mb hsb hmb,
          stropheKinds_cons_strophe st0 _ m0 hss0 hm0,
          stropheKinds_cons_strophe (Item.stropheRepeat b) _ mb rfl
            (by show b.mark = some mb; exact hmb)]
      rw [hk4, hka, hkb, hk0] at hpat
      injection hpat with h1 hpat
      injection hpat with h2 hpat
      have hch : MarkKind.chorusK ∈ (MarkKind.numberedK :: MarkKind.chorusK ::
          stropheKinds (rest2.flatMap fun st => [st, Item.stropheRepeat b])) := by
        simp
      rw [hpat] at hch
      have := List.eq_of_mem_replicate hch
      cases this
    · -- second coda pass is the identity: no lettered marks remain
      apply recognizeCodas_id
      intro hcon
      rw [fill_letteredLetters, hlets2] at hcon
      cases hcon.1
  · -- the chorus-repetition pass did not fire
    have hI : inferChorusRepetition linked = linked := by
      apply inferChorusRepetition_id
      by_cases hC : (stropheKinds linked).length ≤ 2 ∨
          (stropheKinds linked).length < linked.length
      · rcases hC with hC | hC
        · exact Or.inl hC
        · exact Or.inr (Or.inl hC)
      · right
        right
        intro hB
        exact hfire ⟨hC, hB⟩
    rw [hI] at hcodas
    by_cases hcond : letteredLetters linked = ['C'] ∧
        (stropheMarks linked).getLast? = some (Mark.lettered 'C')
    · -- the coda pass fired: the lettered C is gone afterwards
      obtain ⟨hm3, hl3, hlen3⟩ := recognizeCodas_fired linked coded hcond.1 hcond.2 hcodas
      constructor
      · apply inferChorusRepetition_id_of_bad_mark _ Mark.coda
        · rw [fill_stropheMarks, hm3]
          simp
        · exact ⟨by decide, by decide⟩
      · apply recognizeCodas_id
        intro hcon
        rw [fill_letteredLetters, hl3] at hcon
        cases hcon.1
    · -- the coda pass did not fire either: nothing changed
      have hid := recognizeCodas_id linked hcond
      rw [hid] at hcodas
      injection hcodas with hcodas
      subst hcodas
      constructor
      · apply inferChorusRepetition_id
        by_cases hC : (stropheKinds linked).length ≤ 2 ∨
            (stropheKinds linked).length < linked.length
        · rcases hC with hC | hC
          · exact Or.inl (by rw [fill_stropheKinds]; exact hC)
          · refine Or.inr (Or.inl ?_)
            rw [fill_stropheKinds, fill_length]
            exact hC
        · right
          right
          intro hB
          rw [fill_stropheKinds] at hB
          exact hfire ⟨hC, hB⟩
      · apply recognizeCodas_id
        intro hcon
        rw [fill_letteredLetters, fill_stropheMarks] at hcon
        exact hcond hcon

/-- C3: `normalized()` is idempotent: whenever normalization succeeds with
output `t`, normalizing `t` again succeeds and returns `t` unchanged
(`song.normalized().normalized() == song.normalized()`). -/
theorem normalized_idempotent (s t : Song) (h : s.normalized = some t) :
    t.normalized = some t := by
  unfold Song.normalized at h
  simp only [Option.bind_eq_bind, Option.bind_eq_some, Option.pure_def,
    Option.some.injEq] at h
  obtain ⟨linked, hlink, coded, hcodas, hteq⟩ := h
  subst hteq
  have F1 : ∀ it ∈ linked, it.isRepeatSame = false :=
    linkGo_noRepeatSame s.items [] linked hlink
  have F2 := infer_noRepeatSame linked F1
  have F3 := recognizeCodas_noRepeatSame _ coded hcodas F2
  have F4 := fill_noRepeatSame coded F3
  obtain ⟨hinfer2, hcodas2⟩ := second_round linked coded hcodas
  have hlink2 : linkStropheRepeats (fillInitialPlainSegments coded) =
      some (fillInitialPlainSegments coded) := linkGo_id _ [] F4
  show Song.normalized ⟨s.annotations, fillInitialPlainSegments coded⟩ =
    some ⟨s.annotations, fillInitialPlainSegments coded⟩
  unfold Song.normalized
  simp only [Option.bind_eq_bind]
  rw [hlink2]
  simp only [Option.some_bind]
  rw [hinfer2, hcodas2]
  simp only [Option.some_bind, Option.pure_def]
  rw [fill_idempotent]

/-- C3 witness: the four-strophe song `exC3w` normalizes to `exC3out`
(chorus repeats inserted, chorus first segment chorded), and by the theorem a
second normalization leaves `exC3out` unchanged. -/
theorem normalized_idempotent_witness :
    exC3w.normalized = some exC3out ∧ exC3out.normalized = some exC3out :=
  ⟨by rfl, normalized_idempotent exC3w exC3out (by rfl)⟩
